import Mathlib

/-!
# dataurl: a shallow embedding of `dataurl.go`

The Go package `github.com/lestrrat-go/dataurl` parses and produces RFC 2397
`data:` URLs.  This file embeds its functions (`unescape`, `isNotReserved`,
`writeEscapedSequence`, `parseData`, `parseBase64Marker`, `Parse`, `Encode`)
as Lean functions over lists of bytes and proves properties of them.

Conventions
* a Go `byte` is a `Fin 256`; a `[]byte` and a `string` are both `List (Fin 256)`;
* a fallible Go function `(T, error)` returns `Except E T`, with one constructor
  of `E` per `fmt.Errorf` call of the source;
* a Go `map[string]string` is an association list with pairwise distinct keys;
* the standard-library collaborators `mime.ParseMediaType`,
  `mime.FormatMediaType` and `http.DetectContentType` are parameters of the
  embedding (structure `Mime`), so that every theorem stated for an arbitrary
  `Mime` holds whatever those functions compute; what a theorem needs from them
  is a hypothesis, which a lemma proves for the reference model `stdlib`;
* the order in which `for k, v := range params` produces the entries of a map
  is a parameter as well (a `Schedule`).
-/

namespace Dataurl

/-! ## Results -/

instance instDecidableEqExcept {ε α : Type} [DecidableEq ε] [DecidableEq α] :
    DecidableEq (Except ε α)
  | .ok a, .ok b =>
    if h : a = b then isTrue (by rw [h]) else isFalse (fun h2 => h (Except.ok.inj h2))
  | .error a, .error b =>
    if h : a = b then isTrue (by rw [h]) else isFalse (fun h2 => h (Except.error.inj h2))
  | .ok _, .error _ => isFalse (fun h => Except.noConfusion h)
  | .error _, .ok _ => isFalse (fun h => Except.noConfusion h)

/-! ## Bytes -/

/-- A Go `byte`. -/
abbrev Byte := Fin 256

/-- A Go `[]byte` (and, as Go strings are byte sequences, a Go `string`). -/
abbrev Bytes := List Byte

/-- The bytes of an ASCII string literal. -/
def ascii (s : String) : Bytes := s.toList.map (fun c => Fin.ofNat c.toNat)

/-! ## `encoding/hex` (standard library), as far as `unescape` uses it -/

/-- Go `hex.reverseHexTable`: the value of a hexadecimal digit, `none` for the
table's `0xff` entries. -/
def fromHexChar (c : Byte) : Option Nat :=
  if 48 ≤ c.val ∧ c.val ≤ 57 then some (c.val - 48)
  else if 97 ≤ c.val ∧ c.val ≤ 102 then some (c.val - 97 + 10)
  else if 65 ≤ c.val ∧ c.val ≤ 70 then some (c.val - 65 + 10)
  else none

/-- Go `hex.Decode(buf, src)` for a two-byte `src = [p, q]` and a one-byte
`buf`: the byte `(a << 4) | b`, or `none` for `InvalidByteError`. -/
def hexDecode (p q : Byte) : Option Byte :=
  match fromHexChar p, fromHexChar q with
  | some a, some b => some (Fin.ofNat (a * 16 + b))
  | _, _ => none

/-- The digit `"0123456789ABCDEF"[n]` that `fmt` prints for `%X`. -/
def upperhex (n : Nat) : Byte :=
  if n < 10 then Fin.ofNat (48 + n) else Fin.ofNat (55 + n)

/-! ## `isNotReserved`, `writeEscapedSequence`, `unescape` -/

/-- Source `isNotReserved` (dataurl.go:282). -/
def isNotReserved (b : Byte) : Bool :=
  (b.val ≥ 48 && b.val ≤ 57) ||   -- 0-9
  (b.val ≥ 97 && b.val ≤ 122) ||  -- a-z
  (b.val ≥ 65 && b.val ≤ 90) ||   -- A-Z
  (b.val ≥ 39 && b.val ≤ 42) ||   -- ', (, ), *
  (b.val ≥ 45 && b.val ≤ 46) ||   -- -, .
  b.val == 33 ||
  b.val == 95 ||
  b.val == 126

/-- What one iteration of the loop of `writeEscapedSequence` appends for the
byte `b`: the byte itself, or the output of `fmt.Fprintf(dst, "%%%02X", b)`. -/
def escapeByte (b : Byte) : Bytes :=
  if isNotReserved b then [b]
  else [37, upperhex (b.val / 16), upperhex (b.val % 16)]

/-- Source `writeEscapedSequence` (dataurl.go:293): the contents of the buffer
`dst` after the call. -/
def writeEscapedSequence (dst : Bytes) (data : Bytes) : Bytes :=
  data.foldl (fun buf b => buf ++ escapeByte b) dst

/-- The three `fmt.Errorf` calls of `unescape`, with their arguments. -/
inductive UnescapeError where
  /-- The message `unexpected end of byte sequence at byte %d`. -/
  | unexpectedEnd (i : Nat)
  /-- The message `invalid hexadecimal sequence starting at byte %d`. -/
  | invalidHex (i : Nat)
  /-- The message `reserved character %q found at byte %d`. -/
  | reservedChar (c : Byte) (i : Nat)
  deriving DecidableEq, Repr

/-- The loop of source `unescape` (dataurl.go:158) from index `i` on, where the
second argument is the slice `data[i:]`.  The test `i > max-2` with
`max = len(data)-1` holds exactly when fewer than two bytes follow the `%`;
`i += 2` together with the loop's `i++` continues three bytes further. -/
def unescapeFrom (strict : Bool) : Nat → Bytes → Except UnescapeError Bytes
  | _, [] => .ok []
  | i, c :: rest =>
    if c = 37 then
      match rest with
      | p :: q :: rest2 =>
        match hexDecode p q with
        | none => .error (.invalidHex i)
        | some b =>
          match unescapeFrom strict (i + 3) rest2 with
          | .ok out => .ok (b :: out)
          | .error e => .error e
      | _ => .error (.unexpectedEnd i)
    else if !strict then
      match unescapeFrom strict (i + 1) rest with
      | .ok out => .ok (c :: out)
      | .error e => .error e
    else if isNotReserved c then
      match unescapeFrom strict (i + 1) rest with
      | .ok out => .ok (c :: out)
      | .error e => .error e
    else .error (.reservedChar c i)

/-- Source `unescape` (dataurl.go:150). -/
def unescape (data : Bytes) (strict : Bool) : Except UnescapeError Bytes :=
  unescapeFrom strict 0 data


/-! ## The percent-escaping grammar, in the words of the specification -/

/-- The unreserved set as the specification lists it: `0-9A-Za-z` and the
characters `'`, `(`, `)`, `*`, `-`, `.`, `!`, `_`, `~`. -/
def unreservedSpec : Bytes :=
  ascii "0123456789ABCDEFGHIJKLMNOPQRSTUVWXYZabcdefghijklmnopqrstuvwxyz'()*-.!_~"

/-- The sixteen upper-case hexadecimal digits, in order of value. -/
def upperHexDigits : Bytes := ascii "0123456789ABCDEF"

/-- The sixteen lower-case hexadecimal digits, in order of value. -/
def lowerHexDigits : Bytes := ascii "0123456789abcdef"

/-- A hexadecimal digit `0-9a-fA-F`. -/
def isHexDigit (c : Byte) : Bool := decide (c ∈ ascii "0123456789abcdefABCDEF")

/-- The value of a hexadecimal digit: its position among the sixteen digits,
in either case (16 for a byte that is no digit). -/
def hexValue (c : Byte) : Nat :=
  min (lowerHexDigits.indexOf c) (upperHexDigits.indexOf c)

/-- The escaped form of one byte as the specification describes it: the byte
itself when unreserved, otherwise `%` and its value as two upper-case
hexadecimal digits. -/
def escapeByteSpec (b : Byte) : Bytes :=
  if b ∈ unreservedSpec then [b]
  else [37, upperHexDigits.getD (b.val / 16) 0, upperHexDigits.getD (b.val % 16) 0]

/-- A piece of percent-escaped text: a byte standing for itself, or a triple
`%pq`. -/
inductive Segment where
  /-- A byte copied unchanged. -/
  | lit (c : Byte)
  /-- The triple `%pq`. -/
  | esc (p q : Byte)
  deriving DecidableEq, Repr

/-- The bytes a segment occupies in the escaped text. -/
def Segment.source : Segment → Bytes
  | .lit c => [c]
  | .esc p q => [37, p, q]

/-- The byte a segment stands for: `%HH` stands for the byte of value `HH`. -/
def Segment.value : Segment → Byte
  | .lit c => c
  | .esc p q => Fin.ofNat (hexValue p * 16 + hexValue q)

/-- A literal segment is not `%`; the two bytes after the `%` of a triple are
hexadecimal digits. -/
def Segment.WellFormed : Segment → Prop
  | .lit c => c ≠ 37
  | .esc p q => isHexDigit p = true ∧ isHexDigit q = true

/-- The byte at index `i` is a `%` that is not followed by two hexadecimal
digits (because the text ends before index `i+2`, or one of the two bytes is
no digit). -/
def DanglingAt (data : Bytes) (i : Nat) : Prop :=
  data[i]? = some 37 ∧
    ¬ ∃ p q, data[i + 1]? = some p ∧ data[i + 2]? = some q ∧
        isHexDigit p = true ∧ isHexDigit q = true

/-! ## `unescape` with the index arithmetic of the source -/

/-- The loop of source `unescape` (dataurl.go:158-183) written with its index
`i`, its bound `max = len(data) - 1`, the test `i > max-2` over Go's signed
`int`, the slice `data[i+1:i+3]` and the buffer `dst`, as a cross-check of
`unescapeFrom`.  The first argument bounds the number of iterations; `none`
means that the bound was reached before the loop ended. -/
def unescapeLoop (data : Bytes) (strict : Bool) :
    Nat → Nat → Bytes → Option (Except UnescapeError Bytes)
  | 0, _, _ => none
  | fuel + 1, i, dst =>
    if i < data.length then
      let c := data.getD i 0
      if c = 37 then
        if (i : Int) > ((data.length : Int) - 1) - 2 then some (.error (.unexpectedEnd i))
        else
          match hexDecode (data.getD (i + 1) 0) (data.getD (i + 2) 0) with
          | none => some (.error (.invalidHex i))
          | some b => unescapeLoop data strict fuel (i + 1 + 2) (dst ++ [b])
      else if !strict then unescapeLoop data strict fuel (i + 1) (dst ++ [c])
      else if isNotReserved c then unescapeLoop data strict fuel (i + 1) (dst ++ [c])
      else some (.error (.reservedChar c i))
    else some (.ok dst)

/-- Source `unescape` run with as many iterations as the input has bytes, plus
one for the final test of the loop condition. -/
def unescapeIndexed (data : Bytes) (strict : Bool) : Option (Except UnescapeError Bytes) :=
  unescapeLoop data strict (data.length + 1) 0 []

/-! ## Go maps and `range` over a map that the loop body changes -/

/-- A Go `map[string]string`: an association list with pairwise distinct keys.
The order of the list carries no meaning. -/
abbrev Params := List (Bytes × Bytes)

/-- The map read `m[k]`, with the `ok` flag as `Option`. -/
def mapGet : Params → Bytes → Option Bytes
  | [], _ => none
  | (k2, v) :: rest, k => if k2 = k then some v else mapGet rest k

/-- The statement `delete(m, k)`. -/
def mapDelete (m : Params) (k : Bytes) : Params :=
  m.filter (fun e => decide (e.1 ≠ k))

/-- The assignment `m[k] = v`: the entry of `k` is replaced where it stands, a
new entry is created otherwise. -/
def mapSet : Params → Bytes → Bytes → Params
  | [], k, v => [(k, v)]
  | (k2, v2) :: rest, k, v =>
    if k2 = k then (k, v) :: rest else (k2, v2) :: mapSet rest k v

/-- The keys of a map. -/
def mapKeys (m : Params) : List Bytes := m.map Prod.fst

/-- Two association lists that denote the same Go map. -/
def MapEq (m1 m2 : Params) : Prop := ∀ k, mapGet m1 k = mapGet m2 k

/-- One decision of the Go runtime during `for k, v := range m`: which of the
entries still to be produced comes next (`pick`, taken modulo their number),
and whether an entry that the loop body creates while handling it will be
produced later in the same loop (`revisit`).  The Go specification leaves
both open: "The iteration order over maps is not specified" and "If a map
entry is created during iteration, that entry may be produced during the
iteration or may be skipped." -/
structure Choice where
  /-- Index of the next entry among those still to be produced. -/
  pick : Nat
  /-- Whether an entry created by this iteration is produced later. -/
  revisit : Bool
  deriving DecidableEq, Repr

/-- The decisions of the runtime for one `range` loop, one per iteration; once
the list is used up the remaining entries come in the order they are held and
created entries are skipped. -/
abbrev Schedule := List Choice

/-! ## `encoding/base64` (standard library): `base64.StdEncoding` -/

/-- The alphabet of `base64.StdEncoding`. -/
def b64alphabet : Bytes :=
  ascii "ABCDEFGHIJKLMNOPQRSTUVWXYZabcdefghijklmnopqrstuvwxyz0123456789+/"

/-- Go `enc.encode[n]`. -/
def b64char (n : Nat) : Byte := b64alphabet.getD n 0

/-- Go `enc.decodeMap[c]`, with `none` for the table's `0xff` entries. -/
def b64value (c : Byte) : Option Nat :=
  if 65 ≤ c.val ∧ c.val ≤ 90 then some (c.val - 65)
  else if 97 ≤ c.val ∧ c.val ≤ 122 then some (c.val - 97 + 26)
  else if 48 ≤ c.val ∧ c.val ≤ 57 then some (c.val - 48 + 52)
  else if c.val = 43 then some 62
  else if c.val = 47 then some 63
  else none

/-- Go `(*Encoding).Encode` for `StdEncoding` (padded), which is also what the
stream encoder of `base64.NewEncoder` has written after `Write(data)` and
`Close()`.  Three bytes form `val = a<<16 | b<<8 | c` and give the four
characters `encode[val>>18&0x3F]`, `encode[val>>12&0x3F]`, `encode[val>>6&0x3F]`,
`encode[val&0x3F]`; a remainder of one or two bytes is padded with `=`.
Shifts and masks are written as multiplication, division and remainder. -/
def b64encode : Bytes → Bytes
  | a :: b :: c :: rest =>
    let val := a.val * 65536 + b.val * 256 + c.val
    b64char (val / 262144 % 64) :: b64char (val / 4096 % 64) ::
      b64char (val / 64 % 64) :: b64char (val % 64) :: b64encode rest
  | [a, b] =>
    let val := a.val * 65536 + b.val * 256
    [b64char (val / 262144 % 64), b64char (val / 4096 % 64), b64char (val / 64 % 64), 61]
  | [a] =>
    let val := a.val * 65536
    [b64char (val / 262144 % 64), b64char (val / 4096 % 64), 61, 61]
  | [] => []

/-- The inner loops `for si < len(src) && (src[si] == '\n' || src[si] == '\r')`
of `decodeQuantum`. -/
def skipNewlines : Bytes → Bytes
  | [] => []
  | c :: rest => if c = 10 ∨ c = 13 then skipNewlines rest else c :: rest

/-- Go `(*Encoding).Decode` for `StdEncoding` (padded, not strict), as the
sequence of its `decodeQuantum` calls: the first argument holds the values
`dbuf[0..j)` of the quantum being read, the second the input from `src[si]`
on.  `none` stands for a `CorruptInputError`; the offset it carries is not
modelled.  Line breaks are skipped, a quantum cut short by the end of input is
an error, and after padding only line breaks may follow.  The 24-bit value
`dbuf[0]<<18 | dbuf[1]<<12 | dbuf[2]<<6 | dbuf[3]` is written as a sum. -/
def b64decodeFrom : List Nat → Bytes → Option Bytes
  | dbuf, [] => if dbuf = [] then some [] else none
  | dbuf, c :: rest =>
    match b64value c with
    | some v =>
      match dbuf with
      | [s0, s1, s2] =>
        let val := s0 * 262144 + s1 * 4096 + s2 * 64 + v
        match b64decodeFrom [] rest with
        | some out =>
          some (Fin.ofNat (val / 65536) :: Fin.ofNat (val / 256) :: Fin.ofNat val :: out)
        | none => none
      | _ => b64decodeFrom (dbuf ++ [v]) rest
    | none =>
      if c = 10 ∨ c = 13 then b64decodeFrom dbuf rest
      else if c ≠ 61 then none
      else
        match dbuf with
        | [s0, s1] =>
          match skipNewlines rest with
          | [] => none
          | c2 :: rest2 =>
            if c2 ≠ 61 then none
            else if skipNewlines rest2 ≠ [] then none
            else some [Fin.ofNat ((s0 * 262144 + s1 * 4096) / 65536)]
        | [s0, s1, s2] =>
          if skipNewlines rest ≠ [] then none
          else
            let val := s0 * 262144 + s1 * 4096 + s2 * 64
            some [Fin.ofNat (val / 65536), Fin.ofNat (val / 256)]
        | _ => none

/-- Go `b64enc.Decode(dst, data)` followed by `dst[:n]`. -/
def b64decode (data : Bytes) : Option Bytes := b64decodeFrom [] data

/-! ## `bytes` and `strings` (standard library) -/

/-- Go `bytes.HasPrefix(s, prefix)` and `strings.HasPrefix`. -/
def hasPrefix (s pre : Bytes) : Bool := pre.isPrefixOf s

/-- Go `bytes.Index(s, sep)` for the slice `s` that starts at offset `n` of the
whole: the offset of the first occurrence of `sep`, or `-1`. -/
def indexFrom (sep : Bytes) : Nat → Bytes → Int
  | n, [] => if sep = [] then (n : Int) else -1
  | n, c :: rest => if sep.isPrefixOf (c :: rest) then (n : Int) else indexFrom sep (n + 1) rest

/-- Go `bytes.Index(s, sep)`. -/
def bytesIndex (s sep : Bytes) : Int := indexFrom sep 0 s

/-- Go `bytes.IndexByte(s, c)` for the slice that starts at offset `n`. -/
def indexByteFrom (c : Byte) : Nat → Bytes → Int
  | _, [] => -1
  | n, b :: rest => if b = c then (n : Int) else indexByteFrom c (n + 1) rest

/-- Go `bytes.IndexByte(s, c)` and `strings.IndexByte`. -/
def indexByte (s : Bytes) (c : Byte) : Int := indexByteFrom c 0 s

/-- Go `strings.Replace(mt, "; ", ";", -1)`: every occurrence of `"; "`, found
from left to right without overlap, becomes `";"`. -/
def replaceSemicolonSpace : Bytes → Bytes
  | [] => []
  | [c] => [c]
  | c :: d :: rest =>
    if c = 59 ∧ d = 32 then 59 :: replaceSemicolonSpace rest
    else c :: replaceSemicolonSpace (d :: rest)

/-! ## The collaborators from `mime` and `net/http` -/

/-- The three standard-library functions the package calls and this
development does not fix: `mime.ParseMediaType` (`none` for a non-nil error),
`mime.FormatMediaType` and `http.DetectContentType`. -/
structure Mime where
  /-- Go `mime.ParseMediaType`. -/
  ParseMediaType : Bytes → Option (Bytes × Params)
  /-- Go `mime.FormatMediaType`. -/
  FormatMediaType : Bytes → Params → Bytes
  /-- Go `http.DetectContentType`. -/
  DetectContentType : Bytes → Bytes

/-! ## `Parse` -/

/-- Source type `MediaType` (dataurl.go:16). -/
structure MediaType where
  /-- Field `Type` (`Type` is a keyword of Lean). -/
  Typ : Bytes
  /-- Field `Params`. -/
  Params : Params
  deriving DecidableEq, Repr

/-- Source type `URL` (dataurl.go:22). -/
structure URL where
  /-- Field `MediaType`. -/
  MediaType : MediaType
  /-- Field `Data`. -/
  Data : Bytes
  deriving DecidableEq, Repr

/-- Source `scheme` (dataurl.go:27). -/
def scheme : Bytes := ascii "data:"

/-- Source `base64Marker` (dataurl.go:28). -/
def base64Marker : Bytes := ascii ";base64"

/-- Source `defaultMediaType` (dataurl.go:31). -/
def defaultMediaType : MediaType :=
  { Typ := ascii "text/plain", Params := [(ascii "charset", ascii "US-ASCII")] }

/-- The `fmt.Errorf` calls of `Parse`, `parseBase64Marker` and `parseData`. -/
inductive ParseError where
  /-- The message `invalid scheme`. -/
  | invalidScheme
  /-- The message `invalid data URL (no data)`. -/
  | noData
  /-- The message `failed to parse media type %q`. -/
  | mediaType (s : Bytes)
  /-- The message `failed to unescape parameter key %q: %w`. -/
  | paramKey (k : Bytes) (e : UnescapeError)
  /-- The message `failed to unescape parameter value for %q: %w`. -/
  | paramValue (k : Bytes) (e : UnescapeError)
  /-- The message `invalid data URL (invalid base64 marker)`. -/
  | invalidBase64Marker
  /-- The message `invalid data URL (invalid data section)`. -/
  | invalidDataSection
  /-- The message `invalid data URL (failed to escape data: %w)`. -/
  | escapeData (e : UnescapeError)
  /-- The message `invalid data URL (base64: %w, %q)`. -/
  | base64 (data : Bytes)
  deriving DecidableEq, Repr

/-- Source `parseData` (dataurl.go:124). -/
def parseData (mediaType : MediaType) (isBase64 : Bool) (data : Bytes) :
    Except ParseError URL :=
  if data.length < 2 ∨ data.head? ≠ some 44 then .error .invalidDataSection
  else
    let data := data.drop 1
    if !isBase64 then
      match unescape data true with
      | .error e => .error (.escapeData e)
      | .ok unescaped => .ok { MediaType := mediaType, Data := unescaped }
    else
      match b64decode data with
      | none => .error (.base64 data)
      | some dst => .ok { MediaType := mediaType, Data := dst }

/-- Source `parseBase64Marker` (dataurl.go:117). -/
def parseBase64Marker (mediaType : MediaType) (data : Bytes) : Except ParseError URL :=
  if !hasPrefix data base64Marker then .error .invalidBase64Marker
  else parseData mediaType true (data.drop base64Marker.length)

/-- The body of the loop `for k, v := range params` of `Parse`
(dataurl.go:80-100) for the entry `(k, v)`: the map after the iteration,
together with the key of the entry the iteration created, if it created one
(`params[uks] = ...` for a `uks` that was not a key after `delete(params, k)`). -/
def unescapeParam (params : Params) (k v : Bytes) :
    Except ParseError (Params × Option Bytes) :=
  match unescape k false with
  | .error e => .error (.paramKey k e)
  | .ok unescapedKey =>
    match unescape v false with
    | .error e => .error (.paramValue k e)
    | .ok unescapedValue =>
      if unescapedKey ≠ k then
        let params1 := mapDelete params k
        let created := (mapGet params1 unescapedKey).isNone
        .ok (mapSet params1 unescapedKey unescapedValue,
          if created then some unescapedKey else none)
      else if v ≠ unescapedValue then .ok (mapSet params k unescapedValue, none)
      else .ok (params, none)

/-- The loop `for k, v := range params` of `Parse` once the schedule is used
up: the entries still to be produced come in the order of `pending`, and
entries the body creates are not produced. -/
def rangeDrain : List Bytes → Params → Except ParseError Params
  | [], params => .ok params
  | k :: pending, params =>
    match mapGet params k with
    | none => rangeDrain pending params
    | some v =>
      match unescapeParam params k v with
      | .error e => .error e
      | .ok (params2, _) => rangeDrain pending params2

/-- The loop `for k, v := range params` of `Parse` under a schedule.
`pending` holds the keys of the entries still to be produced.  An entry whose
key is no longer in the map is not produced; the value handed to the body is
the one the map holds when the entry is produced. -/
def rangeParams : Schedule → List Bytes → Params → Except ParseError Params
  | [], pending, params => rangeDrain pending params
  | c :: sched, pending, params =>
    match pending with
    | [] => .ok params
    | k0 :: _ =>
      let k := pending.getD (c.pick % pending.length) k0
      let pending1 := pending.erase k
      match mapGet params k with
      | none => rangeParams sched pending1 params
      | some v =>
        match unescapeParam params k v with
        | .error e => .error e
        | .ok (params2, created) =>
          let pending2 :=
            match created with
            | some k2 => if c.revisit then pending1 ++ [k2] else pending1
            | none => pending1
          rangeParams sched pending2 params2

/-- Source `Parse` (dataurl.go:43), given the collaborators `ext` and the
decisions `sched` of the runtime for the `range` loop. -/
def Parse (ext : Mime) (sched : Schedule) (data : Bytes) : Except ParseError URL :=
  if !hasPrefix data scheme then .error .invalidScheme
  else
    let data := data.drop scheme.length
    if data.length < 1 then .error .noData
    else if data.head? = some 44 then parseData defaultMediaType false data
    else if data.head? = some 59 then parseBase64Marker defaultMediaType data
    else
      let i0 := bytesIndex data base64Marker
      let parseBase64 := decide (i0 > 0)
      let i := if i0 > 0 then i0 else indexByte data 44
      if i < 0 then .error .noData
      else
        match ext.ParseMediaType (data.take i.toNat) with
        | none => .error (.mediaType (data.take i.toNat))
        | some (typ, params) =>
          match rangeParams sched (mapKeys params) params with
          | .error e => .error e
          | .ok params =>
            let data := data.drop i.toNat
            let mt : MediaType := { Typ := typ, Params := params }
            if parseBase64 then parseBase64Marker mt data
            else parseData mt false data

/-! ## `Encode` -/

/-- The options of `Encode` (options_gen.go): the identity of an option and
its value. -/
inductive EncodeOption where
  /-- Source `WithBase64Encoding(v)`. -/
  | WithBase64Encoding (v : Bool)
  /-- Source `WithMediaType(v)`. -/
  | WithMediaType (v : Bytes)
  /-- Source `WithMediaTypeParams(v)`. -/
  | WithMediaTypeParams (v : Params)
  deriving DecidableEq, Repr

/-- The local variables `mt`, `params`, `explicitBase64` and `encodeBase64` of
`Encode`. -/
structure EncodeVars where
  /-- Variable `mt`. -/
  mt : Bytes
  /-- Variable `params`. -/
  params : Params
  /-- Variable `explicitBase64`. -/
  explicitBase64 : Bool
  /-- Variable `encodeBase64`. -/
  encodeBase64 : Bool
  deriving DecidableEq, Repr

/-- The loop over the options at the head of `Encode` (dataurl.go:205-215). -/
def applyOptions (options : List EncodeOption) : EncodeVars :=
  options.foldl
    (fun vars option =>
      match option with
      | .WithMediaType v => { vars with mt := v }
      | .WithMediaTypeParams v => { vars with params := v }
      | .WithBase64Encoding v => { vars with explicitBase64 := true, encodeBase64 := v })
    { mt := [], params := [], explicitBase64 := false, encodeBase64 := false }

/-- The one `fmt.Errorf` call of `Encode`. -/
inductive EncodeError where
  /-- The message `failed to parse media type: %w`. -/
  | parseMediaType
  deriving DecidableEq, Repr

/-- The media type string `Encode` writes after `data:` (dataurl.go:217-250):
the explicit or sniffed string, merged with the extra parameters, with every
`"; "` collapsed to `";"`. -/
def resolveMediaType (ext : Mime) (data : Bytes) (mt0 : Bytes) (params : Params) :
    Except EncodeError Bytes :=
  let mt := if mt0 = [] then ext.DetectContentType data else mt0
  let merged : Except EncodeError Bytes :=
    if indexByte mt 59 > -1 then
      if params.length ≠ 0 then
        match ext.ParseMediaType mt with
        | none => .error .parseMediaType
        | some (parsedMt, parsedParams) =>
          let parsedParams := params.foldl (fun acc kv => mapSet acc kv.1 kv.2) parsedParams
          .ok (ext.FormatMediaType parsedMt parsedParams)
      else .ok mt
    else if params.length ≠ 0 then .ok (ext.FormatMediaType mt params)
    else .ok mt
  match merged with
  | .error e => .error e
  | .ok mt => .ok (replaceSemicolonSpace mt)

/-- Source `Encode` (dataurl.go:199). -/
def Encode (ext : Mime) (data : Bytes) (options : List EncodeOption) :
    Except EncodeError Bytes :=
  let vars := applyOptions options
  match resolveMediaType ext data vars.mt vars.params with
  | .error e => .error e
  | .ok mt =>
    let dst := scheme ++ mt
    let encodeBase64 :=
      if !vars.explicitBase64 then
        if !hasPrefix mt (ascii "text") then true else vars.encodeBase64
      else vars.encodeBase64
    let dst := if encodeBase64 then dst ++ base64Marker else dst
    let dst := dst ++ [44]
    if encodeBase64 then .ok (dst ++ b64encode data)
    else .ok (writeEscapedSequence dst data)

/-! ## A reference model of the collaborators

The functions below follow the Go standard library (`mime/grammar.go`,
`mime/mediatype.go`, `net/http/sniff.go`), which is not part of this
repository.  They instantiate `Mime` where a statement is about one concrete
input, and lemmas about them show that what a theorem assumes of the
collaborators holds for them.  Their limits are stated in their comments. -/

/-- Go `mime.isTSpecial`. -/
def isTSpecial (c : Byte) : Bool := decide (c ∈ ascii "()<>@,;:\\\"/[]?=")

/-- Go `mime.isTokenChar`; a byte from `0x80` on belongs to a rune that is no
token character. -/
def isTokenChar (c : Byte) : Bool :=
  decide (c.val > 32) && decide (c.val < 127) && !isTSpecial c

/-- Go `mime.isToken`. -/
def isToken (s : Bytes) : Bool := decide (s ≠ []) && s.all isTokenChar

/-- Go `mime.consumeToken`. -/
def consumeToken (v : Bytes) : Bytes × Bytes :=
  (v.takeWhile isTokenChar, v.dropWhile isTokenChar)

/-- Go `unicode.IsSpace` on the ASCII range (tab, line feed, vertical tab,
form feed, carriage return, space); the white-space runes outside ASCII are
not modelled. -/
def isSpace (c : Byte) : Bool :=
  decide (c.val = 9 ∨ c.val = 10 ∨ c.val = 11 ∨ c.val = 12 ∨ c.val = 13 ∨ c.val = 32)

/-- Go `strings.TrimLeftFunc(v, unicode.IsSpace)`. -/
def trimLeft (v : Bytes) : Bytes := v.dropWhile isSpace

/-- Go `strings.TrimSpace`. -/
def trimSpace (v : Bytes) : Bytes := ((trimLeft v).reverse.dropWhile isSpace).reverse

/-- Go `strings.ToLower` on ASCII text; bytes from `0x80` on are left as they
are. -/
def toLower (s : Bytes) : Bytes :=
  s.map (fun c => if 65 ≤ c.val ∧ c.val ≤ 90 then Fin.ofNat (c.val + 32) else c)

/-- The loop of Go `mime.consumeValue` over a quoted string, after the opening
quote: the value collected so far and the input from index `i` on.  `none`
stands for the result `("", v)` of a string that is not closed. -/
def consumeQuoted : Bytes → Bytes → Option (Bytes × Bytes)
  | _, [] => none
  | buffer, r :: rest =>
    if r = 34 then some (buffer, rest)
    else if r = 92 ∧ rest.head?.map isTSpecial = some true then
      match rest with
      | n :: rest2 => consumeQuoted (buffer ++ [n]) rest2
      | [] => none
    else if r = 13 ∨ r = 10 then none
    else consumeQuoted (buffer ++ [r]) rest

/-- Go `mime.consumeValue`. -/
def consumeValue (v : Bytes) : Bytes × Bytes :=
  match v with
  | [] => ([], [])
  | c :: rest =>
    if c ≠ 34 then consumeToken v
    else
      match consumeQuoted [] rest with
      | some r => r
      | none => ([], v)

/-- Go `mime.consumeMediaParam`; `none` stands for the result `("", "", v)`. -/
def consumeMediaParam (v : Bytes) : Option (Bytes × Bytes × Bytes) :=
  match trimLeft v with
  | [] => none
  | c :: rest =>
    if c ≠ 59 then none
    else
      let (param, rest) := consumeToken (trimLeft rest)
      let param := toLower param
      if param = [] then none
      else
        match trimLeft rest with
        | [] => none
        | e :: rest =>
          if e ≠ 61 then none
          else
            let rest := trimLeft rest
            let (value, rest2) := consumeValue rest
            if value = [] ∧ rest2 = rest then none
            else some (param, value, rest2)

/-- Go `mime.checkMediaTypeDisposition`, `true` for a nil error. -/
def checkMediaTypeDisposition (s : Bytes) : Bool :=
  let (typ, rest) := consumeToken s
  if typ = [] then false
  else
    match rest with
    | [] => true
    | c :: rest =>
      if c ≠ 47 then false
      else
        let (subtype, rest) := consumeToken rest
        if subtype = [] then false else decide (rest = [])

/-- The parameter loop of Go `mime.ParseMediaType` (as of Go 1.18, where a
repeated parameter name is an error).  A parameter whose name contains `*`
(RFC 2231 continuations and encoded values) is outside this model, which
reports it as an error.  The first argument bounds the number of iterations;
every iteration consumes at least one byte of `v`. -/
def parseMediaParams : Nat → Bytes → Params → Option Params
  | 0, _, _ => none
  | fuel + 1, v, params =>
    let v := trimLeft v
    if v = [] then some params
    else
      match consumeMediaParam v with
      | none => if trimSpace v = [59] then some params else none
      | some (key, value, rest) =>
        if (42 : Byte) ∈ key then none
        else if (mapGet params key).isSome then none
        else parseMediaParams fuel rest (mapSet params key value)

/-- Go `mime.ParseMediaType` (see `parseMediaParams` for the limits). -/
def goParseMediaType (v : Bytes) : Option (Bytes × Params) :=
  let base := v.takeWhile (fun c => decide (c ≠ 59))
  let mediatype := trimSpace (toLower base)
  if !checkMediaTypeDisposition mediatype then none
  else
    match parseMediaParams (v.length + 1) (v.drop base.length) [] with
    | none => none
    | some params => some (mediatype, params)

/-- Byte-wise lexicographic `a ≤ b`, the order of Go `sort.Strings`. -/
def bytesLe : Bytes → Bytes → Bool
  | [], _ => true
  | _ :: _, [] => false
  | a :: as, b :: bs => if a.val < b.val then true else if b.val < a.val then false else bytesLe as bs

/-- Insertion into a sorted list of strings. -/
def insertSorted (k : Bytes) : List Bytes → List Bytes
  | [] => [k]
  | x :: xs => if bytesLe k x then k :: x :: xs else x :: insertSorted k xs

/-- Go `sort.Strings`. -/
def sortStrings (ks : List Bytes) : List Bytes := ks.foldr insertSorted []

/-- Go `mime.needsEncoding`. -/
def needsEncoding (s : Bytes) : Bool :=
  s.any (fun c => (decide (c.val < 32) || decide (c.val > 126)) && decide (c.val ≠ 9))

/-- The RFC 2231 form of a value in Go `mime.FormatMediaType`: `utf-8''`
followed by the value with every byte that is no attribute character
percent-encoded. -/
def encode2231 (value : Bytes) : Bytes :=
  ascii "utf-8''" ++
    (value.map (fun ch =>
      if ch.val ≤ 32 ∨ ch.val ≥ 127 ∨ ch.val = 42 ∨ ch.val = 39 ∨ ch.val = 37 ∨
          isTSpecial ch = true then
        [37, upperhex (ch.val / 16), upperhex (ch.val % 16)]
      else [ch])).flatten

/-- The quoted-string form of a value in Go `mime.FormatMediaType`. -/
def quoteValue (value : Bytes) : Bytes :=
  [34] ++ (value.map (fun c => if c = 34 ∨ c = 92 then [92, c] else [c])).flatten ++ [34]

/-- The loop over the sorted attribute names in Go `mime.FormatMediaType`;
`none` stands for the early `return ""`. -/
def formatParams (param : Params) : List Bytes → Bytes → Option Bytes
  | [], b => some b
  | attr :: attrs, b =>
    let value := (mapGet param attr).getD []
    if !isToken attr then none
    else
      let b := b ++ [59, 32] ++ toLower attr
      if needsEncoding value then
        formatParams param attrs (b ++ [42, 61] ++ encode2231 value)
      else if isToken value then formatParams param attrs (b ++ [61] ++ value)
      else formatParams param attrs (b ++ [61] ++ quoteValue value)

/-- Go `mime.FormatMediaType`. -/
def goFormatMediaType (t : Bytes) (param : Params) : Bytes :=
  let major := t.takeWhile (fun c => decide (c ≠ 47))
  let head : Option Bytes :=
    if (47 : Byte) ∉ t then
      if !isToken t then none else some (toLower t)
    else
      let sub := (t.dropWhile (fun c => decide (c ≠ 47))).drop 1
      if !isToken major ∨ !isToken sub then none
      else some (toLower major ++ [47] ++ toLower sub)
  match head with
  | none => []
  | some b => (formatParams param (sortStrings (mapKeys param)) b).getD []

/-- The last two rules of Go `http.DetectContentType`: text without binary
bytes is `text/plain; charset=utf-8`, anything else
`application/octet-stream`.  The signatures tried before them (HTML, PDF,
images, archives, byte-order marks, ...) are not modelled, so the model agrees
with Go on inputs that match none of those. -/
def goDetectContentType (data : Bytes) : Bytes :=
  let head := (data.take 512).dropWhile
    (fun c => decide (c.val = 9 ∨ c.val = 10 ∨ c.val = 12 ∨ c.val = 13 ∨ c.val = 32))
  if head.any (fun b => decide (b.val ≤ 8 ∨ b.val = 11 ∨ (14 ≤ b.val ∧ b.val ≤ 26) ∨
      (28 ≤ b.val ∧ b.val ≤ 31))) then ascii "application/octet-stream"
  else ascii "text/plain; charset=utf-8"

/-- The reference instance of the collaborators. -/
def stdlib : Mime :=
  { ParseMediaType := goParseMediaType
    FormatMediaType := goFormatMediaType
    DetectContentType := goDetectContentType }

/-! ## Notions used to state the theorems on `Encode` -/

/-- The choice between base64 and literal encoding that `Encode` makes for the
media type string `mt` (dataurl.go:255-263). -/
def usesBase64 (vars : EncodeVars) (mt : Bytes) : Bool :=
  if !vars.explicitBase64 then
    if !hasPrefix mt (ascii "text") then true else vars.encodeBase64
  else vars.encodeBase64

/-- The text `Encode` writes after the media type: the marker if base64 was
chosen, the comma, and the encoded payload. -/
def payloadSection (encodeBase64 : Bool) (d : Bytes) : Bytes :=
  (if encodeBase64 then base64Marker else []) ++
    44 :: (if encodeBase64 then b64encode d else (d.map escapeByte).flatten)


/-! ## Notions used to state the theorems on the parameter pass -/

/-- The decoded form of a parameter name or value: the output of non-strict
`unescape` (the text itself where `unescape` fails). -/
def decoded (b : Bytes) : Bytes :=
  match unescape b false with
  | .ok out => out
  | .error _ => b

/-- A schedule under which the `range` loop produces no entry that was created
during the iteration. -/
def SingleVisit (sched : Schedule) : Prop := ∀ c ∈ sched, c.revisit = false

/-- A parameter map as a Go map holds it (distinct keys) whose names and values
all unescape without error and in which no name's decoded form coincides with
another name or with another name's decoded form. -/
structure Rekeyable (P : Params) : Prop where
  /-- The keys are pairwise distinct. -/
  nodup : (mapKeys P).Nodup
  /-- Every name unescapes. -/
  keys_ok : ∀ kv ∈ P, ∃ out, unescape kv.1 false = .ok out
  /-- Every value unescapes. -/
  vals_ok : ∀ kv ∈ P, ∃ out, unescape kv.2 false = .ok out
  /-- Decoded names collide neither with other names nor with each other. -/
  distinct : ∀ kv ∈ P, ∀ kv2 ∈ P, kv.1 ≠ kv2.1 →
    decoded kv.1 ≠ kv2.1 ∧ decoded kv.1 ≠ decoded kv2.1

/-- The state of the map while the loop runs over `P`: the entries whose key
is still pending are as in `P`, the others have been replaced by their decoded
forms. -/
def RangeInv (P : Params) (pending : List Bytes) (m : Params) : Prop :=
  ∀ x y, mapGet m x = some y ↔
    ∃ kv ∈ P, if kv.1 ∈ pending then x = kv.1 ∧ y = kv.2
      else x = decoded kv.1 ∧ y = decoded kv.2

/-! ## Notions used to state the theorems on the policy of `Encode` -/

/-- No `WithBase64Encoding` option is among the options given to `Encode`. -/
def NoBase64Option (options : List EncodeOption) : Prop :=
  ∀ o ∈ options, ∀ b, o ≠ EncodeOption.WithBase64Encoding b

/-- The media type string `Encode` works with before it merges the extra
parameters: the explicit one, or the sniffed one when none (or the empty
string) is given (dataurl.go:217-219). -/
def mediaTypeInUse (ext : Mime) (data : Bytes) (options : List EncodeOption) : Bytes :=
  if (applyOptions options).mt = [] then ext.DetectContentType data
  else (applyOptions options).mt

/-- A text with every space removed that directly follows a semicolon, which
is the text with every `"; "` replaced by `";"`; the first argument is the
byte before the text. -/
def dropSpacesAfterSemicolon : Option Byte → Bytes → Bytes
  | _, [] => []
  | prev, c :: rest =>
    if prev = some 59 ∧ c = 32 then dropSpacesAfterSemicolon (some c) rest
    else c :: dropSpacesAfterSemicolon (some c) rest

/-- The merge loop `for k, v := range params { parsedParams[k] = v }` of
`Encode` (dataurl.go:232-234), with the entries of `params` taken in the order
of the list. -/
def mergeParams (parsedParams params : Params) : Params :=
  params.foldl (fun acc kv => mapSet acc kv.1 kv.2) parsedParams

/-! ## Notions used to state the theorems on the result of `Parse` -/

/-- A text without upper-case ASCII letter. -/
def isLowerCase (k : Bytes) : Prop := ∀ c ∈ k, ¬ (65 ≤ c.val ∧ c.val ≤ 90)

/-- The first occurrence of `sep` in `data` starts at index `i`. -/
def FirstAt (sep data : Bytes) (i : Nat) : Prop :=
  sep <+: data.drop i ∧ ∀ j, j < i → ¬ sep <+: data.drop j

/-! ## The parameter pass as the specification describes it -/

/-- The percent-decode primitive in non-strict mode, run only on a text that
contains a `%`. -/
def unescapeIfPercent (b : Bytes) : Except UnescapeError Bytes :=
  if (37 : Byte) ∈ b then unescape b false else .ok b

/-- The body of the parameter loop when a name or value is decoded only if it
contains a `%`; otherwise as `unescapeParam`. -/
def unescapeParamGuarded (params : Params) (k v : Bytes) :
    Except ParseError (Params × Option Bytes) :=
  match unescapeIfPercent k with
  | .error e => .error (.paramKey k e)
  | .ok unescapedKey =>
    match unescapeIfPercent v with
    | .error e => .error (.paramValue k e)
    | .ok unescapedValue =>
      if unescapedKey ≠ k then
        let params1 := mapDelete params k
        let created := (mapGet params1 unescapedKey).isNone
        .ok (mapSet params1 unescapedKey unescapedValue,
          if created then some unescapedKey else none)
      else if v ≠ unescapedValue then .ok (mapSet params k unescapedValue, none)
      else .ok (params, none)

/-- The loop `rangeDrain` with the guarded body. -/
def rangeDrainGuarded : List Bytes → Params → Except ParseError Params
  | [], params => .ok params
  | k :: pending, params =>
    match mapGet params k with
    | none => rangeDrainGuarded pending params
    | some v =>
      match unescapeParamGuarded params k v with
      | .error e => .error e
      | .ok (params2, _) => rangeDrainGuarded pending params2

/-- The loop `rangeParams` with the guarded body. -/
def rangeParamsGuarded : Schedule → List Bytes → Params → Except ParseError Params
  | [], pending, params => rangeDrainGuarded pending params
  | c :: sched, pending, params =>
    match pending with
    | [] => .ok params
    | k0 :: _ =>
      let k := pending.getD (c.pick % pending.length) k0
      let pending1 := pending.erase k
      match mapGet params k with
      | none => rangeParamsGuarded sched pending1 params
      | some v =>
        match unescapeParamGuarded params k v with
        | .error e => .error e
        | .ok (params2, created) =>
          let pending2 :=
            match created with
            | some k2 => if c.revisit then pending1 ++ [k2] else pending1
            | none => pending1
          rangeParamsGuarded sched pending2 params2

/-! ## Notions used to state the theorem on the type token -/

/-- The text `data[:i]` that `Parse` hands to `mime.ParseMediaType`
(dataurl.go:44-75) on the input `data`; `none` when `Parse` returns or
branches off before that call (no scheme, nothing after it, a media type
omitted, no boundary found). -/
def headerOf (data : Bytes) : Option Bytes :=
  if !hasPrefix data scheme then none
  else
    let data := data.drop scheme.length
    if data.length < 1 then none
    else if data.head? = some 44 then none
    else if data.head? = some 59 then none
    else
      let i0 := bytesIndex data base64Marker
      let i := if i0 > 0 then i0 else indexByte data 44
      if i < 0 then none else some (data.take i.toNat)

/-- The type token of a media type string as Go `mime.ParseMediaType` takes
it: the text before the first `;`, lower-cased, without the white space around
it (`strings.TrimSpace(strings.ToLower(base))`). -/
def mediaTypeToken (v : Bytes) : Bytes :=
  trimSpace (toLower (v.takeWhile (fun c => decide (c ≠ 59))))

/-- A text of the form primary/subtype: a token, a `/`, and a token. -/
def isPrimarySubtype (t : Bytes) : Bool :=
  isToken (t.takeWhile (fun c => decide (c ≠ 47))) &&
    decide ((t.dropWhile (fun c => decide (c ≠ 47))).head? = some 47) &&
    isToken ((t.dropWhile (fun c => decide (c ≠ 47))).drop 1)

/-! ## Notions used to state the theorem on the media type round trip -/

/-- A parameter map with its names lower-cased, entry by entry. -/
def lowerNames (p : Params) : Params := p.map (fun kv => (toLower kv.1, kv.2))

/-- The parameters of `p` with the names `ks` in the form `;name=value`, each
`;` followed by `sep`: with `sep` a blank this is what Go
`mime.FormatMediaType` appends to the type when names and values are tokens,
with `sep` empty it is that text after `Encode` has removed the blanks. -/
def tokenParams (sep : Bytes) (p : Params) (ks : List Bytes) : Bytes :=
  (ks.map (fun k => 59 :: (sep ++ (toLower k ++ 61 :: (mapGet p k).getD [])))).flatten

/-! # Theorems -/

/-! ## Facts about single bytes, by enumeration of the 256 bytes -/

set_option maxRecDepth 100000 in
theorem isNotReserved_iff_mem_spec :
    ∀ b : Byte, isNotReserved b = true ↔ b ∈ unreservedSpec := by decide

set_option maxRecDepth 100000 in
theorem escapeByte_eq_spec : ∀ b : Byte, escapeByte b = escapeByteSpec b := by decide

set_option maxRecDepth 100000 in
theorem hexDecode_upperhex :
    ∀ b : Byte, hexDecode (upperhex (b.val / 16)) (upperhex (b.val % 16)) = some b := by
  decide

set_option maxRecDepth 100000 in
theorem fromHexChar_isSome : ∀ c : Byte, (fromHexChar c).isSome = isHexDigit c := by decide

set_option maxRecDepth 100000 in
theorem fromHexChar_eq_hexValue :
    ∀ c : Byte, ∀ n, fromHexChar c = some n → n = hexValue c := by decide

set_option maxRecDepth 100000 in
theorem isHexDigit_ne_percent : ∀ c : Byte, isHexDigit c = true → c ≠ 37 := by decide

set_option maxRecDepth 100000 in
theorem isHexDigit_isNotReserved :
    ∀ c : Byte, isHexDigit c = true → isNotReserved c = true := by decide

set_option maxRecDepth 100000 in
theorem escapeByteSpec_hex :
    ∀ b : Byte, b ∉ unreservedSpec →
      ∃ hi lo, escapeByteSpec b = [37, hi, lo] ∧ hi ∈ upperHexDigits ∧
        lo ∈ upperHexDigits ∧ hexValue hi * 16 + hexValue lo = b.val := by
  intro b hb
  refine ⟨upperHexDigits.getD (b.val / 16) 0, upperHexDigits.getD (b.val % 16) 0, ?_, ?_⟩
  · simp [escapeByteSpec, hb]
  · revert b
    decide

theorem isNotReserved_percent : isNotReserved 37 = false := by decide

theorem hexDecode_eq_some {p q b : Byte} (h : hexDecode p q = some b) :
    isHexDigit p = true ∧ isHexDigit q = true ∧
      b = Fin.ofNat (hexValue p * 16 + hexValue q) := by
  unfold hexDecode at h
  have hp := fromHexChar_isSome p
  have hq := fromHexChar_isSome q
  cases hfp : fromHexChar p with
  | none => simp [hfp] at h
  | some a =>
    cases hfq : fromHexChar q with
    | none => simp [hfp, hfq] at h
    | some c =>
      simp only [hfp, hfq, Option.some.injEq] at h
      rw [hfp] at hp
      rw [hfq] at hq
      refine ⟨hp.symm, hq.symm, ?_⟩
      rw [← fromHexChar_eq_hexValue p a hfp, ← fromHexChar_eq_hexValue q c hfq]
      exact h.symm

theorem hexDecode_of_isHexDigit {p q : Byte} (hp : isHexDigit p = true)
    (hq : isHexDigit q = true) :
    hexDecode p q = some (Fin.ofNat (hexValue p * 16 + hexValue q)) := by
  have h1 := fromHexChar_isSome p
  have h2 := fromHexChar_isSome q
  rw [hp] at h1
  rw [hq] at h2
  obtain ⟨a, ha⟩ := Option.isSome_iff_exists.mp h1
  obtain ⟨c, hc⟩ := Option.isSome_iff_exists.mp h2
  unfold hexDecode
  rw [ha, hc, fromHexChar_eq_hexValue p a ha, fromHexChar_eq_hexValue q c hc]

theorem hexDecode_eq_none_iff {p q : Byte} :
    hexDecode p q = none ↔ ¬ (isHexDigit p = true ∧ isHexDigit q = true) := by
  constructor
  · intro h hpq
    rw [hexDecode_of_isHexDigit hpq.1 hpq.2] at h
    exact Option.noConfusion h
  · intro h
    cases hd : hexDecode p q with
    | none => rfl
    | some b =>
      have := hexDecode_eq_some hd
      exact absurd ⟨this.1, this.2.1⟩ h

/-! ## Unfolding `unescapeFrom` -/

theorem unescapeFrom_nil (s : Bool) (i : Nat) : unescapeFrom s i [] = .ok [] := by
  simp [unescapeFrom]

theorem unescapeFrom_percent_one (s : Bool) (i : Nat) :
    unescapeFrom s i [37] = .error (.unexpectedEnd i) := by
  simp [unescapeFrom]

theorem unescapeFrom_percent_two (s : Bool) (i : Nat) (p : Byte) :
    unescapeFrom s i [37, p] = .error (.unexpectedEnd i) := by
  simp [unescapeFrom]

theorem unescapeFrom_percent (s : Bool) (i : Nat) (p q : Byte) (rest : Bytes) :
    unescapeFrom s i (37 :: p :: q :: rest) =
      match hexDecode p q with
      | none => .error (.invalidHex i)
      | some b =>
        match unescapeFrom s (i + 3) rest with
        | .ok out => .ok (b :: out)
        | .error e => .error e := by
  simp [unescapeFrom]

theorem unescapeFrom_lit (s : Bool) (i : Nat) (c : Byte) (rest : Bytes) (hc : c ≠ 37) :
    unescapeFrom s i (c :: rest) =
      if s = false ∨ isNotReserved c = true then
        match unescapeFrom s (i + 1) rest with
        | .ok out => .ok (c :: out)
        | .error e => .error e
      else .error (.reservedChar c i) := by
  rcases rest with _ | ⟨p, _ | ⟨q, r⟩⟩ <;> cases s <;> simp [unescapeFrom, hc]

/-- Induction along the way `unescape` walks its input: one byte at a time,
three at a `%` that has two bytes after it. -/
theorem escaped_induction {P : Bytes → Prop} (nil : P [])
    (short1 : P [37]) (short2 : ∀ p, P [37, p])
    (esc : ∀ p q rest, P rest → P (37 :: p :: q :: rest))
    (lit : ∀ c rest, c ≠ 37 → P rest → P (c :: rest)) : ∀ data, P data := by
  intro data
  obtain ⟨n, h⟩ : ∃ n, data.length = n := ⟨_, rfl⟩
  induction n using Nat.strong_induction_on generalizing data with
  | _ n ih =>
    match data, h with
    | [], _ => exact nil
    | c :: rest, h =>
      by_cases hc : c = 37
      · subst hc
        match rest, h with
        | [], _ => exact short1
        | [p], _ => exact short2 p
        | p :: q :: rest2, h =>
          simp only [List.length_cons] at h
          exact esc p q rest2 (ih rest2.length (by omega) rest2 rfl)
      · simp only [List.length_cons] at h
        exact lit c rest hc (ih rest.length (by omega) rest rfl)

theorem unescapeFrom_percent_ok {s : Bool} {i : Nat} {p q : Byte} {rest out : Bytes} :
    unescapeFrom s i (37 :: p :: q :: rest) = .ok out ↔
      ∃ b out2, hexDecode p q = some b ∧ unescapeFrom s (i + 3) rest = .ok out2 ∧
        out = b :: out2 := by
  rw [unescapeFrom_percent]
  cases hd : hexDecode p q with
  | none => simp
  | some b =>
    cases hr : unescapeFrom s (i + 3) rest with
    | ok o => simp [eq_comm]
    | error e => simp

theorem unescapeFrom_percent_error {s : Bool} {i : Nat} {p q : Byte} {rest : Bytes} :
    (∃ e, unescapeFrom s i (37 :: p :: q :: rest) = .error e) ↔
      hexDecode p q = none ∨ ∃ e, unescapeFrom s (i + 3) rest = .error e := by
  rw [unescapeFrom_percent]
  cases hd : hexDecode p q with
  | none => simp
  | some b =>
    cases hr : unescapeFrom s (i + 3) rest with
    | ok o => simp
    | error e => simp

theorem unescapeFrom_lit_ok {s : Bool} {i : Nat} {c : Byte} {rest out : Bytes}
    (hc : c ≠ 37) :
    unescapeFrom s i (c :: rest) = .ok out ↔
      (s = false ∨ isNotReserved c = true) ∧
        ∃ out2, unescapeFrom s (i + 1) rest = .ok out2 ∧ out = c :: out2 := by
  rw [unescapeFrom_lit s i c rest hc]
  by_cases h : s = false ∨ isNotReserved c = true
  · rw [if_pos h]
    cases hr : unescapeFrom s (i + 1) rest with
    | ok o =>
      simp only [Except.ok.injEq]
      constructor
      · intro h2
        exact ⟨h, o, rfl, h2.symm⟩
      · rintro ⟨_, o2, rfl, rfl⟩
        rfl
    | error e => simp
  · rw [if_neg h]
    simp [h]

theorem unescapeFrom_lit_error {i : Nat} {c : Byte} {rest : Bytes} (hc : c ≠ 37) :
    (∃ e, unescapeFrom false i (c :: rest) = .error e) ↔
      ∃ e, unescapeFrom false (i + 1) rest = .error e := by
  rw [unescapeFrom_lit false i c rest hc]
  cases hr : unescapeFrom false (i + 1) rest with
  | ok o => simp
  | error e => simp

/-! ## Escaping -/

theorem writeEscapedSequence_eq (dst data : Bytes) :
    writeEscapedSequence dst data = dst ++ (data.map escapeByte).flatten := by
  unfold writeEscapedSequence
  induction data generalizing dst with
  | nil => simp
  | cons b rest ih => simp [ih]

theorem unescapeFrom_strict_escaped (d : Bytes) :
    ∀ i, unescapeFrom true i ((d.map escapeByte).flatten) = .ok d := by
  induction d with
  | nil => intro i; simp [unescapeFrom_nil]
  | cons b rest ih =>
    intro i
    simp only [List.map_cons, List.flatten_cons]
    by_cases hb : isNotReserved b = true
    · have hne : b ≠ 37 := by
        intro h
        rw [h, isNotReserved_percent] at hb
        exact Bool.noConfusion hb
      simp only [escapeByte, hb, if_true, List.singleton_append]
      rw [unescapeFrom_lit_ok hne]
      exact ⟨Or.inr hb, rest, ih _, rfl⟩
    · simp only [escapeByte, hb, if_false, List.cons_append, List.nil_append,
        Bool.false_eq_true]
      rw [unescapeFrom_percent_ok]
      exact ⟨b, rest, hexDecode_upperhex b, ih _, rfl⟩

/-! ## Where non-strict `unescape` fails -/

theorem danglingAt_cons_succ (c : Byte) (rest : Bytes) (j : Nat) :
    DanglingAt (c :: rest) (j + 1) ↔ DanglingAt rest j := by
  simp [DanglingAt]

theorem danglingAt_zero (c : Byte) (rest : Bytes) :
    DanglingAt (c :: rest) 0 ↔
      c = 37 ∧ ¬ ∃ p q, rest[0]? = some p ∧ rest[1]? = some q ∧
        isHexDigit p = true ∧ isHexDigit q = true := by
  simp [DanglingAt]

theorem exists_danglingAt_cons (c : Byte) (rest : Bytes) :
    (∃ j, DanglingAt (c :: rest) j) ↔
      DanglingAt (c :: rest) 0 ∨ ∃ j, DanglingAt rest j := by
  constructor
  · rintro ⟨j, hj⟩
    cases j with
    | zero => exact Or.inl hj
    | succ j => exact Or.inr ⟨j, (danglingAt_cons_succ c rest j).mp hj⟩
  · rintro (h | ⟨j, hj⟩)
    · exact ⟨0, h⟩
    · exact ⟨j + 1, (danglingAt_cons_succ c rest j).mpr hj⟩

theorem not_danglingAt_zero_of_hex (c : Byte) (rest : Bytes) (h : isHexDigit c = true) :
    ¬ DanglingAt (c :: rest) 0 := by
  intro hd
  exact isHexDigit_ne_percent c h ((danglingAt_zero c rest).mp hd).1

theorem unescapeFrom_error_iff (data : Bytes) :
    ∀ i, (∃ e, unescapeFrom false i data = .error e) ↔ ∃ j, DanglingAt data j := by
  induction data using escaped_induction with
  | nil =>
    intro i
    simp [unescapeFrom_nil, DanglingAt]
  | short1 =>
    intro i
    rw [unescapeFrom_percent_one]
    simp only [Except.error.injEq, exists_eq', true_iff]
    exact ⟨0, by simp [DanglingAt]⟩
  | short2 p =>
    intro i
    rw [unescapeFrom_percent_two]
    simp only [Except.error.injEq, exists_eq', true_iff]
    exact ⟨0, by simp [DanglingAt]⟩
  | esc p q rest ih =>
    intro i
    rw [unescapeFrom_percent_error, ih (i + 3), hexDecode_eq_none_iff,
      exists_danglingAt_cons, exists_danglingAt_cons, exists_danglingAt_cons]
    by_cases hpq : isHexDigit p = true ∧ isHexDigit q = true
    · have h0 : ¬ DanglingAt (37 :: p :: q :: rest) 0 := by
        rw [danglingAt_zero]
        intro h
        exact h.2 ⟨p, q, by simp, by simp, hpq.1, hpq.2⟩
      have h1 := not_danglingAt_zero_of_hex p (q :: rest) hpq.1
      have h2 := not_danglingAt_zero_of_hex q rest hpq.2
      simp [hpq, h0, h1, h2]
    · have h0 : DanglingAt (37 :: p :: q :: rest) 0 := by
        rw [danglingAt_zero]
        refine ⟨rfl, ?_⟩
        rintro ⟨p2, q2, hp2, hq2, h⟩
        simp only [List.getElem?_cons_zero, Option.some.injEq, List.getElem?_cons_succ] at hp2 hq2
        subst hp2
        subst hq2
        exact hpq h
      simp [hpq, h0]
  | lit c rest hc ih =>
    intro i
    rw [unescapeFrom_lit_error hc, ih (i + 1), exists_danglingAt_cons]
    have h0 : ¬ DanglingAt (c :: rest) 0 := by
      rw [danglingAt_zero]
      exact fun h => hc h.1
    simp [h0]

/-! ## The list recursion `unescapeFrom` is the indexed loop of the source -/

/-- The result of the rest of the loop, put behind what the buffer holds. -/
theorem unescapeLoop_eq (data : Bytes) (strict : Bool) :
    ∀ (fuel i : Nat) (dst : Bytes), i ≤ data.length → data.length - i < fuel →
      unescapeLoop data strict fuel i dst =
        some (match unescapeFrom strict i (data.drop i) with
          | .ok out => .ok (dst ++ out)
          | .error e => .error e) := by
  intro fuel
  induction fuel with
  | zero => intro i dst _ h; omega
  | succ fuel ih =>
    intro i dst hi hfuel
    unfold unescapeLoop
    by_cases hlt : i < data.length
    · rw [if_pos hlt]
      have hdrop : data.drop i = data.getD i 0 :: data.drop (i + 1) := by
        rw [List.getD_eq_getElem _ _ hlt]
        exact List.drop_eq_getElem_cons hlt
      have hrec1 : ∀ c : Byte, unescapeLoop data strict fuel (i + 1) (dst ++ [c]) =
          some (match unescapeFrom strict (i + 1) (data.drop (i + 1)) with
            | .ok out => .ok (dst ++ [c] ++ out)
            | .error e => .error e) :=
        fun c => ih (i + 1) (dst ++ [c]) (by omega) (by omega)
      simp only []
      by_cases hc : data.getD i 0 = 37
      · rw [if_pos hc]
        by_cases hend : (i : Int) > ((data.length : Int) - 1) - 2
        · rw [if_pos hend, hdrop, hc]
          have hshort : (data.drop (i + 1)).length < 2 := by
            rw [List.length_drop]
            omega
          match hr : data.drop (i + 1), hshort with
          | [], _ => rw [unescapeFrom_percent_one]
          | [p], _ => rw [unescapeFrom_percent_two]
        · rw [if_neg hend]
          have h2 : i + 2 < data.length := by omega
          have hdrop1 : data.drop (i + 1) = data.getD (i + 1) 0 :: data.drop (i + 2) := by
            rw [List.getD_eq_getElem _ _ (by omega)]
            exact List.drop_eq_getElem_cons (by omega)
          have hdrop2 : data.drop (i + 2) = data.getD (i + 2) 0 :: data.drop (i + 3) := by
            rw [List.getD_eq_getElem _ _ h2]
            exact List.drop_eq_getElem_cons h2
          rw [hdrop, hc, hdrop1, hdrop2, unescapeFrom_percent]
          cases hd : hexDecode (data.getD (i + 1) 0) (data.getD (i + 2) 0) with
          | none => rfl
          | some b =>
            simp only []
            rw [ih (i + 1 + 2) (dst ++ [b]) (by omega) (by omega)]
            cases unescapeFrom strict (i + 3) (data.drop (i + 3)) with
            | ok out => simp
            | error e => rfl
      · rw [if_neg hc, hdrop, unescapeFrom_lit strict i _ _ hc]
        cases strict with
        | false =>
          simp only [Bool.not_false, if_true, true_or]
          rw [hrec1]
          cases unescapeFrom false (i + 1) (data.drop (i + 1)) with
          | ok out => simp
          | error e => rfl
        | true =>
          simp only [Bool.not_true, Bool.false_eq_true, if_false, false_or]
          by_cases hres : isNotReserved (data.getD i 0) = true
          · rw [if_pos hres, if_pos (Or.inr hres), hrec1]
            cases unescapeFrom true (i + 1) (data.drop (i + 1)) with
            | ok out => simp
            | error e => rfl
          · have hor : ¬ (true = false ∨ isNotReserved (data.getD i 0) = true) := by
              rintro (h | h)
              · exact Bool.noConfusion h
              · exact hres h
            rw [if_neg hres, if_neg hor]
    · rw [if_neg hlt]
      have : data.drop i = [] := List.drop_eq_nil_of_le (by omega)
      rw [this, unescapeFrom_nil]
      simp

/-- The loop of the source, run on the whole input, ends within
`len(data) + 1` iterations and returns what `unescape` returns. -/
theorem unescapeIndexed_eq (data : Bytes) (strict : Bool) :
    unescapeIndexed data strict = some (unescape data strict) := by
  unfold unescapeIndexed unescape
  rw [unescapeLoop_eq data strict _ 0 [] (Nat.zero_le _) (by omega)]
  simp only [List.drop_zero, List.nil_append]
  cases unescapeFrom strict 0 data <;> rfl

/-! ## What non-strict `unescape` returns -/

theorem unescapeFrom_ok_segments (data : Bytes) :
    ∀ i out, unescapeFrom false i data = .ok out →
      ∃ segs : List Segment, (∀ s ∈ segs, s.WellFormed) ∧
        data = (segs.map Segment.source).flatten ∧ out = segs.map Segment.value := by
  induction data using escaped_induction with
  | nil =>
    intro i out h
    rw [unescapeFrom_nil] at h
    exact ⟨[], by simp, by simp, by simpa using (Except.ok.inj h).symm⟩
  | short1 =>
    intro i out h
    rw [unescapeFrom_percent_one] at h
    exact Except.noConfusion h
  | short2 p =>
    intro i out h
    rw [unescapeFrom_percent_two] at h
    exact Except.noConfusion h
  | esc p q rest ih =>
    intro i out h
    obtain ⟨b, out2, hd, hr, rfl⟩ := unescapeFrom_percent_ok.mp h
    obtain ⟨segs, hwf, hsrc, hval⟩ := ih (i + 3) out2 hr
    obtain ⟨hp, hq, hb⟩ := hexDecode_eq_some hd
    refine ⟨Segment.esc p q :: segs, ?_, ?_, ?_⟩
    · intro s hs
      rcases List.mem_cons.mp hs with rfl | hs
      · exact ⟨hp, hq⟩
      · exact hwf s hs
    · simp [Segment.source, hsrc]
    · simp [Segment.value, hval, hb]
  | lit c rest hc ih =>
    intro i out h
    obtain ⟨_, out2, hr, rfl⟩ := (unescapeFrom_lit_ok hc).mp h
    obtain ⟨segs, hwf, hsrc, hval⟩ := ih (i + 1) out2 hr
    refine ⟨Segment.lit c :: segs, ?_, ?_, ?_⟩
    · intro s hs
      rcases List.mem_cons.mp hs with rfl | hs
      · exact hc
      · exact hwf s hs
    · simp [Segment.source, hsrc]
    · simp [Segment.value, hval]

theorem unescapeFrom_segments_ok (segs : List Segment) (hwf : ∀ s ∈ segs, s.WellFormed) :
    ∀ i, unescapeFrom false i ((segs.map Segment.source).flatten) =
      .ok (segs.map Segment.value) := by
  induction segs with
  | nil => intro i; simp [unescapeFrom_nil]
  | cons s segs ih =>
    intro i
    have hs : s.WellFormed := hwf s (List.mem_cons_self _ _)
    have hrest := ih (fun t ht => hwf t (List.mem_cons_of_mem _ ht))
    cases s with
    | lit c =>
      simp only [List.map_cons, List.flatten_cons, Segment.source, Segment.value,
        List.singleton_append]
      rw [unescapeFrom_lit_ok hs]
      exact ⟨Or.inl rfl, _, hrest _, rfl⟩
    | esc p q =>
      simp only [List.map_cons, List.flatten_cons, Segment.source, Segment.value,
        List.cons_append, List.nil_append]
      rw [unescapeFrom_percent_ok]
      exact ⟨_, _, hexDecode_of_isHexDigit hs.1 hs.2, hrest _, rfl⟩

/-! ## Strict against non-strict `unescape` -/

theorem unescapeFrom_strict_ok (data : Bytes) :
    ∀ i out, unescapeFrom true i data = .ok out →
      unescapeFrom false i data = .ok out ∧
        ∀ b ∈ data, b ≠ 37 → isNotReserved b = true := by
  induction data using escaped_induction with
  | nil =>
    intro i out h
    rw [unescapeFrom_nil] at h ⊢
    exact ⟨h, by simp⟩
  | short1 =>
    intro i out h
    rw [unescapeFrom_percent_one] at h
    exact Except.noConfusion h
  | short2 p =>
    intro i out h
    rw [unescapeFrom_percent_two] at h
    exact Except.noConfusion h
  | esc p q rest ih =>
    intro i out h
    obtain ⟨b, out2, hd, hr, rfl⟩ := unescapeFrom_percent_ok.mp h
    obtain ⟨h1, h2⟩ := ih (i + 3) out2 hr
    obtain ⟨hp, hq, _⟩ := hexDecode_eq_some hd
    refine ⟨unescapeFrom_percent_ok.mpr ⟨b, out2, hd, h1, rfl⟩, ?_⟩
    intro x hx hne
    rcases List.mem_cons.mp hx with rfl | hx
    · exact absurd rfl hne
    rcases List.mem_cons.mp hx with rfl | hx
    · exact isHexDigit_isNotReserved _ hp
    rcases List.mem_cons.mp hx with rfl | hx
    · exact isHexDigit_isNotReserved _ hq
    · exact h2 x hx hne
  | lit c rest hc ih =>
    intro i out h
    obtain ⟨hs, out2, hr, rfl⟩ := (unescapeFrom_lit_ok hc).mp h
    obtain ⟨h1, h2⟩ := ih (i + 1) out2 hr
    refine ⟨(unescapeFrom_lit_ok hc).mpr ⟨Or.inl rfl, out2, h1, rfl⟩, ?_⟩
    intro x hx hne
    rcases List.mem_cons.mp hx with rfl | hx
    · rcases hs with hs | hs
      · exact Bool.noConfusion hs
      · exact hs
    · exact h2 x hx hne

theorem unescapeFrom_strict_of_nonstrict (data : Bytes) :
    ∀ i out, unescapeFrom false i data = .ok out →
      (∀ b ∈ data, b ≠ 37 → isNotReserved b = true) →
      unescapeFrom true i data = .ok out := by
  induction data using escaped_induction with
  | nil =>
    intro i out h _
    rw [unescapeFrom_nil] at h ⊢
    exact h
  | short1 =>
    intro i out h
    rw [unescapeFrom_percent_one] at h
    exact Except.noConfusion h
  | short2 p =>
    intro i out h
    rw [unescapeFrom_percent_two] at h
    exact Except.noConfusion h
  | esc p q rest ih =>
    intro i out h hall
    obtain ⟨b, out2, hd, hr, rfl⟩ := unescapeFrom_percent_ok.mp h
    have h1 := ih (i + 3) out2 hr (fun x hx hne =>
      hall x (List.mem_cons_of_mem _ (List.mem_cons_of_mem _ (List.mem_cons_of_mem _ hx))) hne)
    exact unescapeFrom_percent_ok.mpr ⟨b, out2, hd, h1, rfl⟩
  | lit c rest hc ih =>
    intro i out h hall
    obtain ⟨_, out2, hr, rfl⟩ := (unescapeFrom_lit_ok hc).mp h
    have h1 := ih (i + 1) out2 hr (fun x hx hne => hall x (List.mem_cons_of_mem _ hx) hne)
    exact (unescapeFrom_lit_ok hc).mpr
      ⟨Or.inr (hall c (List.mem_cons_self _ _) hc), out2, h1, rfl⟩

/-! ## Claims on the percent-escaping primitive -/

/-- C3: for every byte sequence `d`, strict `unescape` applied to the output of
`writeEscapedSequence` on `d` (written to an empty buffer) succeeds and returns
exactly `d`. -/
theorem C3_unescape_escape_roundtrip (d : Bytes) :
    unescape (writeEscapedSequence [] d) true = .ok d := by
  rw [writeEscapedSequence_eq, List.nil_append]
  exact unescapeFrom_strict_escaped d 0

/-- C4: `writeEscapedSequence` appends to the buffer the concatenation, over the
bytes of its input in order, of the byte itself when it is one of the
characters the specification lists as unreserved, and otherwise of `%` followed
by the byte's value as two upper-case hexadecimal digits; and the bytes the
code treats as unreserved (`isNotReserved`) are exactly the listed ones. -/
theorem C4_writeEscapedSequence_spec (dst data : Bytes) :
    writeEscapedSequence dst data = dst ++ (data.map escapeByteSpec).flatten ∧
      (∀ b : Byte, isNotReserved b = true ↔ b ∈ unreservedSpec) ∧
      (∀ b : Byte, b ∉ unreservedSpec →
        ∃ hi lo, escapeByteSpec b = [37, hi, lo] ∧ hi ∈ upperHexDigits ∧
          lo ∈ upperHexDigits ∧ hexValue hi * 16 + hexValue lo = b.val) := by
  refine ⟨?_, isNotReserved_iff_mem_spec, ?_⟩
  · rw [writeEscapedSequence_eq]
    congr 2
    exact List.map_congr_left (fun b _ => escapeByte_eq_spec b)
  · exact escapeByteSpec_hex

/-- C5: non-strict `unescape` fails if and only if its input has a `%` at some
index `i` that is not followed by two hexadecimal digits; and it returns `out`
if and only if the input splits into pieces, each either a byte other than `%`
or a triple `%HH` of `%` and two hexadecimal digits, and `out` is the input
with each triple replaced by the byte of value `HH` and every other byte
copied unchanged. -/
theorem C5_unescape_nonstrict (data : Bytes) :
    ((∃ e, unescape data false = .error e) ↔ ∃ i, DanglingAt data i) ∧
      (∀ out, unescape data false = .ok out ↔
        ∃ segs : List Segment, (∀ s ∈ segs, s.WellFormed) ∧
          data = (segs.map Segment.source).flatten ∧ out = segs.map Segment.value) := by
  refine ⟨unescapeFrom_error_iff data 0, fun out => ⟨unescapeFrom_ok_segments data 0 out, ?_⟩⟩
  rintro ⟨segs, hwf, rfl, rfl⟩
  exact unescapeFrom_segments_ok segs hwf 0

/-- C6: strict `unescape` succeeds if and only if non-strict `unescape`
succeeds and every byte of the input other than `%` is in the unreserved set;
and whenever strict `unescape` succeeds, non-strict `unescape` returns the same
bytes. -/
theorem C6_unescape_strict_iff (data : Bytes) :
    ((∃ out, unescape data true = .ok out) ↔
        (∃ out, unescape data false = .ok out) ∧
          ∀ b ∈ data, b ≠ 37 → b ∈ unreservedSpec) ∧
      (∀ out, unescape data true = .ok out → unescape data false = .ok out) := by
  refine ⟨⟨?_, ?_⟩, fun out h => (unescapeFrom_strict_ok data 0 out h).1⟩
  · rintro ⟨out, h⟩
    obtain ⟨h1, h2⟩ := unescapeFrom_strict_ok data 0 out h
    exact ⟨⟨out, h1⟩, fun b hb hne => (isNotReserved_iff_mem_spec b).mp (h2 b hb hne)⟩
  · rintro ⟨⟨out, h⟩, hall⟩
    exact ⟨out, unescapeFrom_strict_of_nonstrict data 0 out h
      (fun b hb hne => (isNotReserved_iff_mem_spec b).mpr (hall b hb hne))⟩

/-! ## Base64: decoding inverts encoding -/

theorem b64value_b64char_fin : ∀ n : Fin 64, b64value (b64char n.val) = some n.val := by
  decide

theorem b64value_b64char {n : Nat} (h : n < 64) : b64value (b64char n) = some n :=
  b64value_b64char_fin ⟨n, h⟩

theorem b64value_pad : b64value 61 = none := by decide

theorem b64decodeFrom_value0 {c : Byte} {v : Nat} (rest : Bytes) (h : b64value c = some v) :
    b64decodeFrom [] (c :: rest) = b64decodeFrom [v] rest := by
  simp [b64decodeFrom, h]

theorem b64decodeFrom_value1 {c : Byte} {v : Nat} (s0 : Nat) (rest : Bytes)
    (h : b64value c = some v) :
    b64decodeFrom [s0] (c :: rest) = b64decodeFrom [s0, v] rest := by
  simp [b64decodeFrom, h]

theorem b64decodeFrom_value2 {c : Byte} {v : Nat} (s0 s1 : Nat) (rest : Bytes)
    (h : b64value c = some v) :
    b64decodeFrom [s0, s1] (c :: rest) = b64decodeFrom [s0, s1, v] rest := by
  simp [b64decodeFrom, h]

theorem b64decodeFrom_value3 {c : Byte} {v : Nat} (s0 s1 s2 : Nat) (rest : Bytes)
    (h : b64value c = some v) :
    b64decodeFrom [s0, s1, s2] (c :: rest) =
      match b64decodeFrom [] rest with
      | some out =>
        some (Fin.ofNat ((s0 * 262144 + s1 * 4096 + s2 * 64 + v) / 65536) ::
          Fin.ofNat ((s0 * 262144 + s1 * 4096 + s2 * 64 + v) / 256) ::
          Fin.ofNat (s0 * 262144 + s1 * 4096 + s2 * 64 + v) :: out)
      | none => none := by
  simp [b64decodeFrom, h]

theorem b64decodeFrom_pad2 (s0 s1 : Nat) :
    b64decodeFrom [s0, s1] [61, 61] = some [Fin.ofNat ((s0 * 262144 + s1 * 4096) / 65536)] := by
  simp [b64decodeFrom, b64value_pad, skipNewlines]

theorem b64decodeFrom_pad3 (s0 s1 s2 : Nat) :
    b64decodeFrom [s0, s1, s2] [61] =
      some [Fin.ofNat ((s0 * 262144 + s1 * 4096 + s2 * 64) / 65536),
        Fin.ofNat ((s0 * 262144 + s1 * 4096 + s2 * 64) / 256)] := by
  simp [b64decodeFrom, b64value_pad, skipNewlines]

theorem fin_ofNat_eq {a : Byte} {n : Nat} (h : n % 256 = a.val) :
    (Fin.ofNat n : Byte) = a := by
  apply Fin.ext
  simpa [Fin.ofNat] using h

/-- Induction on a list three elements at a time. -/
theorem three_induction {α : Type} {P : List α → Prop} (nil : P [])
    (one : ∀ a, P [a]) (two : ∀ a b, P [a, b])
    (step : ∀ a b c rest, P rest → P (a :: b :: c :: rest)) : ∀ l, P l := by
  intro l
  obtain ⟨n, h⟩ : ∃ n, l.length = n := ⟨_, rfl⟩
  induction n using Nat.strong_induction_on generalizing l with
  | _ n ih =>
    match l, h with
    | [], _ => exact nil
    | [a], _ => exact one a
    | [a, b], _ => exact two a b
    | a :: b :: c :: rest, h =>
      simp only [List.length_cons] at h
      exact step a b c rest (ih rest.length (by omega) rest rfl)

theorem b64decode_b64encode (d : Bytes) : b64decode (b64encode d) = some d := by
  unfold b64decode
  induction d using three_induction with
  | nil => simp [b64encode, b64decodeFrom]
  | one a =>
    have ha := a.isLt
    simp only [b64encode]
    rw [b64decodeFrom_value0 _ (b64value_b64char (Nat.mod_lt _ (by decide))),
      b64decodeFrom_value1 _ _ (b64value_b64char (Nat.mod_lt _ (by decide))),
      b64decodeFrom_pad2]
    congr 2
    apply fin_ofNat_eq
    omega
  | two a b =>
    have ha := a.isLt
    have hb := b.isLt
    simp only [b64encode]
    rw [b64decodeFrom_value0 _ (b64value_b64char (Nat.mod_lt _ (by decide))),
      b64decodeFrom_value1 _ _ (b64value_b64char (Nat.mod_lt _ (by decide))),
      b64decodeFrom_value2 _ _ _ (b64value_b64char (Nat.mod_lt _ (by decide))),
      b64decodeFrom_pad3]
    congr 2
    · apply fin_ofNat_eq
      omega
    · congr 1
      apply fin_ofNat_eq
      omega
  | step a b c rest ih =>
    have ha := a.isLt
    have hb := b.isLt
    have hc := c.isLt
    simp only [b64encode]
    rw [b64decodeFrom_value0 _ (b64value_b64char (Nat.mod_lt _ (by decide))),
      b64decodeFrom_value1 _ _ (b64value_b64char (Nat.mod_lt _ (by decide))),
      b64decodeFrom_value2 _ _ _ (b64value_b64char (Nat.mod_lt _ (by decide))),
      b64decodeFrom_value3 _ _ _ _ (b64value_b64char (Nat.mod_lt _ (by decide))), ih]
    simp only [Option.some.injEq, List.cons.injEq, and_true]
    refine ⟨?_, ?_, ?_⟩ <;> apply fin_ofNat_eq <;> omega

theorem b64encode_ne_nil {d : Bytes} (h : d ≠ []) : b64encode d ≠ [] := by
  match d, h with
  | [a], _ => simp [b64encode]
  | [a, b], _ => simp [b64encode]
  | a :: b :: c :: rest, _ => simp [b64encode]

/-! ## Unfolding `Parse` -/

theorem scheme_eq : scheme = [100, 97, 116, 97, 58] := by decide

theorem base64Marker_eq : base64Marker = [59, 98, 97, 115, 101, 54, 52] := by decide

theorem hasPrefix_iff (s pre : Bytes) : hasPrefix s pre = true ↔ pre <+: s := by
  unfold hasPrefix
  exact List.isPrefixOf_iff_prefix

theorem hasPrefix_append (pre s : Bytes) : hasPrefix (pre ++ s) pre = true :=
  (hasPrefix_iff _ _).mpr (List.prefix_append pre s)

/-- The part of `Parse` after the scheme has been checked and removed. -/
theorem Parse_scheme (ext : Mime) (sched : Schedule) (data : Bytes) :
    Parse ext sched (scheme ++ data) =
      if data.length < 1 then .error .noData
      else if data.head? = some 44 then parseData defaultMediaType false data
      else if data.head? = some 59 then parseBase64Marker defaultMediaType data
      else
        if (if bytesIndex data base64Marker > 0 then bytesIndex data base64Marker
            else indexByte data 44) < 0 then .error .noData
        else
          match ext.ParseMediaType (data.take
              (if bytesIndex data base64Marker > 0 then bytesIndex data base64Marker
                else indexByte data 44).toNat) with
          | none => .error (.mediaType (data.take
              (if bytesIndex data base64Marker > 0 then bytesIndex data base64Marker
                else indexByte data 44).toNat))
          | some (typ, params) =>
            match rangeParams sched (mapKeys params) params with
            | .error e => .error e
            | .ok params =>
              if decide (bytesIndex data base64Marker > 0) = true then
                parseBase64Marker { Typ := typ, Params := params } (data.drop
                  (if bytesIndex data base64Marker > 0 then bytesIndex data base64Marker
                    else indexByte data 44).toNat)
              else
                parseData { Typ := typ, Params := params } false (data.drop
                  (if bytesIndex data base64Marker > 0 then bytesIndex data base64Marker
                    else indexByte data 44).toNat) := by
  unfold Parse
  simp only [hasPrefix_append, Bool.not_true, Bool.false_eq_true, if_false,
    List.drop_left]

theorem Parse_no_scheme (ext : Mime) (sched : Schedule) (data : Bytes)
    (h : ¬ scheme <+: data) : Parse ext sched data = .error .invalidScheme := by
  unfold Parse
  have : hasPrefix data scheme = false := by
    cases hp : hasPrefix data scheme with
    | false => rfl
    | true => exact absurd ((hasPrefix_iff _ _).mp hp) h
  simp [this]

theorem parseData_literal (mt : MediaType) (s : Bytes) (hs : s ≠ []) :
    parseData mt false (44 :: s) =
      match unescape s true with
      | .error e => .error (.escapeData e)
      | .ok unescaped => .ok { MediaType := mt, Data := unescaped } := by
  unfold parseData
  have hlen : ¬ (s.length + 1 < 2) := by
    cases s with
    | nil => exact absurd rfl hs
    | cons a t => simp
  simp [hlen]

theorem parseData_base64 (mt : MediaType) (s : Bytes) (hs : s ≠ []) :
    parseData mt true (44 :: s) =
      match b64decode s with
      | none => .error (.base64 s)
      | some dst => .ok { MediaType := mt, Data := dst } := by
  unfold parseData
  have hlen : ¬ (s.length + 1 < 2) := by
    cases s with
    | nil => exact absurd rfl hs
    | cons a t => simp
  simp [hlen]

theorem parseData_comma_only (mt : MediaType) (b : Bool) :
    parseData mt b [44] = .error .invalidDataSection := by
  unfold parseData
  simp

theorem parseData_mediaType {mt : MediaType} {b : Bool} {data : Bytes} {u : URL}
    (h : parseData mt b data = .ok u) : u.MediaType = mt := by
  unfold parseData at h
  split at h
  · exact Except.noConfusion h
  · cases b with
    | false =>
      simp only [Bool.not_false, if_true] at h
      split at h
      · exact Except.noConfusion h
      · rw [← Except.ok.inj h]
    | true =>
      simp only [Bool.not_true, Bool.false_eq_true, if_false] at h
      split at h
      · exact Except.noConfusion h
      · rw [← Except.ok.inj h]

theorem parseBase64Marker_mediaType {mt : MediaType} {data : Bytes} {u : URL}
    (h : parseBase64Marker mt data = .ok u) : u.MediaType = mt := by
  unfold parseBase64Marker at h
  split at h
  · exact Except.noConfusion h
  · exact parseData_mediaType h

theorem parseData_no_comma (mt : MediaType) (b : Bool) (data : Bytes)
    (h : (44 : Byte) ∉ data) : parseData mt b data = .error .invalidDataSection := by
  unfold parseData
  have : data.head? ≠ some 44 := by
    intro hh
    cases data with
    | nil => simp at hh
    | cons a t =>
      simp only [List.head?_cons, Option.some.injEq] at hh
      exact h (by simp [hh])
  simp [this]

theorem parseBase64Marker_no_comma (mt : MediaType) (data : Bytes)
    (h : (44 : Byte) ∉ data) : ∃ e, parseBase64Marker mt data = .error e := by
  unfold parseBase64Marker
  split
  · exact ⟨_, rfl⟩
  · exact ⟨_, parseData_no_comma mt true _ (fun hm => h (List.mem_of_mem_drop hm))⟩

theorem indexByteFrom_not_mem (c : Byte) (s : Bytes) (h : c ∉ s) :
    ∀ n, indexByteFrom c n s = -1 := by
  induction s with
  | nil => intro n; rfl
  | cons a t ih =>
    intro n
    have ha : a ≠ c := fun e => h (by simp [e])
    have ht : c ∉ t := fun m => h (List.mem_cons_of_mem _ m)
    simp [indexByteFrom, ha, ih ht]

/-! ## Claims on the branches of `Parse` -/

/-- C7 (amended): for every non-empty byte sequence `s`, `Parse` applied to
`data:,` followed by `s` fails exactly when strict `unescape` of `s` fails, with
that error, and otherwise succeeds with the default media type and `Data` equal
to the strict unescape of `s`. -/
theorem C7_parse_literal_payload (ext : Mime) (sched : Schedule) (s : Bytes) (hs : s ≠ []) :
    Parse ext sched (ascii "data:," ++ s) =
      match unescape s true with
      | .error e => .error (.escapeData e)
      | .ok out => .ok { MediaType := defaultMediaType, Data := out } := by
  have h : ascii "data:," ++ s = scheme ++ (44 :: s) := by
    have : ascii "data:," = scheme ++ [44] := by decide
    rw [this]
    simp
  rw [h, Parse_scheme]
  simp only [List.length_cons, List.head?_cons, if_true]
  rw [if_neg (by omega), parseData_literal _ _ hs]

/-- C7, witness: `data:,hello%2C%20world!` yields the payload `hello, world!`. -/
theorem C7_parse_literal_payload_witness :
    ascii "hello%2C%20world!" ≠ [] ∧
      Parse stdlib [] (ascii "data:," ++ ascii "hello%2C%20world!") =
        .ok { MediaType := defaultMediaType, Data := ascii "hello, world!" } :=
  ⟨by decide, by
    rw [C7_parse_literal_payload stdlib [] (ascii "hello%2C%20world!") (by decide)]
    decide⟩

/-- C7, counterexample: for the empty `s` strict `unescape` succeeds (with the
empty payload) and yet `Parse` of `data:,` fails. -/
theorem C7_empty_payload_counterexample :
    unescape [] true = .ok [] ∧
      Parse stdlib [] (ascii "data:," ++ []) = .error .invalidDataSection := by
  decide

/-- C8: for every input whose first byte after `data:` is `,` or `;`, if
`Parse` succeeds then the returned media type has `Type` `text/plain` and
`Params` the one-entry map from `charset` to `US-ASCII`. -/
theorem C8_default_media_type (ext : Mime) (sched : Schedule) (c : Byte) (rest : Bytes)
    (u : URL) (hc : c = 44 ∨ c = 59)
    (h : Parse ext sched (ascii "data:" ++ c :: rest) = .ok u) :
    u.MediaType.Typ = ascii "text/plain" ∧
      u.MediaType.Params = [(ascii "charset", ascii "US-ASCII")] := by
  have hs : ascii "data:" = scheme := rfl
  rw [hs, Parse_scheme] at h
  simp only [List.length_cons, List.head?_cons, Option.some.injEq] at h
  rw [if_neg (by omega)] at h
  have hmt : u.MediaType = defaultMediaType := by
    rcases hc with rfl | rfl
    · simp only [if_true] at h
      exact parseData_mediaType h
    · rw [if_neg (by decide), if_pos rfl] at h
      exact parseBase64Marker_mediaType h
  rw [hmt]
  exact ⟨rfl, rfl⟩

/-- C8, witness: `data:;base64,aGVsbG8sIHdvcmxkIQ==` parses, with the default
media type. -/
theorem C8_default_media_type_witness :
    ((59 : Byte) = 44 ∨ (59 : Byte) = 59) ∧
      Parse stdlib [] (ascii "data:" ++ 59 :: ascii "base64,aGVsbG8sIHdvcmxkIQ==") =
        .ok { MediaType := defaultMediaType, Data := ascii "hello, world!" } ∧
      defaultMediaType.Typ = ascii "text/plain" ∧
      defaultMediaType.Params = [(ascii "charset", ascii "US-ASCII")] :=
  ⟨by decide, by decide,
    C8_default_media_type stdlib [] 59 (ascii "base64,aGVsbG8sIHdvcmxkIQ==")
      { MediaType := defaultMediaType, Data := ascii "hello, world!" } (by decide) (by decide)⟩

/-- C9: `Parse` returns an error (and no URL) on every input that does not
begin with the five bytes `data:` or has no `,` after that prefix. -/
theorem C9_parse_requires_scheme_and_comma (ext : Mime) (sched : Schedule) (data : Bytes)
    (h : ¬ ascii "data:" <+: data ∨ (44 : Byte) ∉ data.drop 5) :
    ∃ e, Parse ext sched data = .error e := by
  have hs : ascii "data:" = scheme := rfl
  rw [hs] at h
  by_cases hp : scheme <+: data
  · have hno : (44 : Byte) ∉ data.drop 5 := h.resolve_left (not_not.mpr hp)
    obtain ⟨rest, rfl⟩ := hp
    have hlen : scheme.length = 5 := by decide
    rw [← hlen, List.drop_left] at hno
    rw [Parse_scheme]
    split
    · exact ⟨_, rfl⟩
    split
    · exact ⟨_, parseData_no_comma _ _ _ hno⟩
    split
    · exact parseBase64Marker_no_comma _ _ hno
    by_cases hi : bytesIndex rest base64Marker > 0
    · simp only [hi, if_true, decide_True]
      split
      · exact ⟨_, rfl⟩
      split
      · exact ⟨_, rfl⟩
      split
      · exact ⟨_, rfl⟩
      · exact parseBase64Marker_no_comma _ _ (fun hm => hno (List.mem_of_mem_drop hm))
    · have hneg : indexByte rest 44 < 0 := by
        unfold indexByte
        rw [indexByteFrom_not_mem 44 rest hno 0]
        decide
      simp only [hi, if_false, hneg, if_true]
      exact ⟨_, rfl⟩
  · exact ⟨_, Parse_no_scheme ext sched data hp⟩

/-- C9, witness: `data:` alone has the prefix and no comma, and is rejected. -/
theorem C9_parse_requires_scheme_and_comma_witness :
    (¬ ascii "data:" <+: ascii "data:" ∨ (44 : Byte) ∉ (ascii "data:").drop 5) ∧
      ∃ e, Parse stdlib [] (ascii "data:") = .error e :=
  ⟨Or.inr (by decide),
    C9_parse_requires_scheme_and_comma stdlib [] (ascii "data:") (Or.inr (by decide))⟩

/-! ## Where `Parse` finds the end of the header that `Encode` wrote -/

/-- An occurrence of `;base64` cannot start inside a header `s` that does not
contain the marker and run over into what follows, when that begins with `,`
or `;`: the marker has neither character after its first byte. -/
theorem marker_not_prefix_of_suffix (s u tail : Bytes) (hu : u ≠ []) (hsuf : u <:+ s)
    (hs : ¬ base64Marker <:+: s)
    (ht : tail.head? = some 44 ∨ tail.head? = some 59) :
    ¬ base64Marker <+: u ++ tail := by
  intro hpre
  rcases List.prefix_or_prefix_of_prefix hpre (List.prefix_append u tail) with h | h
  · exact hs (List.IsInfix.trans h.isInfix hsuf.isInfix)
  · obtain ⟨t2, ht2⟩ := h
    rw [← ht2, List.prefix_append_right_inj] at hpre
    cases t2 with
    | nil =>
      rw [List.append_nil] at ht2
      exact hs (ht2 ▸ hsuf.isInfix)
    | cons x t3 =>
      obtain ⟨r, hr⟩ := hpre
      have hhead : tail.head? = some x := by rw [← hr]; rfl
      have hx : x = 44 ∨ x = 59 := by
        rcases ht with ht | ht
        · rw [ht] at hhead
          exact Or.inl (Option.some.inj hhead).symm
        · rw [ht] at hhead
          exact Or.inr (Option.some.inj hhead).symm
      cases u with
      | nil => exact hu rfl
      | cons u0 u1 =>
        have hmem : x ∈ base64Marker.tail := by
          rw [← ht2]
          simp
        have htail : base64Marker.tail = [98, 97, 115, 101, 54, 52] := by decide
        rw [htail] at hmem
        simp only [List.mem_cons, List.mem_singleton, List.not_mem_nil, or_false] at hmem
        rcases hx with rfl | rfl <;> revert hmem <;> decide

theorem indexFrom_append_skip (sep tail : Bytes) (s : Bytes)
    (h : ∀ u, u ≠ [] → u <:+ s → ¬ sep <+: u ++ tail) :
    ∀ n, indexFrom sep n (s ++ tail) = indexFrom sep (n + s.length) tail := by
  induction s with
  | nil => intro n; simp
  | cons c s2 ih =>
    intro n
    have h1 : sep.isPrefixOf (c :: (s2 ++ tail)) = false := by
      cases hp : sep.isPrefixOf (c :: (s2 ++ tail)) with
      | false => rfl
      | true =>
        exact absurd (List.isPrefixOf_iff_prefix.mp hp)
          (h (c :: s2) (by simp) (List.suffix_refl _))
    have h2 := ih (fun u hu hsuf => h u hu (hsuf.trans (List.suffix_cons c s2))) (n + 1)
    have hn : n + 1 + s2.length = n + (c :: s2).length := by
      simp only [List.length_cons]
      omega
    rw [List.cons_append, indexFrom, h1, if_neg Bool.false_ne_true, h2, hn]

theorem indexFrom_prefix (sep rest : Bytes) (hsep : sep ≠ []) (n : Nat) :
    indexFrom sep n (sep ++ rest) = (n : Int) := by
  cases sep with
  | nil => exact absurd rfl hsep
  | cons a t =>
    have : (a :: t).isPrefixOf (a :: (t ++ rest)) = true :=
      List.isPrefixOf_iff_prefix.mpr ⟨rest, rfl⟩
    simp [indexFrom, this]

theorem indexFrom_no_first (a : Byte) (sep t : Bytes) (h : a ∉ t) :
    ∀ n, indexFrom (a :: sep) n t = -1 := by
  induction t with
  | nil => intro n; simp [indexFrom]
  | cons c t2 ih =>
    intro n
    have hc : c ≠ a := fun e => h (by simp [e])
    have h1 : (a :: sep).isPrefixOf (c :: t2) = false := by
      cases hp : (a :: sep).isPrefixOf (c :: t2) with
      | false => rfl
      | true =>
        obtain ⟨r, hr⟩ := List.isPrefixOf_iff_prefix.mp hp
        simp only [List.cons_append, List.cons.injEq] at hr
        exact absurd hr.1.symm hc
    simp only [indexFrom, h1, Bool.false_eq_true, if_false]
    exact ih (fun m => h (List.mem_cons_of_mem _ m)) (n + 1)

theorem indexByteFrom_append (c : Byte) (s rest : Bytes) (h : c ∉ s) :
    ∀ n, indexByteFrom c n (s ++ c :: rest) = ((n + s.length : Nat) : Int) := by
  induction s with
  | nil => intro n; simp [indexByteFrom]
  | cons a t ih =>
    intro n
    have ha : a ≠ c := fun e => h (by simp [e])
    have hn : n + 1 + t.length = n + (a :: t).length := by
      simp only [List.length_cons]
      omega
    rw [List.cons_append, indexByteFrom, if_neg ha,
      ih (fun m => h (List.mem_cons_of_mem _ m)) (n + 1), hn]

set_option maxRecDepth 100000 in
theorem semicolon_not_mem_escapeByte : ∀ b : Byte, (59 : Byte) ∉ escapeByte b := by decide

theorem semicolon_not_mem_escaped (d : Bytes) : (59 : Byte) ∉ (d.map escapeByte).flatten := by
  intro h
  obtain ⟨l, hl, hm⟩ := List.mem_flatten.mp h
  obtain ⟨b, _, rfl⟩ := List.mem_map.mp hl
  exact semicolon_not_mem_escapeByte b hm

theorem escaped_ne_nil {d : Bytes} (h : d ≠ []) : (d.map escapeByte).flatten ≠ [] := by
  cases d with
  | nil => exact absurd rfl h
  | cons b t =>
    simp only [List.map_cons, List.flatten_cons]
    intro hnil
    have := (List.append_eq_nil.mp hnil).1
    unfold escapeByte at this
    split at this <;> simp at this

theorem payloadSection_head (enc : Bool) (d : Bytes) :
    (payloadSection enc d).head? = some 44 ∨ (payloadSection enc d).head? = some 59 := by
  cases enc with
  | false => exact Or.inl rfl
  | true => exact Or.inr rfl

theorem parse_payloadSection_literal (mt : MediaType) (d : Bytes) (hd : d ≠ []) :
    parseData mt false (payloadSection false d) = .ok { MediaType := mt, Data := d } := by
  have h : payloadSection false d = 44 :: (d.map escapeByte).flatten := rfl
  rw [h, parseData_literal _ _ (escaped_ne_nil hd)]
  have := unescapeFrom_strict_escaped d 0
  unfold unescape
  rw [this]

theorem parse_payloadSection_base64 (mt : MediaType) (d : Bytes) (hd : d ≠ []) :
    parseBase64Marker mt (payloadSection true d) = .ok { MediaType := mt, Data := d } := by
  have h : payloadSection true d = base64Marker ++ 44 :: b64encode d := rfl
  rw [h]
  unfold parseBase64Marker
  simp only [hasPrefix_append, Bool.not_true, Bool.false_eq_true, if_false, List.drop_left]
  rw [parseData_base64 _ _ (b64encode_ne_nil hd), b64decode_b64encode]

/-- The branch of `Parse` for an input with a media type, once the position `n`
where the header ends and the flag `b` of the marker are known. -/
theorem Parse_header (ext : Mime) (sched : Schedule) (data : Bytes) (n : Nat) (b : Bool)
    (hne : data ≠ []) (h44 : data.head? ≠ some 44) (h59 : data.head? ≠ some 59)
    (hcut : (if bytesIndex data base64Marker > 0 then bytesIndex data base64Marker
      else indexByte data 44) = (n : Int))
    (hb : decide (bytesIndex data base64Marker > 0) = b) :
    Parse ext sched (scheme ++ data) =
      match ext.ParseMediaType (data.take n) with
      | none => .error (.mediaType (data.take n))
      | some (typ, params) =>
        match rangeParams sched (mapKeys params) params with
        | .error e => .error e
        | .ok params2 =>
          if b = true then parseBase64Marker { Typ := typ, Params := params2 } (data.drop n)
          else parseData { Typ := typ, Params := params2 } false (data.drop n) := by
  rw [Parse_scheme]
  have hlen : ¬ (data.length < 1) := by
    cases data with
    | nil => exact absurd rfl hne
    | cons a t => simp
  have hneg : ¬ ((n : Int) < 0) := Int.not_lt.mpr (Int.ofNat_nonneg _)
  rw [if_neg hlen, if_neg h44, if_neg h59, hcut, hb, if_neg hneg, Int.toNat_ofNat]

/-- What `Parse` returns on `data:` followed by a header `s` and the payload section that
`Encode` writes: the header is cut where `Encode` ended it, and the payload is
decoded back to `d`. -/
theorem Parse_assembled (ext : Mime) (sched : Schedule) (s d : Bytes) (enc : Bool)
    (hd : d ≠ []) (hne : s ≠ []) (h3 : (44 : Byte) ∉ s) (h4 : ¬ base64Marker <:+: s)
    (h5 : s.head? ≠ some 59) :
    Parse ext sched (scheme ++ (s ++ payloadSection enc d)) =
      match ext.ParseMediaType s with
      | none => .error (.mediaType s)
      | some (typ, params) =>
        match rangeParams sched (mapKeys params) params with
        | .error e => .error e
        | .ok params2 => .ok { MediaType := { Typ := typ, Params := params2 }, Data := d } := by
  obtain ⟨c, s2, rfl⟩ := List.exists_cons_of_ne_nil hne
  have hc44 : c ≠ 44 := fun e => h3 (by simp [e])
  have hc59 : c ≠ 59 := fun e => h5 (by simp [e])
  have hskip : ∀ n, indexFrom base64Marker n ((c :: s2) ++ payloadSection enc d) =
      indexFrom base64Marker (n + (c :: s2).length) (payloadSection enc d) :=
    indexFrom_append_skip base64Marker _ (c :: s2)
      (fun u hu hsuf => marker_not_prefix_of_suffix (c :: s2) u _ hu hsuf h4
        (payloadSection_head enc d))
  have hne2 : (c :: s2) ++ payloadSection enc d ≠ [] := by simp
  have hh44 : ((c :: s2) ++ payloadSection enc d).head? ≠ some 44 := by simp [hc44]
  have hh59 : ((c :: s2) ++ payloadSection enc d).head? ≠ some 59 := by simp [hc59]
  cases enc with
  | true =>
    have hidx : bytesIndex ((c :: s2) ++ payloadSection true d) base64Marker =
        (((c :: s2).length : Nat) : Int) := by
      unfold bytesIndex
      rw [hskip 0]
      have : payloadSection true d = base64Marker ++ 44 :: b64encode d := rfl
      rw [this, indexFrom_prefix _ _ (by decide)]
      simp
    have hpos : bytesIndex ((c :: s2) ++ payloadSection true d) base64Marker > 0 := by
      rw [hidx]
      simp
    rw [Parse_header ext sched _ (c :: s2).length true hne2 hh44 hh59
      (by rw [if_pos hpos, hidx]) (decide_eq_true hpos), List.take_left, List.drop_left]
    cases hp : ext.ParseMediaType (c :: s2) with
    | none => rfl
    | some tp =>
      obtain ⟨typ, params⟩ := tp
      simp only
      cases hr : rangeParams sched (mapKeys params) params with
      | error e => rfl
      | ok params2 =>
        simp only [if_true]
        exact parse_payloadSection_base64 _ d hd
  | false =>
    have hpl : payloadSection false d = 44 :: (d.map escapeByte).flatten := rfl
    have hidx : bytesIndex ((c :: s2) ++ payloadSection false d) base64Marker = -1 := by
      unfold bytesIndex
      rw [hskip 0, base64Marker_eq]
      apply indexFrom_no_first
      rw [hpl]
      intro hm
      rcases List.mem_cons.mp hm with h | h
      · exact absurd h (by decide)
      · exact semicolon_not_mem_escaped d h
    have hcomma : indexByte ((c :: s2) ++ payloadSection false d) 44 =
        (((c :: s2).length : Nat) : Int) := by
      unfold indexByte
      rw [hpl, indexByteFrom_append 44 (c :: s2) _ h3 0]
      simp
    have hpos : ¬ (bytesIndex ((c :: s2) ++ payloadSection false d) base64Marker > 0) := by
      rw [hidx]
      decide
    rw [Parse_header ext sched _ (c :: s2).length false hne2 hh44 hh59
      (by rw [if_neg hpos, hcomma]) (decide_eq_false hpos), List.take_left, List.drop_left]
    cases hp : ext.ParseMediaType (c :: s2) with
    | none => rfl
    | some tp =>
      obtain ⟨typ, params⟩ := tp
      simp only
      cases hr : rangeParams sched (mapKeys params) params with
      | error e => rfl
      | ok params2 =>
        simp only [Bool.false_eq_true, if_false]
        exact parse_payloadSection_literal _ d hd

/-- What `Parse` returns on `data:` directly followed by the payload section (no media
type): the default media type and the payload `d`. -/
theorem Parse_assembled_nil (ext : Mime) (sched : Schedule) (d : Bytes) (enc : Bool)
    (hd : d ≠ []) :
    Parse ext sched (scheme ++ ([] ++ payloadSection enc d)) =
      .ok { MediaType := defaultMediaType, Data := d } := by
  rw [Parse_scheme, List.nil_append]
  cases enc with
  | true =>
    have h : payloadSection true d = 59 :: (base64Marker.tail ++ 44 :: b64encode d) := rfl
    have hlen : ¬ ((payloadSection true d).length < 1) := by rw [h]; simp
    rw [if_neg hlen, if_neg (by rw [h]; simp), if_pos (by rw [h]; rfl)]
    exact parse_payloadSection_base64 _ d hd
  | false =>
    have h : payloadSection false d = 44 :: (d.map escapeByte).flatten := rfl
    have hlen : ¬ ((payloadSection false d).length < 1) := by rw [h]; simp
    rw [if_neg hlen, if_pos (by rw [h]; rfl)]
    exact parse_payloadSection_literal _ d hd

theorem Encode_of_resolve (ext : Mime) (d : Bytes) (options : List EncodeOption) (s : Bytes)
    (h : resolveMediaType ext d (applyOptions options).mt (applyOptions options).params =
      .ok s) :
    Encode ext d options =
      .ok (scheme ++ (s ++ payloadSection (usesBase64 (applyOptions options) s) d)) := by
  have key : ∀ b : Bool,
      (if b = true then
          (Except.ok ((if b = true then scheme ++ s ++ base64Marker else scheme ++ s) ++
            [44] ++ b64encode d) : Except EncodeError Bytes)
        else
          Except.ok (writeEscapedSequence
            ((if b = true then scheme ++ s ++ base64Marker else scheme ++ s) ++ [44]) d)) =
        Except.ok (scheme ++ (s ++ payloadSection b d)) := by
    intro b
    cases b <;> simp [payloadSection, writeEscapedSequence_eq]
  unfold Encode
  simp only []
  rw [h]
  exact key (usesBase64 (applyOptions options) s)

/-! ## The parameter pass on parameters without `%` -/

theorem unescapeFrom_no_percent (data : Bytes) (h : (37 : Byte) ∉ data) :
    ∀ i, unescapeFrom false i data = .ok data := by
  induction data with
  | nil => intro i; exact unescapeFrom_nil false i
  | cons c rest ih =>
    intro i
    have hc : c ≠ 37 := fun e => h (by simp [e])
    rw [unescapeFrom_lit_ok hc]
    exact ⟨Or.inl rfl, rest, ih (fun m => h (List.mem_cons_of_mem _ m)) _, rfl⟩

theorem mapGet_mem {m : Params} {k v : Bytes} (h : mapGet m k = some v) : (k, v) ∈ m := by
  induction m with
  | nil => simp [mapGet] at h
  | cons e rest ih =>
    obtain ⟨k2, v2⟩ := e
    unfold mapGet at h
    split at h
    · rename_i hk
      simp only [Option.some.injEq] at h
      rw [hk, h]
      exact List.mem_cons_self _ _
    · exact List.mem_cons_of_mem _ (ih h)

theorem unescapeParam_no_percent (params : Params) (k v : Bytes) (hk : (37 : Byte) ∉ k)
    (hv : (37 : Byte) ∉ v) : unescapeParam params k v = .ok (params, none) := by
  unfold unescapeParam unescape
  rw [unescapeFrom_no_percent k hk 0, unescapeFrom_no_percent v hv 0]
  simp

theorem rangeDrain_no_percent (params : Params)
    (h : ∀ kv ∈ params, (37 : Byte) ∉ kv.1 ∧ (37 : Byte) ∉ kv.2) :
    ∀ pending, rangeDrain pending params = .ok params := by
  intro pending
  induction pending with
  | nil => rfl
  | cons k rest ih =>
    unfold rangeDrain
    cases hg : mapGet params k with
    | none => exact ih
    | some v =>
      have hkv := h (k, v) (mapGet_mem hg)
      simp only [unescapeParam_no_percent params k v hkv.1 hkv.2]
      exact ih

theorem rangeParams_no_percent (params : Params)
    (h : ∀ kv ∈ params, (37 : Byte) ∉ kv.1 ∧ (37 : Byte) ∉ kv.2) :
    ∀ sched pending, rangeParams sched pending params = .ok params := by
  intro sched
  induction sched with
  | nil =>
    intro pending
    unfold rangeParams
    exact rangeDrain_no_percent params h pending
  | cons c sched ih =>
    intro pending
    cases pending with
    | nil => rfl
    | cons k0 rest =>
      unfold rangeParams
      simp only
      cases hg : mapGet params ((k0 :: rest).getD (c.pick % (k0 :: rest).length) k0) with
      | none => exact ih _
      | some v =>
        have hkv := h (_, v) (mapGet_mem hg)
        simp only [unescapeParam_no_percent params _ v hkv.1 hkv.2]
        exact ih _

theorem indexByte_not_mem (s : Bytes) (c : Byte) (h : c ∉ s) : indexByte s c = -1 :=
  indexByteFrom_not_mem c s h 0

theorem resolveMediaType_bare (ext : Mime) (d t : Bytes) (p : Params) (ht : t ≠ [])
    (hsemi : (59 : Byte) ∉ t) (hp : p ≠ []) :
    resolveMediaType ext d t p = .ok (replaceSemicolonSpace (ext.FormatMediaType t p)) := by
  unfold resolveMediaType
  have hlen : p.length ≠ 0 := fun h => hp (List.length_eq_zero.mp h)
  simp [ht, indexByte_not_mem t 59 hsemi, hlen]

/-! ## The parameter pass under the `range` semantics of Go -/

/-- C10: on `data:text/plain;a%2541=x;b=1;c=2;d=3;e=4;f=5;g=6;h=7;i=8,hello`
the grammar parser returns nine parameters, which all unescape without error
and whose decoded names `a%41`, `b`, ..., `i` are pairwise distinct.  When the
`range` loop does not produce the entry it creates for `a%41`, `Parse` returns
the nine decoded parameters, as the claim says.  When the loop handles
`a%2541` first and produces the created entry `a%41` after the other eight,
which Go allows and which the runtime does when the new entry lands in a part
of the map not yet visited (a map of more than eight entries has several), the
name is decoded a second time: `Parse` returns the name `aA`, and the decoded
form `a%41` is absent from the result. -/
theorem C10_rekeyed_entry_decoded_twice :
    goParseMediaType (ascii "text/plain;a%2541=x;b=1;c=2;d=3;e=4;f=5;g=6;h=7;i=8") =
        some (ascii "text/plain",
          [(ascii "a%2541", ascii "x"), (ascii "b", ascii "1"), (ascii "c", ascii "2"),
            (ascii "d", ascii "3"), (ascii "e", ascii "4"), (ascii "f", ascii "5"),
            (ascii "g", ascii "6"), (ascii "h", ascii "7"), (ascii "i", ascii "8")]) ∧
      unescape (ascii "a%2541") false = .ok (ascii "a%41") ∧
      Parse stdlib []
          (ascii "data:text/plain;a%2541=x;b=1;c=2;d=3;e=4;f=5;g=6;h=7;i=8,hello") =
        .ok { MediaType :=
                { Typ := ascii "text/plain",
                  Params :=
                    [(ascii "b", ascii "1"), (ascii "c", ascii "2"), (ascii "d", ascii "3"),
                      (ascii "e", ascii "4"), (ascii "f", ascii "5"), (ascii "g", ascii "6"),
                      (ascii "h", ascii "7"), (ascii "i", ascii "8"),
                      (ascii "a%41", ascii "x")] },
              Data := ascii "hello" } ∧
      Parse stdlib [{ pick := 0, revisit := true }]
          (ascii "data:text/plain;a%2541=x;b=1;c=2;d=3;e=4;f=5;g=6;h=7;i=8,hello") =
        .ok { MediaType :=
                { Typ := ascii "text/plain",
                  Params :=
                    [(ascii "b", ascii "1"), (ascii "c", ascii "2"), (ascii "d", ascii "3"),
                      (ascii "e", ascii "4"), (ascii "f", ascii "5"), (ascii "g", ascii "6"),
                      (ascii "h", ascii "7"), (ascii "i", ascii "8"),
                      (ascii "aA", ascii "x")] },
              Data := ascii "hello" } := by
  decide

/-! ## The parameter pass when every entry is produced once -/

theorem mapGet_mapSet (m : Params) (k v x : Bytes) :
    mapGet (mapSet m k v) x = if x = k then some v else mapGet m x := by
  induction m with
  | nil =>
    by_cases h : x = k
    · simp [mapSet, mapGet, h]
    · have h2 : ¬ k = x := fun e => h e.symm
      simp [mapSet, mapGet, h, h2]
  | cons e rest ih =>
    obtain ⟨k2, v2⟩ := e
    by_cases hk : k2 = k
    · subst hk
      by_cases hx : x = k2
      · simp [mapSet, mapGet, hx]
      · have h2 : ¬ k2 = x := fun e => hx e.symm
        simp [mapSet, mapGet, hx, h2]
    · by_cases hx : x = k
      · subst hx
        simp [mapSet, mapGet, hk, ih]
      · simp [mapSet, mapGet, hk, ih, hx]

theorem mapDelete_cons (k2 v2 : Bytes) (rest : Params) (k : Bytes) :
    mapDelete ((k2, v2) :: rest) k =
      if k2 = k then mapDelete rest k else (k2, v2) :: mapDelete rest k := by
  unfold mapDelete
  by_cases hk : k2 = k <;> simp [List.filter_cons, hk]

theorem mapGet_mapDelete (m : Params) (k x : Bytes) :
    mapGet (mapDelete m k) x = if x = k then none else mapGet m x := by
  induction m with
  | nil => simp [mapDelete, mapGet]
  | cons e rest ih =>
    obtain ⟨k2, v2⟩ := e
    rw [mapDelete_cons]
    by_cases hk : k2 = k
    · rw [if_pos hk, ih]
      subst hk
      by_cases hx : x = k2
      · simp [hx]
      · have h2 : ¬ k2 = x := fun e => hx e.symm
        simp [mapGet, hx, h2]
    · rw [if_neg hk]
      simp only [mapGet]
      rw [ih]
      by_cases hx : x = k
      · subst hx
        simp [hk]
      · simp [hx]

theorem mapGet_none_of_not_mem_keys (m : Params) (k : Bytes) (h : k ∉ mapKeys m) :
    mapGet m k = none := by
  induction m with
  | nil => rfl
  | cons e rest ih =>
    obtain ⟨k2, v2⟩ := e
    have h1 : k2 ≠ k := fun e => h (by simp [mapKeys, e])
    have h2 : k ∉ mapKeys rest := fun hm => h (by
      unfold mapKeys at hm ⊢
      exact List.mem_cons_of_mem _ hm)
    simp [mapGet, h1, ih h2]

theorem mapGet_eq_some_iff (m : Params) (hnd : (mapKeys m).Nodup) (k v : Bytes) :
    mapGet m k = some v ↔ (k, v) ∈ m := by
  induction m with
  | nil => simp [mapGet]
  | cons e rest ih =>
    obtain ⟨k2, v2⟩ := e
    have hnd2 : (mapKeys rest).Nodup := by
      unfold mapKeys at hnd ⊢
      exact (List.nodup_cons.mp hnd).2
    have hk2 : k2 ∉ mapKeys rest := by
      unfold mapKeys at hnd ⊢
      exact (List.nodup_cons.mp hnd).1
    by_cases hk : k2 = k
    · subst hk
      have hnot : ∀ w, (k2, w) ∉ rest := by
        intro w hw
        exact hk2 (List.mem_map.mpr ⟨(k2, w), hw, rfl⟩)
      simp only [mapGet, if_true, Option.some.injEq, List.mem_cons, Prod.mk.injEq, true_and]
      constructor
      · intro h
        exact Or.inl h.symm
      · rintro (h | h)
        · exact h.symm
        · exact absurd h (hnot v)
    · have hne : ¬ k = k2 := fun e => hk e.symm
      simp only [mapGet, hk, if_false, ih hnd2, List.mem_cons, Prod.mk.injEq, hne, false_and,
        false_or]

theorem unescape_eq_decoded {b : Bytes} (h : ∃ out, unescape b false = .ok out) :
    unescape b false = .ok (decoded b) := by
  obtain ⟨out, hout⟩ := h
  unfold decoded
  rw [hout]

theorem rangeInv_init (P : Params) (hnd : (mapKeys P).Nodup) : RangeInv P (mapKeys P) P := by
  intro x y
  rw [mapGet_eq_some_iff P hnd]
  constructor
  · intro h
    refine ⟨(x, y), h, ?_⟩
    have : x ∈ mapKeys P := List.mem_map.mpr ⟨(x, y), h, rfl⟩
    simp [this]
  · rintro ⟨kv, hkv, h⟩
    have : kv.1 ∈ mapKeys P := List.mem_map.mpr ⟨kv, hkv, rfl⟩
    rw [if_pos this] at h
    obtain ⟨rfl, rfl⟩ := h
    exact hkv

/-- One iteration of the loop on a pending entry keeps the invariant. -/
theorem unescapeParam_step (P : Params) (hP : Rekeyable P) (pending : List Bytes)
    (m : Params) (k : Bytes) (hnd : pending.Nodup) (hsub : ∀ x ∈ pending, x ∈ mapKeys P)
    (hinv : RangeInv P pending m) (hk : k ∈ pending) :
    ∃ v m2 c, mapGet m k = some v ∧ unescapeParam m k v = .ok (m2, c) ∧
      RangeInv P (pending.erase k) m2 := by
  obtain ⟨kv0, hkv0, hkey⟩ := List.mem_map.mp (hsub k hk)
  obtain ⟨k0, v⟩ := kv0
  simp only at hkey
  subst hkey
  have hget : mapGet m k0 = some v := (hinv k0 v).mpr ⟨(k0, v), hkv0, by simp [hk]⟩
  have huk := unescape_eq_decoded (hP.keys_ok (k0, v) hkv0)
  have huv := unescape_eq_decoded (hP.vals_ok (k0, v) hkv0)
  simp only at huk huv
  have hnot : k0 ∉ pending.erase k0 := hnd.not_mem_erase
  have hother : ∀ kv ∈ P, kv.1 ≠ k0 → (kv.1 ∈ pending.erase k0 ↔ kv.1 ∈ pending) :=
    fun kv _ hne => List.mem_erase_of_ne hne
  have hsame : ∀ kv ∈ P, kv.1 = k0 → kv = (k0, v) := by
    intro kv hkv he
    have h1 := (mapGet_eq_some_iff P hP.nodup kv.1 kv.2).mpr hkv
    have h2 := (mapGet_eq_some_iff P hP.nodup k0 v).mpr hkv0
    rw [he, h2] at h1
    exact Prod.ext he (Option.some.inj h1).symm
  -- the three outcomes of the body
  have hbody : unescapeParam m k0 v =
      if decoded k0 ≠ k0 then
        .ok (mapSet (mapDelete m k0) (decoded k0) (decoded v),
          if (mapGet (mapDelete m k0) (decoded k0)).isNone then some (decoded k0) else none)
      else if v ≠ decoded v then .ok (mapSet m k0 (decoded v), none)
      else .ok (m, none) := by
    unfold unescapeParam
    rw [huk, huv]
  refine ⟨v, ?_⟩
  by_cases h1 : decoded k0 ≠ k0
  · rw [hbody, if_pos h1]
    refine ⟨_, _, hget, rfl, ?_⟩
    intro x y
    rw [mapGet_mapSet, mapGet_mapDelete]
    constructor
    · intro h
      by_cases hx : x = decoded k0
      · rw [if_pos hx] at h
        refine ⟨(k0, v), hkv0, ?_⟩
        rw [if_neg hnot]
        exact ⟨hx, (Option.some.inj h).symm⟩
      · rw [if_neg hx] at h
        by_cases hxk : x = k0
        · rw [if_pos hxk] at h
          exact Option.noConfusion h
        · rw [if_neg hxk] at h
          obtain ⟨kv, hkv, hcase⟩ := (hinv x y).mp h
          have hne : kv.1 ≠ k0 := by
            intro he
            rw [hsame kv hkv he] at hcase
            simp only [hk, if_true] at hcase
            exact hxk hcase.1
          refine ⟨kv, hkv, ?_⟩
          by_cases hp : kv.1 ∈ pending
          · rw [if_pos hp] at hcase
            rw [if_pos ((hother kv hkv hne).mpr hp)]
            exact hcase
          · rw [if_neg hp] at hcase
            rw [if_neg (fun hh => hp ((hother kv hkv hne).mp hh))]
            exact hcase
    · rintro ⟨kv, hkv, hcase⟩
      by_cases he : kv.1 = k0
      · rw [hsame kv hkv he] at hcase
        rw [if_neg hnot] at hcase
        rw [if_pos hcase.1, hcase.2]
      · have hd := hP.distinct (k0, v) hkv0 kv hkv (fun e => he e.symm)
        have hd2 := hP.distinct kv hkv (k0, v) hkv0 he
        simp only at hd hd2
        by_cases hp : kv.1 ∈ pending
        · rw [if_pos ((hother kv hkv he).mpr hp)] at hcase
          obtain ⟨hx, hy⟩ := hcase
          rw [if_neg (by rw [hx]; exact fun e => hd.1 e.symm), if_neg (by rw [hx]; exact he)]
          exact (hinv x y).mpr ⟨kv, hkv, by rw [if_pos hp]; exact ⟨hx, hy⟩⟩
        · rw [if_neg (fun hh => hp ((hother kv hkv he).mp hh))] at hcase
          obtain ⟨hx, hy⟩ := hcase
          rw [if_neg (by rw [hx]; exact fun e => hd.2 e.symm), if_neg (by rw [hx]; exact hd2.1)]
          exact (hinv x y).mpr ⟨kv, hkv, by rw [if_neg hp]; exact ⟨hx, hy⟩⟩
  · have h1e : decoded k0 = k0 := not_not.mp h1
    have hupd : ∀ m2 : Params,
        (∀ x y, mapGet m2 x = some y ↔
          (x = k0 ∧ y = decoded v) ∨ (x ≠ k0 ∧ mapGet m x = some y)) →
        RangeInv P (pending.erase k0) m2 := by
      intro m2 hm2 x y
      rw [hm2]
      constructor
      · rintro (⟨hx, hy⟩ | ⟨hx, h⟩)
        · refine ⟨(k0, v), hkv0, ?_⟩
          rw [if_neg hnot]
          exact ⟨by rw [hx, h1e], hy⟩
        · obtain ⟨kv, hkv, hcase⟩ := (hinv x y).mp h
          have hne : kv.1 ≠ k0 := by
            intro he
            rw [hsame kv hkv he] at hcase
            simp only [hk, if_true] at hcase
            exact hx hcase.1
          refine ⟨kv, hkv, ?_⟩
          by_cases hp : kv.1 ∈ pending
          · rw [if_pos hp] at hcase
            rw [if_pos ((hother kv hkv hne).mpr hp)]
            exact hcase
          · rw [if_neg hp] at hcase
            rw [if_neg (fun hh => hp ((hother kv hkv hne).mp hh))]
            exact hcase
      · rintro ⟨kv, hkv, hcase⟩
        by_cases he : kv.1 = k0
        · rw [hsame kv hkv he] at hcase
          rw [if_neg hnot] at hcase
          exact Or.inl ⟨by rw [hcase.1, h1e], hcase.2⟩
        · have hd := hP.distinct (k0, v) hkv0 kv hkv (fun e => he e.symm)
          have hd2 := hP.distinct kv hkv (k0, v) hkv0 he
          simp only at hd hd2
          refine Or.inr ?_
          by_cases hp : kv.1 ∈ pending
          · rw [if_pos ((hother kv hkv he).mpr hp)] at hcase
            obtain ⟨hx, hy⟩ := hcase
            exact ⟨by rw [hx]; exact he,
              (hinv x y).mpr ⟨kv, hkv, by rw [if_pos hp]; exact ⟨hx, hy⟩⟩⟩
          · rw [if_neg (fun hh => hp ((hother kv hkv he).mp hh))] at hcase
            obtain ⟨hx, hy⟩ := hcase
            exact ⟨by rw [hx]; exact hd2.1,
              (hinv x y).mpr ⟨kv, hkv, by rw [if_neg hp]; exact ⟨hx, hy⟩⟩⟩
    by_cases h2 : v ≠ decoded v
    · rw [hbody, if_neg h1, if_pos h2]
      refine ⟨_, _, hget, rfl, hupd _ ?_⟩
      intro x y
      rw [mapGet_mapSet]
      by_cases hx : x = k0
      · simp [hx, eq_comm]
      · simp [hx]
    · have h2e : v = decoded v := not_not.mp h2
      rw [hbody, if_neg h1, if_neg h2]
      refine ⟨_, _, hget, rfl, hupd _ ?_⟩
      intro x y
      by_cases hx : x = k0
      · subst hx
        rw [hget, ← h2e]
        simp [eq_comm]
      · simp [hx]

theorem rangeDrain_single_visit (P : Params) (hP : Rekeyable P) :
    ∀ (pending : List Bytes) (m : Params), pending.Nodup →
      (∀ x ∈ pending, x ∈ mapKeys P) → RangeInv P pending m →
      ∃ R, rangeDrain pending m = .ok R ∧ RangeInv P [] R := by
  intro pending
  induction pending with
  | nil =>
    intro m _ _ hinv
    exact ⟨m, rfl, hinv⟩
  | cons k rest ih =>
    intro m hnd hsub hinv
    obtain ⟨v, m2, c, hget, hbody, hinv2⟩ :=
      unescapeParam_step P hP (k :: rest) m k hnd hsub hinv (List.mem_cons_self _ _)
    rw [List.erase_cons_head] at hinv2
    obtain ⟨R, hR, hRinv⟩ := ih m2 (List.nodup_cons.mp hnd).2
      (fun x hx => hsub x (List.mem_cons_of_mem _ hx)) hinv2
    refine ⟨R, ?_, hRinv⟩
    unfold rangeDrain
    simp only [hget, hbody]
    exact hR

theorem rangeParams_single_visit_inv (P : Params) (hP : Rekeyable P) :
    ∀ (sched : Schedule), SingleVisit sched → ∀ (pending : List Bytes) (m : Params),
      pending.Nodup → (∀ x ∈ pending, x ∈ mapKeys P) → RangeInv P pending m →
      ∃ R, rangeParams sched pending m = .ok R ∧ RangeInv P [] R := by
  intro sched
  induction sched with
  | nil =>
    intro _ pending m hnd hsub hinv
    unfold rangeParams
    exact rangeDrain_single_visit P hP pending m hnd hsub hinv
  | cons c sched ih =>
    intro hs pending m hnd hsub hinv
    have hc : c.revisit = false := hs c (List.mem_cons_self _ _)
    have hs2 : SingleVisit sched := fun c2 h2 => hs c2 (List.mem_cons_of_mem _ h2)
    cases pending with
    | nil => exact ⟨m, rfl, hinv⟩
    | cons k0 rest =>
      have hmem : (k0 :: rest).getD (c.pick % (k0 :: rest).length) k0 ∈ k0 :: rest := by
        rw [List.getD_eq_getElem _ _ (Nat.mod_lt _ (by simp))]
        exact List.getElem_mem _
      obtain ⟨v, m2, cr, hget, hbody, hinv2⟩ :=
        unescapeParam_step P hP (k0 :: rest) m _ hnd hsub hinv hmem
      obtain ⟨R, hR, hRinv⟩ := ih hs2 _ m2 (hnd.erase _)
        (fun x hx => hsub x (List.mem_of_mem_erase hx)) hinv2
      refine ⟨R, ?_, hRinv⟩
      unfold rangeParams
      simp only [hget, hbody, hc, Bool.false_eq_true, if_false]
      cases cr <;> exact hR

/-- The parameter pass of `Parse` on a map that satisfies the hypotheses of
the re-keying claim, when the `range` loop produces every entry of the map once
and none of the entries it creates: it succeeds, and the resulting map holds
exactly the decoded names with the decoded values. -/
theorem rangeParams_single_visit (P : Params) (hP : Rekeyable P) (sched : Schedule)
    (hs : SingleVisit sched) :
    ∃ R, rangeParams sched (mapKeys P) P = .ok R ∧
      ∀ x y, mapGet R x = some y ↔ ∃ kv ∈ P, x = decoded kv.1 ∧ y = decoded kv.2 := by
  obtain ⟨R, hR, hinv⟩ := rangeParams_single_visit_inv P hP sched hs (mapKeys P) P hP.nodup
    (fun _ h => h) (rangeInv_init P hP.nodup)
  refine ⟨R, hR, ?_⟩
  intro x y
  rw [hinv x y]
  simp

/-- The parameters of the test `odd values` satisfy the hypotheses of
`rangeParams_single_visit`: under a schedule that starts with the escaped name
the pass returns `odd param2 = hello world` and no entry named `odd%20param2`. -/
theorem rangeParams_single_visit_odd_values :
    ∃ R, rangeParams [{ pick := 2, revisit := false }]
        (mapKeys [(ascii "charset", ascii "utf-8"), (ascii "oddparam1", ascii "a\"<@>\"z"),
          (ascii "odd%20param2", ascii "hello%20world")])
        [(ascii "charset", ascii "utf-8"), (ascii "oddparam1", ascii "a\"<@>\"z"),
          (ascii "odd%20param2", ascii "hello%20world")] = .ok R ∧
      mapGet R (ascii "odd param2") = some (ascii "hello world") ∧
      mapGet R (ascii "odd%20param2") = none := by
  have hP : Rekeyable [(ascii "charset", ascii "utf-8"),
      (ascii "oddparam1", ascii "a\"<@>\"z"),
      (ascii "odd%20param2", ascii "hello%20world")] :=
    { nodup := by decide
      keys_ok := by
        intro kv h
        exact ⟨decoded kv.1, by revert kv; decide⟩
      vals_ok := by
        intro kv h
        exact ⟨decoded kv.2, by revert kv; decide⟩
      distinct := by decide }
  obtain ⟨R, hR, hmap⟩ := rangeParams_single_visit _ hP
    [{ pick := 2, revisit := false }] (by unfold SingleVisit; decide)
  refine ⟨R, hR, ?_, ?_⟩
  · exact (hmap _ _).mpr ⟨(ascii "odd%20param2", ascii "hello%20world"), by decide, by decide⟩
  · cases hg : mapGet R (ascii "odd%20param2") with
    | none => rfl
    | some y =>
      obtain ⟨kv, hkv, hx, _⟩ := (hmap _ _).mp hg
      have hno : ∀ kv ∈ [(ascii "charset", ascii "utf-8"),
          (ascii "oddparam1", ascii "a\"<@>\"z"),
          (ascii "odd%20param2", ascii "hello%20world")],
          ascii "odd%20param2" ≠ decoded kv.1 := by decide
      exact absurd hx (hno kv hkv)

/-! ## The options of `Encode` -/

theorem applyOptions_foldl_noBase64 (options : List EncodeOption) (h : NoBase64Option options) :
    ∀ vars : EncodeVars, vars.explicitBase64 = false → vars.encodeBase64 = false →
      (options.foldl
        (fun vars option =>
          match option with
          | .WithMediaType v => { vars with mt := v }
          | .WithMediaTypeParams v => { vars with params := v }
          | .WithBase64Encoding v => { vars with explicitBase64 := true, encodeBase64 := v })
        vars).explicitBase64 = false ∧
      (options.foldl
        (fun vars option =>
          match option with
          | .WithMediaType v => { vars with mt := v }
          | .WithMediaTypeParams v => { vars with params := v }
          | .WithBase64Encoding v => { vars with explicitBase64 := true, encodeBase64 := v })
        vars).encodeBase64 = false := by
  induction options with
  | nil => intro vars h1 h2; exact ⟨h1, h2⟩
  | cons o rest ih =>
    intro vars h1 h2
    have hrest : NoBase64Option rest := fun o2 ho2 => h o2 (List.mem_cons_of_mem _ ho2)
    simp only [List.foldl_cons]
    cases o with
    | WithBase64Encoding v => exact absurd rfl (h _ (List.mem_cons_self _ _) v)
    | WithMediaType v => exact ih hrest _ h1 h2
    | WithMediaTypeParams v => exact ih hrest _ h1 h2

theorem applyOptions_noBase64 (options : List EncodeOption) (h : NoBase64Option options) :
    (applyOptions options).explicitBase64 = false ∧
      (applyOptions options).encodeBase64 = false :=
  applyOptions_foldl_noBase64 options h _ rfl rfl

theorem usesBase64_noBase64 (options : List EncodeOption) (h : NoBase64Option options)
    (mt : Bytes) : usesBase64 (applyOptions options) mt = !hasPrefix mt (ascii "text") := by
  obtain ⟨h1, h2⟩ := applyOptions_noBase64 options h
  unfold usesBase64
  rw [h1, h2]
  cases hasPrefix mt (ascii "text") <;> rfl

theorem payloadSection_false (d : Bytes) :
    payloadSection false d = [44] ++ writeEscapedSequence [] d := by
  rw [writeEscapedSequence_eq]
  rfl

theorem payloadSection_true (d : Bytes) :
    payloadSection true d = ascii ";base64" ++ [44] ++ b64encode d := by
  have : ascii ";base64" = base64Marker := rfl
  rw [this]
  simp [payloadSection]

/-! ## Claims on the policy of `Encode` -/

/-- C11: when no `WithBase64Encoding` option is given and `mt` is the media
type string `Encode` has resolved, `Encode` writes `data:`, `mt`, a comma and
the percent-escaped payload if `mt` begins with the bytes `text`; otherwise it
writes `data:`, `mt`, `;base64`, a comma and the payload in standard base64;
and its output has the first form if and only if `mt` begins with `text`. -/
theorem C11_automatic_base64_policy (ext : Mime) (d : Bytes) (options : List EncodeOption)
    (mt : Bytes) (hno : NoBase64Option options)
    (hres : resolveMediaType ext d (applyOptions options).mt (applyOptions options).params =
      .ok mt) :
    (ascii "text" <+: mt →
      Encode ext d options = .ok (ascii "data:" ++ mt ++ [44] ++ writeEscapedSequence [] d)) ∧
    (¬ ascii "text" <+: mt →
      Encode ext d options =
        .ok (ascii "data:" ++ mt ++ ascii ";base64" ++ [44] ++ b64encode d)) ∧
    (Encode ext d options = .ok (ascii "data:" ++ mt ++ [44] ++ writeEscapedSequence [] d) ↔
      ascii "text" <+: mt) := by
  have henc := Encode_of_resolve ext d options mt hres
  rw [usesBase64_noBase64 options hno] at henc
  have hs : ascii "data:" = scheme := rfl
  have h1 : ascii "text" <+: mt →
      Encode ext d options =
        .ok (ascii "data:" ++ mt ++ [44] ++ writeEscapedSequence [] d) := by
    intro hp
    rw [henc, (hasPrefix_iff _ _).mpr hp, hs]
    simp [payloadSection_false]
  have h2 : ¬ ascii "text" <+: mt →
      Encode ext d options =
        .ok (ascii "data:" ++ mt ++ ascii ";base64" ++ [44] ++ b64encode d) := by
    intro hp
    have hf : hasPrefix mt (ascii "text") = false := by
      cases hh : hasPrefix mt (ascii "text") with
      | false => rfl
      | true => exact absurd ((hasPrefix_iff _ _).mp hh) hp
    rw [henc, hf, hs]
    simp [payloadSection_true]
  refine ⟨h1, h2, ⟨?_, h1⟩⟩
  intro he
  by_contra hp
  rw [h2 hp] at he
  have he2 := Except.ok.inj he
  have hm : ascii ";base64" = 59 :: base64Marker.tail := by decide
  rw [hm] at he2
  simp only [List.append_assoc, List.append_cancel_left_eq, List.cons_append,
    List.nil_append, List.cons.injEq] at he2
  exact absurd he2.1 (by decide)

/-- C11, witness: without options the payload `hello, world!` is sniffed as
text and written percent-escaped. -/
theorem C11_automatic_base64_policy_witness :
    NoBase64Option [] ∧
      resolveMediaType stdlib (ascii "hello, world!") (applyOptions []).mt
        (applyOptions []).params = .ok (ascii "text/plain;charset=utf-8") ∧
      Encode stdlib (ascii "hello, world!") [] =
        .ok (ascii "data:text/plain;charset=utf-8,hello%2C%20world!") := by
  have h := C11_automatic_base64_policy stdlib (ascii "hello, world!") []
    (ascii "text/plain;charset=utf-8") (fun _ ho => absurd ho (List.not_mem_nil _))
    (by decide)
  refine ⟨fun _ ho => absurd ho (List.not_mem_nil _), by decide, ?_⟩
  rw [h.1 (by decide)]
  decide

theorem resolveMediaType_no_params (ext : Mime) (d m : Bytes) (hm : m ≠ []) :
    resolveMediaType ext d m [] = .ok (replaceSemicolonSpace m) := by
  unfold resolveMediaType
  simp [hm]

theorem dropSpacesAfterSemicolon_eq (rest : Bytes) :
    (∀ c : Byte, c :: dropSpacesAfterSemicolon (some c) rest =
        replaceSemicolonSpace (c :: rest)) ∧
      (∀ prev : Option Byte, prev ≠ some 59 →
        dropSpacesAfterSemicolon prev rest = replaceSemicolonSpace rest) := by
  induction rest with
  | nil =>
    refine ⟨fun c => ?_, fun prev _ => ?_⟩
    · simp [dropSpacesAfterSemicolon, replaceSemicolonSpace]
    · simp [dropSpacesAfterSemicolon, replaceSemicolonSpace]
  | cons e rest2 ih =>
    obtain ⟨ih1, ih2⟩ := ih
    refine ⟨fun c => ?_, fun prev hprev => ?_⟩
    · unfold replaceSemicolonSpace
      by_cases hce : c = 59 ∧ e = 32
      · rw [if_pos hce]
        obtain ⟨rfl, rfl⟩ := hce
        have h := ih2 (some 32) (by decide)
        simp [dropSpacesAfterSemicolon, h]
      · rw [if_neg hce, ← ih1 e]
        have hce2 : ¬ (some c = some 59 ∧ e = 32) := by
          rintro ⟨h1, h2⟩
          exact hce ⟨Option.some.inj h1, h2⟩
        simp only [dropSpacesAfterSemicolon, if_neg hce2]
    · have hp : ¬ (prev = some 59 ∧ e = 32) := fun h => hprev h.1
      simp only [dropSpacesAfterSemicolon, if_neg hp]
      exact ih1 e

/-- C12: for every payload `d`, every non-empty media type string `m` given
without extra parameters and every boolean `b`,
`Encode(d, WithMediaType(m), WithBase64Encoding(b))` succeeds and equals `data:`,
then `m` with every `"; "` replaced by `";"`, then `;base64` if `b`, then a
comma, then the standard base64 of `d` if `b` and the percent-escaped form of
`d` otherwise, whether or not `m` begins with `text`; and the replacement
removes exactly the spaces that directly follow a semicolon. -/
theorem C12_explicit_encoding_choice (ext : Mime) (d m : Bytes) (b : Bool) (hm : m ≠ []) :
    Encode ext d [.WithMediaType m, .WithBase64Encoding b] =
        .ok (ascii "data:" ++ replaceSemicolonSpace m ++ (if b then ascii ";base64" else []) ++
          [44] ++ (if b then b64encode d else writeEscapedSequence [] d)) ∧
      replaceSemicolonSpace m = dropSpacesAfterSemicolon none m := by
  refine ⟨?_, ((dropSpacesAfterSemicolon_eq m).2 none (by decide)).symm⟩
  have hres : resolveMediaType ext d
      (applyOptions [.WithMediaType m, .WithBase64Encoding b]).mt
      (applyOptions [.WithMediaType m, .WithBase64Encoding b]).params =
      .ok (replaceSemicolonSpace m) := resolveMediaType_no_params ext d m hm
  rw [Encode_of_resolve ext d _ _ hres]
  have hu : usesBase64 (applyOptions [.WithMediaType m, .WithBase64Encoding b])
      (replaceSemicolonSpace m) = b := rfl
  have hs : ascii "data:" = scheme := rfl
  rw [hu, hs]
  cases b with
  | false => simp [payloadSection_false]
  | true => simp [payloadSection_true]

/-- C12, witness: a text type forced to base64 and a non-text type forced to
literal encoding. -/
theorem C12_explicit_encoding_choice_witness :
    (ascii "text/plain; charset=utf-8" ≠ [] ∧
      Encode stdlib (ascii "hi!?") [.WithMediaType (ascii "text/plain; charset=utf-8"),
        .WithBase64Encoding true] =
        .ok (ascii "data:text/plain;charset=utf-8;base64,aGkhPw==")) ∧
    (ascii "application/json" ≠ [] ∧
      Encode stdlib (ascii "hi!?") [.WithMediaType (ascii "application/json"),
        .WithBase64Encoding false] = .ok (ascii "data:application/json,hi!%3F")) := by
  refine ⟨⟨by decide, ?_⟩, ⟨by decide, ?_⟩⟩
  · rw [(C12_explicit_encoding_choice stdlib (ascii "hi!?")
      (ascii "text/plain; charset=utf-8") true (by decide)).1]
    decide
  · rw [(C12_explicit_encoding_choice stdlib (ascii "hi!?")
      (ascii "application/json") false (by decide)).1]
    decide

theorem indexByteFrom_nonneg_of_mem (c : Byte) (s : Bytes) (h : c ∈ s) :
    ∀ n : Nat, indexByteFrom c n s > -1 := by
  induction s with
  | nil => exact absurd h (List.not_mem_nil _)
  | cons a t ih =>
    intro n
    unfold indexByteFrom
    by_cases ha : a = c
    · rw [if_pos ha]
      omega
    · rw [if_neg ha]
      rcases List.mem_cons.mp h with h2 | h2
      · exact absurd h2.symm ha
      · exact ih h2 (n + 1)

theorem indexByte_gt_iff_mem (s : Bytes) (c : Byte) : indexByte s c > -1 ↔ c ∈ s := by
  constructor
  · intro h
    by_contra hm
    rw [indexByte_not_mem s c hm] at h
    exact absurd h (by decide)
  · intro h
    exact indexByteFrom_nonneg_of_mem c s h 0

theorem resolveMediaType_eq (ext : Mime) (d : Bytes) (options : List EncodeOption) :
    resolveMediaType ext d (applyOptions options).mt (applyOptions options).params =
      if (59 : Byte) ∈ mediaTypeInUse ext d options ∧ (applyOptions options).params ≠ [] then
        match ext.ParseMediaType (mediaTypeInUse ext d options) with
        | none => .error .parseMediaType
        | some (parsedMt, parsedParams) =>
          .ok (replaceSemicolonSpace (ext.FormatMediaType parsedMt
            (mergeParams parsedParams (applyOptions options).params)))
      else if (applyOptions options).params ≠ [] then
        .ok (replaceSemicolonSpace (ext.FormatMediaType (mediaTypeInUse ext d options)
          (applyOptions options).params))
      else .ok (replaceSemicolonSpace (mediaTypeInUse ext d options)) := by
  have hlen : (applyOptions options).params.length ≠ 0 ↔ (applyOptions options).params ≠ [] :=
    not_congr List.length_eq_zero
  unfold resolveMediaType
  simp only []
  have hmt : (if (applyOptions options).mt = [] then ext.DetectContentType d
      else (applyOptions options).mt) = mediaTypeInUse ext d options := rfl
  rw [hmt]
  by_cases h59 : (59 : Byte) ∈ mediaTypeInUse ext d options
  · rw [if_pos ((indexByte_gt_iff_mem _ _).mpr h59)]
    by_cases hp : (applyOptions options).params ≠ []
    · rw [if_pos (hlen.mpr hp), if_pos ⟨h59, hp⟩]
      cases ext.ParseMediaType (mediaTypeInUse ext d options) with
      | none => rfl
      | some tp => rfl
    · have h1 : ¬ (applyOptions options).params.length ≠ 0 := fun h => hp (hlen.mp h)
      have h2 : ¬ ((59 : Byte) ∈ mediaTypeInUse ext d options ∧
          (applyOptions options).params ≠ []) := fun h => hp h.2
      rw [if_neg h1, if_neg h2, if_neg hp]
  · have h0 : ¬ indexByte (mediaTypeInUse ext d options) 59 > -1 :=
      fun h => h59 ((indexByte_gt_iff_mem _ _).mp h)
    have h2 : ¬ ((59 : Byte) ∈ mediaTypeInUse ext d options ∧
        (applyOptions options).params ≠ []) := fun h => h59 h.1
    rw [if_neg h0, if_neg h2]
    by_cases hp : (applyOptions options).params ≠ []
    · rw [if_pos (hlen.mpr hp), if_pos hp]
    · have h1 : ¬ (applyOptions options).params.length ≠ 0 := fun h => hp (hlen.mp h)
      rw [if_neg h1, if_neg hp]

theorem Encode_error_iff (ext : Mime) (d : Bytes) (options : List EncodeOption) :
    (∃ e, Encode ext d options = .error e) ↔
      ∃ e, resolveMediaType ext d (applyOptions options).mt (applyOptions options).params =
        .error e := by
  cases hres : resolveMediaType ext d (applyOptions options).mt (applyOptions options).params with
  | ok s =>
    rw [Encode_of_resolve ext d options s hres]
    simp
  | error e =>
    have : Encode ext d options = .error e := by
      unfold Encode
      simp only []
      rw [hres]
    rw [this]

/-- C13: `Encode` returns an error if and only if the media type string in use
(explicit, or sniffed when none is given) contains `;`, a non-empty parameter
map was supplied, and the media-type grammar parser rejects that string; and
when no or an empty parameter map is supplied, `Encode` succeeds, for every
payload and every media type string. -/
theorem C13_encode_error_iff (ext : Mime) (d : Bytes) (options : List EncodeOption) :
    ((∃ e, Encode ext d options = .error e) ↔
        ((59 : Byte) ∈ mediaTypeInUse ext d options ∧ (applyOptions options).params ≠ [] ∧
          ext.ParseMediaType (mediaTypeInUse ext d options) = none)) ∧
      ((applyOptions options).params = [] → ∃ u, Encode ext d options = .ok u) := by
  have hiff : (∃ e, Encode ext d options = .error e) ↔
      ((59 : Byte) ∈ mediaTypeInUse ext d options ∧ (applyOptions options).params ≠ [] ∧
        ext.ParseMediaType (mediaTypeInUse ext d options) = none) := by
    rw [Encode_error_iff, resolveMediaType_eq]
    by_cases h : (59 : Byte) ∈ mediaTypeInUse ext d options ∧ (applyOptions options).params ≠ []
    · rw [if_pos h]
      cases hp : ext.ParseMediaType (mediaTypeInUse ext d options) with
      | none => exact ⟨fun _ => ⟨h.1, h.2, rfl⟩, fun _ => ⟨_, rfl⟩⟩
      | some tp => simp
    · rw [if_neg h]
      have h2 : ¬ ((59 : Byte) ∈ mediaTypeInUse ext d options ∧
          (applyOptions options).params ≠ [] ∧
          ext.ParseMediaType (mediaTypeInUse ext d options) = none) :=
        fun hh => h ⟨hh.1, hh.2.1⟩
      simp only [h2, iff_false]
      rintro ⟨e, he⟩
      split at he <;> exact Except.noConfusion he
  refine ⟨hiff, fun hp => ?_⟩
  cases hE : Encode ext d options with
  | ok u => exact ⟨u, rfl⟩
  | error e => exact absurd hp (hiff.mp ⟨e, hE⟩).2.1

/-- C13, instances: a media type with `;` that the grammar parser rejects makes
`Encode` fail when parameters are supplied, and is written as it stands when
none are. -/
theorem C13_encode_error_iff_witness :
    (applyOptions [.WithMediaType (ascii "text/plain;=")]).params = [] ∧
      Encode stdlib (ascii "x") [.WithMediaType (ascii "text/plain;=")] =
        .ok (ascii "data:text/plain;=,x") ∧
      Encode stdlib (ascii "x") [.WithMediaType (ascii "text/plain;="),
        .WithMediaTypeParams [(ascii "a", ascii "b")]] = .error .parseMediaType ∧
      ∃ u, Encode stdlib (ascii "x") [.WithMediaType (ascii "text/plain;=")] = .ok u :=
  ⟨by decide, by decide, by decide,
    (C13_encode_error_iff stdlib (ascii "x") [.WithMediaType (ascii "text/plain;=")]).2
      (by decide)⟩

/-! ## The merge of the extra parameters in `Encode` -/

theorem mapGet_mergeParams (Q : Params) (hQ : (mapKeys Q).Nodup) :
    ∀ (P : Params) (k : Bytes),
      mapGet (mergeParams P Q) k =
        match mapGet Q k with
        | some v => some v
        | none => mapGet P k := by
  induction Q with
  | nil => intro P k; rfl
  | cons e rest ih =>
    obtain ⟨k1, v1⟩ := e
    intro P k
    have hnd : (mapKeys rest).Nodup := by
      unfold mapKeys at hQ ⊢
      exact (List.nodup_cons.mp hQ).2
    have hk1 : k1 ∉ mapKeys rest := by
      unfold mapKeys at hQ ⊢
      exact (List.nodup_cons.mp hQ).1
    have hstep : mergeParams P ((k1, v1) :: rest) = mergeParams (mapSet P k1 v1) rest := rfl
    rw [hstep, ih hnd, mapGet_mapSet]
    by_cases hk : k1 = k
    · subst hk
      simp [mapGet, mapGet_none_of_not_mem_keys rest k1 hk1]
    · have hk2 : ¬ k = k1 := fun e => hk e.symm
      simp [mapGet, hk, hk2]

theorem mapGet_perm (Q Q2 : Params) (hQ : (mapKeys Q).Nodup) (hperm : Q2.Perm Q)
    (k : Bytes) : mapGet Q2 k = mapGet Q k := by
  have hQ2 : (mapKeys Q2).Nodup := by
    unfold mapKeys at hQ ⊢
    exact (hperm.map Prod.fst).nodup_iff.mpr hQ
  apply Option.ext
  intro v
  simp only [Option.mem_def]
  rw [mapGet_eq_some_iff Q2 hQ2, mapGet_eq_some_iff Q hQ]
  exact hperm.mem_iff

/-- C14: for every explicit media type string `m` containing `;` that the
grammar parser accepts as `(t, P)` and every non-empty parameter map `Q` given
with it, the media type `Encode` writes after `data:` is the formatter's
output for `t` and the merged map, with every `"; "` collapsed to `";"`; the
merged map sends each key of `Q` to the value `Q` gives it and every other key
to the value `P` gives it, so on a collision the caller's value is emitted;
and the merged map does not depend on the order in which the entries of `Q`
are visited. -/
theorem C14_merge_precedence (ext : Mime) (d : Bytes) (options : List EncodeOption)
    (m t : Bytes) (P Q : Params) (hmt : (applyOptions options).mt = m)
    (hparams : (applyOptions options).params = Q) (hsemi : (59 : Byte) ∈ m)
    (hparse : ext.ParseMediaType m = some (t, P)) (hQ : Q ≠ [])
    (hnodup : (mapKeys Q).Nodup) :
    Encode ext d options =
        .ok (ascii "data:" ++
          (replaceSemicolonSpace (ext.FormatMediaType t (mergeParams P Q)) ++
            payloadSection (usesBase64 (applyOptions options)
              (replaceSemicolonSpace (ext.FormatMediaType t (mergeParams P Q)))) d)) ∧
      (∀ k, mapGet (mergeParams P Q) k =
        match mapGet Q k with
        | some v => some v
        | none => mapGet P k) ∧
      (∀ Q2 : Params, Q2.Perm Q → MapEq (mergeParams P Q2) (mergeParams P Q)) := by
  have hm : m ≠ [] := fun h => by rw [h] at hsemi; exact absurd hsemi (List.not_mem_nil _)
  have huse : mediaTypeInUse ext d options = m := by
    unfold mediaTypeInUse
    rw [hmt, if_neg hm]
  have hres : resolveMediaType ext d (applyOptions options).mt (applyOptions options).params =
      .ok (replaceSemicolonSpace (ext.FormatMediaType t (mergeParams P Q))) := by
    rw [resolveMediaType_eq, huse, hparams, if_pos ⟨hsemi, hQ⟩, hparse]
  refine ⟨Encode_of_resolve ext d options _ hres, mapGet_mergeParams Q hnodup P, ?_⟩
  intro Q2 hperm k
  have hQ2 : (mapKeys Q2).Nodup := by
    unfold mapKeys at hnodup ⊢
    exact (hperm.map Prod.fst).nodup_iff.mpr hnodup
  rw [mapGet_mergeParams Q2 hQ2, mapGet_mergeParams Q hnodup, mapGet_perm Q Q2 hnodup hperm]

/-- C14, witness: the test vector of `TestEncode`, the media type
`application/json; charset=US-ASCII` given with the parameter `charset=utf-8`. -/
theorem C14_merge_precedence_witness :
    Encode stdlib (ascii "\x7b\"hello\":\"world\"\x7d")
        [.WithMediaType (ascii "application/json; charset=US-ASCII"),
          .WithMediaTypeParams [(ascii "charset", ascii "utf-8")]] =
        .ok (ascii "data:application/json;charset=utf-8;base64,eyJoZWxsbyI6IndvcmxkIn0=") ∧
      mapGet (mergeParams [(ascii "charset", ascii "US-ASCII")]
        [(ascii "charset", ascii "utf-8")]) (ascii "charset") = some (ascii "utf-8") := by
  have h := C14_merge_precedence stdlib (ascii "\x7b\"hello\":\"world\"\x7d")
    [.WithMediaType (ascii "application/json; charset=US-ASCII"),
      .WithMediaTypeParams [(ascii "charset", ascii "utf-8")]]
    (ascii "application/json; charset=US-ASCII") (ascii "application/json")
    [(ascii "charset", ascii "US-ASCII")] [(ascii "charset", ascii "utf-8")]
    (by decide) (by decide) (by decide) (by decide) (by decide) (by decide)
  refine ⟨?_, ?_⟩
  · rw [h.1]
    decide
  · rw [h.2.1]
    decide

/-! ## What a successful `Parse` went through -/

theorem Parse_ok_inv (ext : Mime) (sched : Schedule) (data : Bytes) (u : URL)
    (h : Parse ext sched data = .ok u) :
    ∃ rest, data = scheme ++ rest ∧
      (u.MediaType = defaultMediaType ∨
        ∃ i typ P P2, ext.ParseMediaType (rest.take i) = some (typ, P) ∧
          rangeParams sched (mapKeys P) P = .ok P2 ∧
          u.MediaType = { Typ := typ, Params := P2 }) := by
  by_cases hp : scheme <+: data
  · obtain ⟨rest, rfl⟩ := hp
    refine ⟨rest, rfl, ?_⟩
    rw [Parse_scheme] at h
    split at h
    · exact Except.noConfusion h
    split at h
    · exact Or.inl (parseData_mediaType h)
    split at h
    · exact Or.inl (parseBase64Marker_mediaType h)
    generalize (if bytesIndex rest base64Marker > 0 then bytesIndex rest base64Marker
      else indexByte rest 44) = i at h
    split at h
    · exact Except.noConfusion h
    split at h
    · exact Except.noConfusion h
    · rename_i typ params hparse
      split at h
      · exact Except.noConfusion h
      · rename_i params2 hrange
        refine Or.inr ⟨_, typ, params, params2, hparse, hrange, ?_⟩
        split at h
        · exact parseBase64Marker_mediaType h
        · exact parseData_mediaType h
  · rw [Parse_no_scheme ext sched data hp] at h
    exact Except.noConfusion h

/-! ## The shape of the types the reference parser returns -/

set_option maxRecDepth 100000 in
theorem isTokenChar_ne_slash : ∀ c : Byte, isTokenChar c = true → c ≠ 47 := by decide

theorem count_slash_of_all_token (s : Bytes) (h : ∀ c ∈ s, isTokenChar c = true) :
    s.count 47 = 0 := by
  rw [List.count_eq_zero]
  intro hm
  exact isTokenChar_ne_slash 47 (h 47 hm) rfl

theorem all_token_of_dropWhile_nil (s : Bytes) (h : s.dropWhile isTokenChar = []) :
    ∀ c ∈ s, isTokenChar c = true := by
  induction s with
  | nil => intro c hc; exact absurd hc (List.not_mem_nil _)
  | cons a t ih =>
    by_cases ha : isTokenChar a = true
    · rw [List.dropWhile_cons_of_pos ha] at h
      intro c hc
      rcases List.mem_cons.mp hc with rfl | hc
      · exact ha
      · exact ih h c hc
    · rw [List.dropWhile_cons_of_neg ha] at h
      exact List.noConfusion h

theorem checkMediaTypeDisposition_shape (s : Bytes) (h : checkMediaTypeDisposition s = true) :
    s ≠ [] ∧ s.count 47 ≤ 1 := by
  unfold checkMediaTypeDisposition consumeToken at h
  simp only [] at h
  have hs : s = s.takeWhile isTokenChar ++ s.dropWhile isTokenChar :=
    (List.takeWhile_append_dropWhile isTokenChar s).symm
  have htake : ∀ c ∈ s.takeWhile isTokenChar, isTokenChar c = true :=
    fun c hc => List.mem_takeWhile_imp hc
  split at h
  · exact Bool.noConfusion h
  · rename_i hne
    refine ⟨fun he => hne (by rw [he]; rfl), ?_⟩
    split at h
    · rename_i hrest
      rw [hs, hrest, List.append_nil, count_slash_of_all_token _ htake]
      exact Nat.zero_le _
    · rename_i c rest hrest
      split at h
      · exact Bool.noConfusion h
      · rename_i hc
        have hc47 : c = 47 := not_not.mp hc
        split at h
        · exact Bool.noConfusion h
        · have hnil : rest.dropWhile isTokenChar = [] := of_decide_eq_true h
          rw [hs, hrest, hc47, List.count_append, count_slash_of_all_token _ htake,
            List.count_cons_self, count_slash_of_all_token _ (all_token_of_dropWhile_nil rest hnil)]

theorem goParseMediaType_shape (v typ : Bytes) (P : Params)
    (h : goParseMediaType v = some (typ, P)) : typ ≠ [] ∧ typ.count 47 ≤ 1 := by
  unfold goParseMediaType at h
  simp only [] at h
  split at h
  · exact Option.noConfusion h
  · rename_i hcheck
    split at h
    · exact Option.noConfusion h
    · simp only [Option.some.injEq, Prod.mk.injEq] at h
      rw [← h.1]
      apply checkMediaTypeDisposition_shape
      simpa using hcheck

/-! ## The type tokens the reference parser rejects -/

theorem takeWhile_dropWhile_append_stop {α : Type} (p : α → Bool) (a : List α) (x : α)
    (r : List α) (ha : ∀ c ∈ a, p c = true) (hx : p x = false) :
    (a ++ x :: r).takeWhile p = a ∧ (a ++ x :: r).dropWhile p = x :: r := by
  induction a with
  | nil => simp [List.takeWhile, List.dropWhile, hx]
  | cons c a2 ih =>
    have hc : p c = true := ha c (List.mem_cons_self _ _)
    have ih2 := ih (fun y hy => ha y (List.mem_cons_of_mem _ hy))
    simp [List.takeWhile, List.dropWhile, hc, ih2.1, ih2.2]

theorem isToken_of_all {s : Bytes} (hne : s ≠ []) (h : ∀ c ∈ s, isTokenChar c = true) :
    isToken s = true := by
  unfold isToken
  simp only [Bool.and_eq_true, decide_eq_true_eq, List.all_eq_true]
  exact ⟨hne, h⟩

theorem checkMediaTypeDisposition_form (s : Bytes) (h : checkMediaTypeDisposition s = true) :
    isToken s = true ∨ isPrimarySubtype s = true := by
  unfold checkMediaTypeDisposition consumeToken at h
  simp only [] at h
  have hs : s = s.takeWhile isTokenChar ++ s.dropWhile isTokenChar :=
    (List.takeWhile_append_dropWhile isTokenChar s).symm
  have htake : ∀ c ∈ s.takeWhile isTokenChar, isTokenChar c = true :=
    fun c hc => List.mem_takeWhile_imp hc
  split at h
  · exact Bool.noConfusion h
  · rename_i hne
    split at h
    · rename_i hrest
      left
      rw [hrest, List.append_nil] at hs
      rw [hs]
      exact isToken_of_all hne htake
    · rename_i c rest hrest
      split at h
      · exact Bool.noConfusion h
      · rename_i hc
        have hc47 : c = 47 := not_not.mp hc
        split at h
        · exact Bool.noConfusion h
        · rename_i hsub
          have hnil : rest.dropWhile isTokenChar = [] := of_decide_eq_true h
          have hall := all_token_of_dropWhile_nil rest hnil
          have hrne : rest ≠ [] := by
            intro e
            rw [e] at hsub
            exact hsub rfl
          right
          have hstop := takeWhile_dropWhile_append_stop (fun c : Byte => decide (c ≠ 47))
            (s.takeWhile isTokenChar) 47 rest
            (fun y hy => decide_eq_true (isTokenChar_ne_slash y (htake y hy))) (by decide)
          rw [hrest, hc47] at hs
          unfold isPrimarySubtype
          rw [hs, hstop.1, hstop.2]
          simp only [List.head?_cons, decide_True, Bool.and_true, List.drop_succ_cons,
            List.drop_zero, Bool.and_eq_true]
          exact ⟨isToken_of_all hne htake, isToken_of_all hrne hall⟩

theorem goParseMediaType_rejects (v : Bytes) (h1 : isToken (mediaTypeToken v) = false)
    (h2 : isPrimarySubtype (mediaTypeToken v) = false) : goParseMediaType v = none := by
  have hcheck : checkMediaTypeDisposition (mediaTypeToken v) = false := by
    cases hc : checkMediaTypeDisposition (mediaTypeToken v) with
    | false => rfl
    | true =>
      rcases checkMediaTypeDisposition_form _ hc with h | h
      · rw [h] at h1
        exact Bool.noConfusion h1
      · rw [h] at h2
        exact Bool.noConfusion h2
  unfold goParseMediaType
  unfold mediaTypeToken at hcheck
  simp only [hcheck, Bool.not_false, if_true]

/-! ## The header on its way to the grammar parser -/

theorem Parse_of_headerOf (ext : Mime) (sched : Schedule) (data h : Bytes)
    (hh : headerOf data = some h) (hp : ext.ParseMediaType h = none) :
    Parse ext sched data = .error (.mediaType h) := by
  unfold headerOf at hh
  unfold Parse
  simp only [] at hh ⊢
  split at hh
  · exact Option.noConfusion hh
  · rename_i c1
    rw [if_neg c1]
    split at hh
    · exact Option.noConfusion hh
    · rename_i c2
      rw [if_neg c2]
      split at hh
      · exact Option.noConfusion hh
      · rename_i c3
        rw [if_neg c3]
        split at hh
        · exact Option.noConfusion hh
        · rename_i c4
          rw [if_neg c4]
          generalize (if bytesIndex (data.drop scheme.length) base64Marker > 0 then
            bytesIndex (data.drop scheme.length) base64Marker
            else indexByte (data.drop scheme.length) 44) = i at hh ⊢
          split at hh
          · exact Option.noConfusion hh
          · rename_i c5
            rw [if_neg c5, Option.some.inj hh, hp]

/-! ## Claim on the type of the result -/

/-- C15 (amended): when the media-type grammar parser returns only types that
are non-empty and contain at most one `/`, and rejects every media type string
whose type token is neither a token nor of the form primary/subtype (as
`mime.ParseMediaType` does), then for every input on which `Parse` succeeds
the returned `MediaType.Type` is non-empty and contains at most one `/`, and
every input whose media type has a type token that is neither a token nor of
the form primary/subtype is rejected with the error
`failed to parse media type`. -/
theorem C15_type_shape (ext : Mime)
    (hext : ∀ v typ P, ext.ParseMediaType v = some (typ, P) → typ ≠ [] ∧ typ.count 47 ≤ 1)
    (hrej : ∀ v, isToken (mediaTypeToken v) = false →
      isPrimarySubtype (mediaTypeToken v) = false → ext.ParseMediaType v = none)
    (sched : Schedule) (data : Bytes) :
    (∀ u, Parse ext sched data = .ok u →
        u.MediaType.Typ ≠ [] ∧ u.MediaType.Typ.count 47 ≤ 1) ∧
      (∀ h, headerOf data = some h → isToken (mediaTypeToken h) = false →
        isPrimarySubtype (mediaTypeToken h) = false →
        Parse ext sched data = .error (.mediaType h)) := by
  constructor
  · intro u h
    obtain ⟨rest, _, hmt | ⟨i, typ, P, P2, hparse, _, hmt⟩⟩ := Parse_ok_inv ext sched data u h
    · rw [hmt]
      decide
    · rw [hmt]
      exact hext _ typ P hparse
  · intro h hh h1 h2
    exact Parse_of_headerOf ext sched data h hh (hrej h h1 h2)

/-- C15, witness: the example of the package, whose type `application/json` has
one `/`, and the input `data:a/b/c,x`, whose type token `a/b/c` is neither a
token nor of the form primary/subtype and which is rejected. -/
theorem C15_type_shape_witness :
    (Parse stdlib [] (ascii "data:application/json;charset=utf-8;base64,eyJIZWxsbyI6IldvcmxkISJ9") =
        .ok { MediaType := { Typ := ascii "application/json",
                             Params := [(ascii "charset", ascii "utf-8")] },
              Data := ascii "\x7b\"Hello\":\"World!\"\x7d" } ∧
      ascii "application/json" ≠ [] ∧ (ascii "application/json").count 47 ≤ 1) ∧
    (headerOf (ascii "data:a/b/c,x") = some (ascii "a/b/c") ∧
      mediaTypeToken (ascii "a/b/c") = ascii "a/b/c" ∧
      isToken (ascii "a/b/c") = false ∧ isPrimarySubtype (ascii "a/b/c") = false ∧
      Parse stdlib [] (ascii "data:a/b/c,x") = .error (.mediaType (ascii "a/b/c"))) :=
  ⟨⟨by decide,
    (C15_type_shape stdlib goParseMediaType_shape goParseMediaType_rejects []
      (ascii "data:application/json;charset=utf-8;base64,eyJIZWxsbyI6IldvcmxkISJ9")).1
      { MediaType := { Typ := ascii "application/json",
                       Params := [(ascii "charset", ascii "utf-8")] },
        Data := ascii "\x7b\"Hello\":\"World!\"\x7d" } (by decide)⟩,
    by decide, by decide, by decide, by decide,
    (C15_type_shape stdlib goParseMediaType_shape goParseMediaType_rejects []
      (ascii "data:a/b/c,x")).2 (ascii "a/b/c") (by decide) (by decide) (by decide)⟩

/-- C15, counterexample: the media type `foo` is not of the form
primary/subtype, and `data:foo,x` is accepted, with the type `foo`, which
contains no `/`. -/
theorem C15_counterexample :
    isPrimarySubtype (ascii "foo") = false ∧
      Parse stdlib [] (ascii "data:foo,x") =
        .ok { MediaType := { Typ := ascii "foo", Params := [] }, Data := ascii "x" } ∧
      (ascii "foo").count 47 = 0 := by
  decide

/-! ## The names in the map after the parameter pass -/

theorem mapKeys_mapSet (m : Params) (k v x : Bytes) (h : x ∈ mapKeys (mapSet m k v)) :
    x = k ∨ x ∈ mapKeys m := by
  induction m with
  | nil =>
    simp only [mapSet, mapKeys, List.map_cons, List.map_nil, List.mem_singleton] at h
    exact Or.inl h
  | cons e rest ih =>
    obtain ⟨k2, v2⟩ := e
    unfold mapSet at h
    split at h
    · rename_i hk
      simp only [mapKeys, List.map_cons, List.mem_cons] at h ⊢
      rcases h with h | h
      · exact Or.inl h
      · exact Or.inr (Or.inr h)
    · simp only [mapKeys, List.map_cons, List.mem_cons] at h ⊢
      rcases h with h | h
      · exact Or.inr (Or.inl h)
      · rcases ih h with h2 | h2
        · exact Or.inl h2
        · exact Or.inr (Or.inr h2)

theorem mapKeys_mapDelete (m : Params) (k x : Bytes) (h : x ∈ mapKeys (mapDelete m k)) :
    x ∈ mapKeys m := by
  unfold mapKeys mapDelete at *
  obtain ⟨e, he, rfl⟩ := List.mem_map.mp h
  exact List.mem_map.mpr ⟨e, List.mem_of_mem_filter he, rfl⟩

theorem mem_mapKeys_of_mapGet {m : Params} {k v : Bytes} (h : mapGet m k = some v) :
    k ∈ mapKeys m :=
  List.mem_map.mpr ⟨(k, v), mapGet_mem h, rfl⟩

theorem unescapeParam_keys (m : Params) (k v : Bytes) (m2 : Params) (c : Option Bytes)
    (h : unescapeParam m k v = .ok (m2, c)) :
    ∀ x ∈ mapKeys m2, x ∈ mapKeys m ∨ x = decoded k := by
  unfold unescapeParam at h
  split at h
  · exact Except.noConfusion h
  · rename_i uk huk
    have hdec : decoded k = uk := by
      unfold decoded
      rw [huk]
    split at h
    · exact Except.noConfusion h
    · rename_i uv huv
      split at h
      · simp only [Except.ok.injEq, Prod.mk.injEq] at h
        intro x hx
        rw [← h.1] at hx
        rcases mapKeys_mapSet _ _ _ _ hx with hx2 | hx2
        · exact Or.inr (by rw [hdec]; exact hx2)
        · exact Or.inl (mapKeys_mapDelete _ _ _ hx2)
      · rename_i hkk
        have hk : uk = k := not_not.mp hkk
        split at h
        · simp only [Except.ok.injEq, Prod.mk.injEq] at h
          intro x hx
          rw [← h.1] at hx
          rcases mapKeys_mapSet _ _ _ _ hx with hx2 | hx2
          · exact Or.inr (by rw [hdec, hk]; exact hx2)
          · exact Or.inl hx2
        · simp only [Except.ok.injEq, Prod.mk.injEq] at h
          intro x hx
          rw [← h.1] at hx
          exact Or.inl hx

/-- Every name in the map stems from a name of `P` by decoding it a number of
times. -/
theorem keysFrom_step (P m : Params) (k v : Bytes) (m2 : Params) (c : Option Bytes)
    (hinv : ∀ x ∈ mapKeys m, ∃ k0 ∈ mapKeys P, ∃ n : Nat, x = decoded^[n] k0)
    (hget : mapGet m k = some v) (h : unescapeParam m k v = .ok (m2, c)) :
    ∀ x ∈ mapKeys m2, ∃ k0 ∈ mapKeys P, ∃ n : Nat, x = decoded^[n] k0 := by
  intro x hx
  rcases unescapeParam_keys m k v m2 c h x hx with hx2 | hx2
  · exact hinv x hx2
  · obtain ⟨k0, hk0, n, hn⟩ := hinv k (mem_mapKeys_of_mapGet hget)
    refine ⟨k0, hk0, n + 1, ?_⟩
    rw [hx2, hn, Function.iterate_succ_apply']

theorem rangeDrain_keysFrom (P : Params) :
    ∀ (pending : List Bytes) (m R : Params),
      (∀ x ∈ mapKeys m, ∃ k0 ∈ mapKeys P, ∃ n : Nat, x = decoded^[n] k0) →
      rangeDrain pending m = .ok R →
      ∀ x ∈ mapKeys R, ∃ k0 ∈ mapKeys P, ∃ n : Nat, x = decoded^[n] k0 := by
  intro pending
  induction pending with
  | nil =>
    intro m R hinv h
    rw [← Except.ok.inj h]
    exact hinv
  | cons k rest ih =>
    intro m R hinv h
    unfold rangeDrain at h
    split at h
    · exact ih m R hinv h
    · rename_i v hget
      split at h
      · exact Except.noConfusion h
      · rename_i m2 c hbody
        exact ih m2 R (keysFrom_step P m k v m2 c hinv hget hbody) h

theorem rangeParams_keysFrom (P : Params) :
    ∀ (sched : Schedule) (pending : List Bytes) (m R : Params),
      (∀ x ∈ mapKeys m, ∃ k0 ∈ mapKeys P, ∃ n : Nat, x = decoded^[n] k0) →
      rangeParams sched pending m = .ok R →
      ∀ x ∈ mapKeys R, ∃ k0 ∈ mapKeys P, ∃ n : Nat, x = decoded^[n] k0 := by
  intro sched
  induction sched with
  | nil =>
    intro pending m R hinv h
    unfold rangeParams at h
    exact rangeDrain_keysFrom P pending m R hinv h
  | cons c sched ih =>
    intro pending m R hinv h
    cases pending with
    | nil =>
      have : rangeParams (c :: sched) [] m = .ok m := rfl
      rw [this] at h
      rw [← Except.ok.inj h]
      exact hinv
    | cons k0 rest =>
      unfold rangeParams at h
      simp only [] at h
      split at h
      · exact ih _ m R hinv h
      · rename_i v hget
        split at h
        · exact Except.noConfusion h
        · rename_i m2 cr hbody
          exact ih _ m2 R (keysFrom_step P m _ v m2 cr hinv hget hbody) h

theorem decoded_no_percent (b : Bytes) (h : (37 : Byte) ∉ b) : decoded b = b := by
  unfold decoded unescape
  rw [unescapeFrom_no_percent b h 0]

theorem decoded_iterate_no_percent (b : Bytes) (h : (37 : Byte) ∉ b) (n : Nat) :
    decoded^[n] b = b := by
  induction n with
  | zero => rfl
  | succ n ih => rw [Function.iterate_succ_apply', ih, decoded_no_percent b h]

/-! ## The names the reference parser returns -/

set_option maxRecDepth 100000 in
theorem toLower_byte_lower : ∀ c : Byte,
    ¬ (65 ≤ (if 65 ≤ c.val ∧ c.val ≤ 90 then (Fin.ofNat (c.val + 32) : Byte) else c).val ∧
      (if 65 ≤ c.val ∧ c.val ≤ 90 then (Fin.ofNat (c.val + 32) : Byte) else c).val ≤ 90) := by
  decide

theorem toLower_isLowerCase (s : Bytes) : isLowerCase (toLower s) := by
  intro c hc
  unfold toLower at hc
  obtain ⟨c0, _, rfl⟩ := List.mem_map.mp hc
  exact toLower_byte_lower c0

theorem consumeMediaParam_key_lower (v key value rest : Bytes)
    (h : consumeMediaParam v = some (key, value, rest)) : isLowerCase key := by
  unfold consumeMediaParam at h
  simp only [] at h
  split at h
  · exact Option.noConfusion h
  · split at h
    · exact Option.noConfusion h
    · split at h
      · exact Option.noConfusion h
      · split at h
        · exact Option.noConfusion h
        · split at h
          · exact Option.noConfusion h
          · split at h
            · exact Option.noConfusion h
            · simp only [Option.some.injEq, Prod.mk.injEq] at h
              rw [← h.1]
              exact toLower_isLowerCase _

theorem parseMediaParams_keys_lower :
    ∀ (fuel : Nat) (v : Bytes) (params out : Params),
      (∀ k ∈ mapKeys params, isLowerCase k) →
      parseMediaParams fuel v params = some out → ∀ k ∈ mapKeys out, isLowerCase k := by
  intro fuel
  induction fuel with
  | zero =>
    intro v params out _ h
    exact Option.noConfusion h
  | succ fuel ih =>
    intro v params out hinv h
    unfold parseMediaParams at h
    simp only [] at h
    split at h
    · rw [← Option.some.inj h]
      exact hinv
    · split at h
      · split at h
        · rw [← Option.some.inj h]
          exact hinv
        · exact Option.noConfusion h
      · rename_i key value rest hparam
        split at h
        · exact Option.noConfusion h
        · split at h
          · exact Option.noConfusion h
          · refine ih rest _ out ?_ h
            intro k hk
            rcases mapKeys_mapSet _ _ _ _ hk with rfl | hk2
            · exact consumeMediaParam_key_lower _ _ _ _ hparam
            · exact hinv k hk2

theorem goParseMediaType_keys_lower (v typ : Bytes) (P : Params)
    (h : goParseMediaType v = some (typ, P)) : ∀ k ∈ mapKeys P, isLowerCase k := by
  unfold goParseMediaType at h
  simp only [] at h
  split at h
  · exact Option.noConfusion h
  · split at h
    · exact Option.noConfusion h
    · rename_i params hparams
      simp only [Option.some.injEq, Prod.mk.injEq] at h
      rw [← h.2]
      exact parseMediaParams_keys_lower _ _ [] params
        (fun k hk => absurd hk (List.not_mem_nil _)) hparams

set_option maxRecDepth 100000 in
theorem defaultMediaType_keys_lower :
    ∀ k ∈ mapKeys defaultMediaType.Params, isLowerCase k := by
  unfold isLowerCase
  decide

/-! ## Claim on the case of the parameter names -/

/-- C16 (amended): when the media-type grammar parser returns only lower-case
parameter names (as `mime.ParseMediaType` does), then for every input on which
`Parse` succeeds every parameter name of the result is lower-case, or is what
percent-decoding, applied one or more times, makes of a name that the grammar
parser returned for the header of this input and that contains `%`. -/
theorem C16_parameter_names (ext : Mime)
    (hext : ∀ v typ P, ext.ParseMediaType v = some (typ, P) → ∀ k ∈ mapKeys P, isLowerCase k)
    (sched : Schedule) (data : Bytes) (u : URL) (h : Parse ext sched data = .ok u) :
    ∀ k ∈ mapKeys u.MediaType.Params,
      isLowerCase k ∨
        ∃ i typ P k0, ∃ n : Nat, ext.ParseMediaType ((data.drop 5).take i) = some (typ, P) ∧
          k0 ∈ mapKeys P ∧ (37 : Byte) ∈ k0 ∧ k = decoded^[n] k0 := by
  intro k hk
  obtain ⟨rest, hdata, hmt | ⟨i, typ, P, P2, hparse, hrange, hmt⟩⟩ :=
    Parse_ok_inv ext sched data u h
  · rw [hmt] at hk
    exact Or.inl (defaultMediaType_keys_lower k hk)
  · rw [hmt] at hk
    have hrest : data.drop 5 = rest := by
      have hlen : scheme.length = 5 := by decide
      rw [hdata, ← hlen, List.drop_left]
    obtain ⟨k0, hk0, n, hn⟩ := rangeParams_keysFrom P sched (mapKeys P) P P2
      (fun x hx => ⟨x, hx, 0, rfl⟩) hrange k hk
    by_cases hpct : (37 : Byte) ∈ k0
    · exact Or.inr ⟨i, typ, P, k0, n, by rw [hrest]; exact hparse, hk0, hpct, hn⟩
    · left
      rw [hn, decoded_iterate_no_percent k0 hpct n]
      exact hext _ typ P hparse k0 hk0

/-- C16, witness: the test `odd values`, in which `oddParam1` is returned as
`oddparam1`. -/
theorem C16_parameter_names_witness :
    Parse stdlib []
        (ascii "data:application/json;charset=utf-8;oddParam1=\"a\\\"<@>\\\"z\";odd%20param2=hello%20world;base64,eyJoZWxsbyI6IndvcmxkIn0=") =
        .ok { MediaType := { Typ := ascii "application/json",
                             Params := [(ascii "charset", ascii "utf-8"),
                               (ascii "oddparam1", ascii "a\"<@>\"z"),
                               (ascii "odd param2", ascii "hello world")] },
              Data := ascii "\x7b\"hello\":\"world\"\x7d" } ∧
      isLowerCase (ascii "oddparam1") := by
  have hparse : Parse stdlib []
      (ascii "data:application/json;charset=utf-8;oddParam1=\"a\\\"<@>\\\"z\";odd%20param2=hello%20world;base64,eyJoZWxsbyI6IndvcmxkIn0=") =
      .ok { MediaType := { Typ := ascii "application/json",
                           Params := [(ascii "charset", ascii "utf-8"),
                             (ascii "oddparam1", ascii "a\"<@>\"z"),
                             (ascii "odd param2", ascii "hello world")] },
            Data := ascii "\x7b\"hello\":\"world\"\x7d" } := by decide
  refine ⟨hparse, ?_⟩
  rcases C16_parameter_names stdlib goParseMediaType_keys_lower [] _ _ hparse
    (ascii "oddparam1") (by decide) with h | ⟨_, _, _, _, _, _, _, _, _⟩
  · exact h
  · unfold isLowerCase
    set_option maxRecDepth 100000 in decide

/-- C16, counterexample: the parameter name `a%41` of `data:text/plain;a%41=x,y`
is returned as `aA`, which contains an upper-case letter. -/
theorem C16_counterexample :
    Parse stdlib [] (ascii "data:text/plain;a%41=x,y") =
        .ok { MediaType := { Typ := ascii "text/plain", Params := [(ascii "aA", ascii "x")] },
              Data := ascii "y" } ∧
      ¬ isLowerCase (ascii "aA") := by
  refine ⟨by decide, ?_⟩
  intro h
  exact h 65 (by decide) ⟨by decide, by decide⟩

/-! ## The index functions find the first occurrence -/

theorem firstAt_succ (sep : Bytes) (c : Byte) (rest : Bytes) (j : Nat)
    (h : FirstAt sep (c :: rest) (j + 1)) : FirstAt sep rest j := by
  refine ⟨h.1, fun k hk => ?_⟩
  have := h.2 (k + 1) (by omega)
  simpa using this

theorem indexFrom_firstAt (sep : Bytes) (hsep : sep ≠ []) :
    ∀ (data : Bytes) (i n : Nat), FirstAt sep data i → indexFrom sep n data = ((n + i : Nat) : Int) := by
  intro data
  induction data with
  | nil =>
    intro i n h
    have h1 := h.1
    rw [List.drop_nil] at h1
    exact absurd (List.prefix_nil.mp h1) hsep
  | cons c rest ih =>
    intro i n h
    cases i with
    | zero =>
      have hp : sep.isPrefixOf (c :: rest) = true := List.isPrefixOf_iff_prefix.mpr h.1
      simp [indexFrom, hp]
    | succ j =>
      have hnp : sep.isPrefixOf (c :: rest) = false := by
        cases hp : sep.isPrefixOf (c :: rest) with
        | false => rfl
        | true => exact absurd (List.isPrefixOf_iff_prefix.mp hp) (h.2 0 (by omega))
      have hn : n + 1 + j = n + (j + 1) := by omega
      rw [indexFrom, hnp, if_neg Bool.false_ne_true, ih j (n + 1) (firstAt_succ sep c rest j h), hn]

theorem indexFrom_not_infix (sep : Bytes) (hsep : sep ≠ []) :
    ∀ (data : Bytes) (n : Nat), ¬ sep <:+: data → indexFrom sep n data = -1 := by
  intro data
  induction data with
  | nil =>
    intro n _
    simp [indexFrom, hsep]
  | cons c rest ih =>
    intro n h
    have hnp : sep.isPrefixOf (c :: rest) = false := by
      cases hp : sep.isPrefixOf (c :: rest) with
      | false => rfl
      | true => exact absurd (List.isPrefixOf_iff_prefix.mp hp).isInfix h
    rw [indexFrom, hnp, if_neg Bool.false_ne_true]
    exact ih (n + 1) (fun hi => h (hi.trans (List.suffix_cons c rest).isInfix))

theorem indexByteFrom_firstAt (c : Byte) :
    ∀ (data : Bytes) (i n : Nat), FirstAt [c] data i →
      indexByteFrom c n data = ((n + i : Nat) : Int) := by
  intro data
  induction data with
  | nil =>
    intro i n h
    have h1 := h.1
    rw [List.drop_nil] at h1
    exact absurd (List.prefix_nil.mp h1) (by simp)
  | cons a rest ih =>
    intro i n h
    cases i with
    | zero =>
      obtain ⟨t, ht⟩ := h.1
      have ha : a = c := by
        simp only [List.drop_zero, List.cons_append, List.nil_append, List.cons.injEq] at ht
        exact ht.1.symm
      simp [indexByteFrom, ha]
    | succ j =>
      have ha : a ≠ c := by
        intro e
        exact h.2 0 (by omega) ⟨rest, by simp [e]⟩
      have hn : n + 1 + j = n + (j + 1) := by omega
      rw [indexByteFrom, if_neg ha, ih j (n + 1) (firstAt_succ [c] a rest j h), hn]

/-! ## Claim on the boundary between header and payload -/

/-- C17 (amended): for every input whose first byte after `data:` is neither
`,` nor `;`: if the remainder contains `;base64`, the boundary is its first
occurrence, wherever the commas are, the text before it is handed to the
grammar parser and base64 decoding is selected; if the remainder contains no
`;base64`, the boundary is the first `,`, the text before it is handed to the
grammar parser and literal decoding is selected; if it contains neither,
`Parse` fails. -/
theorem C17_header_boundary (ext : Mime) (sched : Schedule) (data : Bytes) (hne : data ≠ [])
    (h44 : data.head? ≠ some 44) (h59 : data.head? ≠ some 59) :
    (∀ i, FirstAt base64Marker data i →
      Parse ext sched (ascii "data:" ++ data) =
        match ext.ParseMediaType (data.take i) with
        | none => .error (.mediaType (data.take i))
        | some (typ, params) =>
          match rangeParams sched (mapKeys params) params with
          | .error e => .error e
          | .ok params2 => parseBase64Marker { Typ := typ, Params := params2 } (data.drop i)) ∧
    (¬ base64Marker <:+: data → ∀ i, FirstAt [44] data i →
      Parse ext sched (ascii "data:" ++ data) =
        match ext.ParseMediaType (data.take i) with
        | none => .error (.mediaType (data.take i))
        | some (typ, params) =>
          match rangeParams sched (mapKeys params) params with
          | .error e => .error e
          | .ok params2 => parseData { Typ := typ, Params := params2 } false (data.drop i)) ∧
    (¬ base64Marker <:+: data → (44 : Byte) ∉ data →
      Parse ext sched (ascii "data:" ++ data) = .error .noData) := by
  have hs : ascii "data:" = scheme := rfl
  have hmne : base64Marker ≠ [] := by decide
  refine ⟨?_, ?_, ?_⟩
  · intro i hi
    have hidx : bytesIndex data base64Marker = (i : Int) := by
      unfold bytesIndex
      rw [indexFrom_firstAt base64Marker hmne data i 0 hi, Nat.zero_add]
    have hipos : 0 < i := by
      rcases Nat.eq_zero_or_pos i with h0 | h0
      · exfalso
        subst h0
        obtain ⟨t, ht⟩ := hi.1
        rw [List.drop_zero, base64Marker_eq] at ht
        apply h59
        rw [← ht]
        rfl
      · exact h0
    have hpos : bytesIndex data base64Marker > 0 := by
      rw [hidx]
      exact_mod_cast hipos
    rw [hs, Parse_header ext sched data i true hne h44 h59 (by rw [if_pos hpos, hidx])
      (decide_eq_true hpos)]
    cases ext.ParseMediaType (data.take i) with
    | none => rfl
    | some tp =>
      obtain ⟨typ, params⟩ := tp
      simp only []
      cases rangeParams sched (mapKeys params) params with
      | error e => rfl
      | ok params2 => simp
  · intro hno i hi
    have hidx : bytesIndex data base64Marker = -1 :=
      indexFrom_not_infix base64Marker hmne data 0 hno
    have hpos : ¬ bytesIndex data base64Marker > 0 := by
      rw [hidx]
      decide
    have hcomma : indexByte data 44 = (i : Int) := by
      unfold indexByte
      rw [indexByteFrom_firstAt 44 data i 0 hi, Nat.zero_add]
    rw [hs, Parse_header ext sched data i false hne h44 h59 (by rw [if_neg hpos, hcomma])
      (decide_eq_false hpos)]
    cases ext.ParseMediaType (data.take i) with
    | none => rfl
    | some tp =>
      obtain ⟨typ, params⟩ := tp
      simp only []
      cases rangeParams sched (mapKeys params) params with
      | error e => rfl
      | ok params2 => simp
  · intro hno hnc
    have hidx : bytesIndex data base64Marker = -1 :=
      indexFrom_not_infix base64Marker hmne data 0 hno
    have hpos : ¬ bytesIndex data base64Marker > 0 := by
      rw [hidx]
      decide
    have hlen : ¬ (data.length < 1) := by
      cases data with
      | nil => exact absurd rfl hne
      | cons a t => simp
    rw [hs, Parse_scheme, if_neg hlen, if_neg h44, if_neg h59, if_neg hpos,
      indexByte_not_mem data 44 hnc, if_pos (by decide)]

/-- C17, witness: in `data:image/gif;base64,R0lG` the marker starts at index 9
of the remainder, `image/gif` goes to the grammar parser and the payload is
decoded as base64; in `data:text/plain,hi` the first comma is at index 10. -/
theorem C17_header_boundary_witness :
    (FirstAt base64Marker (ascii "image/gif;base64,R0lG") 9 ∧
      Parse stdlib [] (ascii "data:" ++ ascii "image/gif;base64,R0lG") =
        .ok { MediaType := { Typ := ascii "image/gif", Params := [] }, Data := ascii "GIF" }) ∧
    (FirstAt [44] (ascii "text/plain,hi") 10 ∧
      Parse stdlib [] (ascii "data:" ++ ascii "text/plain,hi") =
        .ok { MediaType := { Typ := ascii "text/plain", Params := [] }, Data := ascii "hi" }) := by
  have h1 : FirstAt base64Marker (ascii "image/gif;base64,R0lG") 9 := by
    unfold FirstAt
    decide
  have h2 : FirstAt [44] (ascii "text/plain,hi") 10 := by
    unfold FirstAt
    decide
  refine ⟨⟨h1, ?_⟩, ⟨h2, ?_⟩⟩
  · rw [(C17_header_boundary stdlib [] (ascii "image/gif;base64,R0lG") (by decide) (by decide)
      (by decide)).1 9 h1]
    decide
  · rw [(C17_header_boundary stdlib [] (ascii "text/plain,hi") (by decide) (by decide)
      (by decide)).2.1 (by decide) 10 h2]
    decide

/-- C17, counterexample: in `data:text/plain;a="b,c";base64,QUJD` the first
comma (index 15 of the remainder) comes before the first `;base64` (index 18).
The text up to the comma is rejected by the grammar parser, so `Parse` would
fail if the comma were the boundary; `Parse` succeeds, with the parameter
`a = b,c` from the text up to the marker and the payload decoded as base64. -/
theorem C17_counterexample :
    FirstAt [44] (ascii "text/plain;a=\"b,c\";base64,QUJD") 15 ∧
      FirstAt base64Marker (ascii "text/plain;a=\"b,c\";base64,QUJD") 18 ∧
      goParseMediaType ((ascii "text/plain;a=\"b,c\";base64,QUJD").take 15) = none ∧
      Parse stdlib [] (ascii "data:text/plain;a=\"b,c\";base64,QUJD") =
        .ok { MediaType := { Typ := ascii "text/plain", Params := [(ascii "a", ascii "b,c")] },
              Data := ascii "ABC" } := by
  unfold FirstAt
  decide

/-! ## The order of the parameter pass -/

/-- C18: on `data:text/plain;a%62=1;ab=%,x` the grammar parser returns the two
parameters `a%62 = 1` and `ab = %`.  When the loop produces `a%62` first, it
replaces that entry by `ab = 1`, which overwrites the entry `ab = %` before
the loop reaches it, and `Parse` succeeds with the one parameter `ab = 1`.
When the loop produces `ab` first, its value `%` fails to unescape and `Parse`
returns an error.  Neither order produces a created entry a second time. -/
theorem C18_outcome_depends_on_order :
    goParseMediaType (ascii "text/plain;a%62=1;ab=%") =
        some (ascii "text/plain", [(ascii "a%62", ascii "1"), (ascii "ab", ascii "%")]) ∧
      rangeParams [{ pick := 0, revisit := false }]
          (mapKeys [(ascii "a%62", ascii "1"), (ascii "ab", ascii "%")])
          [(ascii "a%62", ascii "1"), (ascii "ab", ascii "%")] =
        .ok [(ascii "ab", ascii "1")] ∧
      rangeParams [{ pick := 1, revisit := false }]
          (mapKeys [(ascii "a%62", ascii "1"), (ascii "ab", ascii "%")])
          [(ascii "a%62", ascii "1"), (ascii "ab", ascii "%")] =
        .error (.paramValue (ascii "ab") (.unexpectedEnd 0)) ∧
      Parse stdlib [{ pick := 0, revisit := false }] (ascii "data:text/plain;a%62=1;ab=%,x") =
        .ok { MediaType := { Typ := ascii "text/plain", Params := [(ascii "ab", ascii "1")] },
              Data := ascii "x" } ∧
      Parse stdlib [{ pick := 1, revisit := false }] (ascii "data:text/plain;a%62=1;ab=%,x") =
        .error (.paramValue (ascii "ab") (.unexpectedEnd 0)) := by
  decide

/-! ## Decoding only what contains `%` -/

theorem unescapeIfPercent_eq (b : Bytes) : unescapeIfPercent b = unescape b false := by
  unfold unescapeIfPercent
  by_cases h : (37 : Byte) ∈ b
  · rw [if_pos h]
  · rw [if_neg h]
    unfold unescape
    rw [unescapeFrom_no_percent b h 0]

theorem unescapeParamGuarded_eq (params : Params) (k v : Bytes) :
    unescapeParamGuarded params k v = unescapeParam params k v := by
  unfold unescapeParamGuarded
  rw [unescapeIfPercent_eq k, unescapeIfPercent_eq v]
  rfl

theorem rangeDrainGuarded_eq :
    ∀ (pending : List Bytes) (params : Params),
      rangeDrainGuarded pending params = rangeDrain pending params := by
  intro pending
  induction pending with
  | nil => intro params; rfl
  | cons k rest ih =>
    intro params
    unfold rangeDrainGuarded rangeDrain
    cases mapGet params k with
    | none => exact ih params
    | some v =>
      simp only [unescapeParamGuarded_eq]
      cases unescapeParam params k v with
      | error e => rfl
      | ok r => exact ih r.1

theorem rangeParamsGuarded_eq :
    ∀ (sched : Schedule) (pending : List Bytes) (params : Params),
      rangeParamsGuarded sched pending params = rangeParams sched pending params := by
  intro sched
  induction sched with
  | nil =>
    intro pending params
    unfold rangeParamsGuarded rangeParams
    exact rangeDrainGuarded_eq pending params
  | cons c sched ih =>
    intro pending params
    cases pending with
    | nil => rfl
    | cons k0 rest =>
      unfold rangeParamsGuarded rangeParams
      simp only []
      cases mapGet params ((k0 :: rest).getD (c.pick % (k0 :: rest).length) k0) with
      | none => exact ih _ params
      | some v =>
        simp only [unescapeParamGuarded_eq]
        cases unescapeParam params ((k0 :: rest).getD (c.pick % (k0 :: rest).length) k0) v with
        | error e => rfl
        | ok r => exact ih _ r.1

/-- C19: for every byte sequence that contains no `%`, non-strict `unescape`
succeeds and returns the sequence unchanged; hence the parameter pass of
`Parse`, which decodes every name and value, returns for every map, every
order and every set of entries still to be produced what the pass returns
that decodes only the names and values that contain `%`. -/
theorem C19_unconditional_pass (data : Bytes) (sched : Schedule) (pending : List Bytes)
    (params : Params) :
    ((37 : Byte) ∉ data → unescape data false = .ok data) ∧
      rangeParamsGuarded sched pending params = rangeParams sched pending params :=
  ⟨fun h => unescapeFrom_no_percent data h 0, rangeParamsGuarded_eq sched pending params⟩

/-- C19, instance: the value `utf-8` has no `%` and is returned unchanged. -/
theorem C19_unconditional_pass_witness :
    (37 : Byte) ∉ ascii "utf-8" ∧ unescape (ascii "utf-8") false = .ok (ascii "utf-8") :=
  ⟨by decide, (C19_unconditional_pass (ascii "utf-8") [] [] []).1 (by decide)⟩

/-! ## The empty payload -/

theorem parseData_nil (mt : MediaType) (b : Bool) :
    parseData mt b [] = .error .invalidDataSection := by
  unfold parseData
  simp

theorem parseData_drop_error (mt : MediaType) (b : Bool) (h : Bytes) (n : Nat)
    (hno : (44 : Byte) ∉ h) :
    parseData mt b ((h ++ [44]).drop n) = .error .invalidDataSection := by
  rw [List.drop_append_eq_append_drop]
  by_cases hn : n < h.length
  · have hne : h.drop n ≠ [] := by
      intro he
      have := List.drop_eq_nil_iff.mp he
      omega
    obtain ⟨c, t, hct⟩ := List.exists_cons_of_ne_nil hne
    have hc : c ∈ h := List.mem_of_mem_drop (by rw [hct]; exact List.mem_cons_self _ _)
    have hc44 : c ≠ 44 := fun e => hno (e ▸ hc)
    rw [hct]
    unfold parseData
    simp [hc44]
  · have hnil : h.drop n = [] := List.drop_eq_nil_of_le (by omega)
    rw [hnil, List.nil_append]
    cases n - h.length with
    | zero => exact parseData_comma_only mt b
    | succ k =>
      have : List.drop (k + 1) [(44 : Byte)] = [] := by simp
      rw [this]
      exact parseData_nil mt b

theorem parseBase64Marker_drop_error (mt : MediaType) (h : Bytes) (n : Nat)
    (hno : (44 : Byte) ∉ h) :
    ∃ e, parseBase64Marker mt ((h ++ [44]).drop n) = .error e := by
  unfold parseBase64Marker
  split
  · exact ⟨_, rfl⟩
  · rw [List.drop_drop]
    exact ⟨_, parseData_drop_error mt true h _ hno⟩

/-- C20: for every byte sequence `h` that contains no `,`, `Parse` applied to
`data:` followed by `h` and a comma returns an error, whatever the grammar
parser makes of `h` and whatever the order of the parameter pass. -/
theorem C20_empty_payload_rejected (ext : Mime) (sched : Schedule) (h : Bytes)
    (hno : (44 : Byte) ∉ h) : ∃ e, Parse ext sched (ascii "data:" ++ h ++ [44]) = .error e := by
  have hs : ascii "data:" = scheme := rfl
  rw [hs, List.append_assoc, Parse_scheme]
  have hd0 : h ++ [44] = (h ++ [44]).drop 0 := rfl
  split
  · exact ⟨_, rfl⟩
  split
  · rw [hd0]
    exact ⟨_, parseData_drop_error _ _ h 0 hno⟩
  split
  · rw [hd0]
    exact parseBase64Marker_drop_error _ h 0 hno
  by_cases hi : bytesIndex (h ++ [44]) base64Marker > 0
  · simp only [hi, if_true, decide_True]
    split
    · exact ⟨_, rfl⟩
    split
    · exact ⟨_, rfl⟩
    split
    · exact ⟨_, rfl⟩
    · exact parseBase64Marker_drop_error _ h _ hno
  · simp only [hi, if_false, decide_False, Bool.false_eq_true]
    split
    · exact ⟨_, rfl⟩
    split
    · exact ⟨_, rfl⟩
    split
    · exact ⟨_, rfl⟩
    · exact ⟨_, parseData_drop_error _ _ h _ hno⟩

/-- C20, witness: `data:,`, `data:;base64,` and `data:text/plain;base64,` are
rejected. -/
theorem C20_empty_payload_rejected_witness :
    ((44 : Byte) ∉ ([] : Bytes) ∧ (44 : Byte) ∉ ascii ";base64" ∧
        (44 : Byte) ∉ ascii "text/plain;base64") ∧
      Parse stdlib [] (ascii "data:" ++ [] ++ [44]) = .error .invalidDataSection ∧
      Parse stdlib [] (ascii "data:" ++ ascii ";base64" ++ [44]) =
        .error .invalidDataSection ∧
      ∃ e, Parse stdlib [] (ascii "data:" ++ ascii "text/plain;base64" ++ [44]) = .error e :=
  ⟨by decide, by decide, by decide,
    C20_empty_payload_rejected stdlib [] (ascii "text/plain;base64") (by decide)⟩

/-! ## The shape of the base64 text -/

theorem b64char_mem_alphabet_fin : ∀ n : Fin 64, b64char n.val ∈ b64alphabet := by decide

theorem b64char_mem_alphabet {n : Nat} (h : n < 64) : b64char n ∈ b64alphabet :=
  b64char_mem_alphabet_fin ⟨n, h⟩

/-- The output of `b64encode` is padded to a multiple of four characters, each
from the alphabet or the padding character `=`. -/
theorem b64encode_padded (d : Bytes) :
    (b64encode d).length = 4 * ((d.length + 2) / 3) ∧
      ∀ c ∈ b64encode d, c ∈ b64alphabet ∨ c = 61 := by
  induction d using three_induction with
  | nil => exact ⟨rfl, fun c hc => absurd hc (List.not_mem_nil _)⟩
  | one a =>
    refine ⟨by simp [b64encode], fun c hc => ?_⟩
    simp only [b64encode, List.mem_cons, List.mem_singleton, List.not_mem_nil, or_false] at hc
    rcases hc with rfl | rfl | rfl | rfl
    · exact Or.inl (b64char_mem_alphabet (Nat.mod_lt _ (by decide)))
    · exact Or.inl (b64char_mem_alphabet (Nat.mod_lt _ (by decide)))
    · exact Or.inr rfl
    · exact Or.inr rfl
  | two a b =>
    refine ⟨by simp [b64encode], fun c hc => ?_⟩
    simp only [b64encode, List.mem_cons, List.mem_singleton, List.not_mem_nil, or_false] at hc
    rcases hc with rfl | rfl | rfl | rfl
    · exact Or.inl (b64char_mem_alphabet (Nat.mod_lt _ (by decide)))
    · exact Or.inl (b64char_mem_alphabet (Nat.mod_lt _ (by decide)))
    · exact Or.inl (b64char_mem_alphabet (Nat.mod_lt _ (by decide)))
    · exact Or.inr rfl
  | step a b c rest ih =>
    obtain ⟨hlen, hmem⟩ := ih
    refine ⟨?_, fun x hx => ?_⟩
    · simp only [b64encode, List.length_cons, hlen]
      omega
    · simp only [b64encode, List.mem_cons] at hx
      rcases hx with rfl | rfl | rfl | rfl | hx
      · exact Or.inl (b64char_mem_alphabet (Nat.mod_lt _ (by decide)))
      · exact Or.inl (b64char_mem_alphabet (Nat.mod_lt _ (by decide)))
      · exact Or.inl (b64char_mem_alphabet (Nat.mod_lt _ (by decide)))
      · exact Or.inl (b64char_mem_alphabet (Nat.mod_lt _ (by decide)))
      · exact hmem x hx

/-! ## Claim on the round trip without a media type -/

/-- C21: for every non-empty byte sequence `d`, `Parse` applied to `data:,`
followed by the output of `writeEscapedSequence` on `d`, and `Parse` applied to
`data:;base64,` followed by the standard padded base64 of `d`, both succeed and
both return the default media type and `Data` equal to `d`, whatever the
grammar parser and the order of the parameter pass. -/
theorem C21_headerless_roundtrip (ext : Mime) (sched : Schedule) (d : Bytes) (hd : d ≠ []) :
    Parse ext sched (ascii "data:," ++ writeEscapedSequence [] d) =
        .ok { MediaType := defaultMediaType, Data := d } ∧
      Parse ext sched (ascii "data:;base64," ++ b64encode d) =
        .ok { MediaType := defaultMediaType, Data := d } := by
  have h1 : ascii "data:," ++ writeEscapedSequence [] d =
      scheme ++ ([] ++ payloadSection false d) := by
    have : ascii "data:," = scheme ++ [44] := by decide
    rw [this, payloadSection_false]
    simp
  have h2 : ascii "data:;base64," ++ b64encode d =
      scheme ++ ([] ++ payloadSection true d) := by
    have : ascii "data:;base64," = scheme ++ (ascii ";base64" ++ [44]) := by decide
    rw [this, payloadSection_true]
    simp
  rw [h1, h2]
  exact ⟨Parse_assembled_nil ext sched d false hd, Parse_assembled_nil ext sched d true hd⟩

/-- C21, witness: the payload `hello, world!` of the tests `skip media type`
and `skip media type, use base64`. -/
theorem C21_headerless_roundtrip_witness :
    ascii "hello, world!" ≠ [] ∧
      ascii "data:," ++ writeEscapedSequence [] (ascii "hello, world!") =
        ascii "data:,hello%2C%20world!" ∧
      ascii "data:;base64," ++ b64encode (ascii "hello, world!") =
        ascii "data:;base64,aGVsbG8sIHdvcmxkIQ==" ∧
      Parse stdlib [] (ascii "data:," ++ writeEscapedSequence [] (ascii "hello, world!")) =
        .ok { MediaType := defaultMediaType, Data := ascii "hello, world!" } ∧
      Parse stdlib [] (ascii "data:;base64," ++ b64encode (ascii "hello, world!")) =
        .ok { MediaType := defaultMediaType, Data := ascii "hello, world!" } :=
  ⟨by decide, by decide, by decide,
    C21_headerless_roundtrip stdlib [] (ascii "hello, world!") (by decide)⟩
/-! ## What the decoders of the payload accept -/

theorem unescape_strict_no_comma (x out : Bytes) (h : unescape x true = .ok out) :
    (44 : Byte) ∉ x := by
  intro hm
  have := (unescapeFrom_strict_ok x 0 out h).2 44 hm (by decide)
  revert this
  decide

theorem skipNewlines_eq_nil (r : Bytes) (h : skipNewlines r = []) :
    ∀ c ∈ r, c = 10 ∨ c = 13 := by
  induction r with
  | nil => intro c hc; exact absurd hc (List.not_mem_nil _)
  | cons a t ih =>
    unfold skipNewlines at h
    split at h
    · rename_i ha
      intro c hc
      rcases List.mem_cons.mp hc with rfl | hc
      · exact ha
      · exact ih h c hc
    · exact List.noConfusion h

theorem skipNewlines_eq_cons (r : Bytes) (c2 : Byte) (r2 : Bytes)
    (h : skipNewlines r = c2 :: r2) :
    r.length ≥ 1 + r2.length ∧ ∀ c ∈ r, c = 10 ∨ c = 13 ∨ c = c2 ∨ c ∈ r2 := by
  induction r with
  | nil => exact List.noConfusion h
  | cons a t ih =>
    unfold skipNewlines at h
    split at h
    · rename_i ha
      obtain ⟨h1, h2⟩ := ih h
      refine ⟨by simp only [List.length_cons]; omega, ?_⟩
      intro c hc
      rcases List.mem_cons.mp hc with rfl | hc
      · rcases ha with ha | ha
        · exact Or.inl ha
        · exact Or.inr (Or.inl ha)
      · exact h2 c hc
    · simp only [List.cons.injEq] at h
      obtain ⟨rfl, rfl⟩ := h
      refine ⟨by simp only [List.length_cons]; omega, ?_⟩
      intro c hc
      rcases List.mem_cons.mp hc with rfl | hc
      · exact Or.inr (Or.inr (Or.inl rfl))
      · exact Or.inr (Or.inr (Or.inr hc))

/-- The bytes `Decode` lets pass: the alphabet, line breaks and the padding. -/
theorem b64decodeFrom_inv (x : Bytes) :
    ∀ (dbuf : List Nat) (y : Bytes), b64decodeFrom dbuf x = some y →
      (∀ c ∈ x, (b64value c).isSome = true ∨ c = 10 ∨ c = 13 ∨ c = 61) ∧
        4 * y.length ≤ 3 * (dbuf.length + x.length) := by
  induction x with
  | nil =>
    intro dbuf y h
    simp only [b64decodeFrom] at h
    split at h
    · simp only [Option.some.injEq] at h
      subst h
      simp
    · exact Option.noConfusion h
  | cons c rest ih =>
    intro dbuf y h
    simp only [b64decodeFrom] at h
    split at h
    · rename_i v hv
      have hc : (b64value c).isSome = true := by rw [hv]; rfl
      split at h
      · rename_i s0 s1 s2
        split at h
        · rename_i out hout
          obtain ⟨h1, h2⟩ := ih [] out hout
          simp only [Option.some.injEq] at h
          subst h
          refine ⟨?_, ?_⟩
          · intro c2 hc2
            rcases List.mem_cons.mp hc2 with rfl | hc2
            · exact Or.inl hc
            · exact h1 c2 hc2
          · simp only [List.length_cons, List.length_nil] at h2 ⊢
            omega
        · exact Option.noConfusion h
      · obtain ⟨h1, h2⟩ := ih _ y h
        refine ⟨?_, ?_⟩
        · intro c2 hc2
          rcases List.mem_cons.mp hc2 with rfl | hc2
          · exact Or.inl hc
          · exact h1 c2 hc2
        · simp only [List.length_append, List.length_cons, List.length_nil] at h2 ⊢
          omega
    · split at h
      · rename_i hnl
        obtain ⟨h1, h2⟩ := ih _ y h
        refine ⟨?_, ?_⟩
        · intro c2 hc2
          rcases List.mem_cons.mp hc2 with rfl | hc2
          · rcases hnl with hnl | hnl
            · exact Or.inr (Or.inl hnl)
            · exact Or.inr (Or.inr (Or.inl hnl))
          · exact h1 c2 hc2
        · simp only [List.length_cons] at h2 ⊢
          omega
      · split at h
        · exact Option.noConfusion h
        · rename_i hpad
          have hc61 : c = 61 := not_not.mp hpad
          split at h
          · rename_i s0 s1
            split at h
            · exact Option.noConfusion h
            · rename_i c2 rest2 hsk
              split at h
              · exact Option.noConfusion h
              · rename_i hc2
                have hc2e : c2 = 61 := not_not.mp hc2
                split at h
                · exact Option.noConfusion h
                · rename_i hsk2
                  have hsk2e : skipNewlines rest2 = [] := not_not.mp hsk2
                  obtain ⟨hl, hm⟩ := skipNewlines_eq_cons rest c2 rest2 hsk
                  simp only [Option.some.injEq] at h
                  subst h
                  refine ⟨?_, ?_⟩
                  · intro c3 hc3
                    rcases List.mem_cons.mp hc3 with rfl | hc3
                    · exact Or.inr (Or.inr (Or.inr hc61))
                    · rcases hm c3 hc3 with h | h | h | h
                      · exact Or.inr (Or.inl h)
                      · exact Or.inr (Or.inr (Or.inl h))
                      · exact Or.inr (Or.inr (Or.inr (h.trans hc2e)))
                      · rcases skipNewlines_eq_nil rest2 hsk2e c3 h with h | h
                        · exact Or.inr (Or.inl h)
                        · exact Or.inr (Or.inr (Or.inl h))
                  · simp only [List.length_cons, List.length_nil]
                    omega
          · rename_i s0 s1 s2
            split at h
            · exact Option.noConfusion h
            · rename_i hsk
              have hske : skipNewlines rest = [] := not_not.mp hsk
              simp only [Option.some.injEq] at h
              subst h
              refine ⟨?_, ?_⟩
              · intro c3 hc3
                rcases List.mem_cons.mp hc3 with rfl | hc3
                · exact Or.inr (Or.inr (Or.inr hc61))
                · rcases skipNewlines_eq_nil rest hske c3 hc3 with h | h
                  · exact Or.inr (Or.inl h)
                  · exact Or.inr (Or.inr (Or.inl h))
              · simp only [List.length_cons, List.length_nil]
                omega
          · exact Option.noConfusion h

theorem b64decode_no_comma (x y : Bytes) (h : b64decode x = some y) :
    (44 : Byte) ∉ x ∧ (37 : Byte) ∉ x := by
  have h1 := (b64decodeFrom_inv x [] y h).1
  constructor
  · intro hm
    have := h1 44 hm
    revert this
    decide
  · intro hm
    have := h1 37 hm
    revert this
    decide

theorem b64decode_length (x y : Bytes) (h : b64decode x = some y) :
    4 * y.length ≤ 3 * x.length := by
  have := (b64decodeFrom_inv x [] y h).2
  simpa using this

set_option maxRecDepth 100000 in
theorem comma_not_mem_escapeByte : ∀ b : Byte, (44 : Byte) ∉ escapeByte b := by decide

theorem comma_not_mem_escaped (d : Bytes) : (44 : Byte) ∉ (d.map escapeByte).flatten := by
  intro h
  obtain ⟨l, hl, hm⟩ := List.mem_flatten.mp h
  obtain ⟨b, _, rfl⟩ := List.mem_map.mp hl
  exact comma_not_mem_escapeByte b hm

theorem escaped_eq_self (d : Bytes) (h : (37 : Byte) ∉ (d.map escapeByte).flatten) :
    (d.map escapeByte).flatten = d := by
  induction d with
  | nil => rfl
  | cons b t ih =>
    simp only [List.map_cons, List.flatten_cons, List.mem_append, not_or] at h ⊢
    have hb : escapeByte b = [b] := by
      unfold escapeByte
      split
      · rfl
      · exfalso
        apply h.1
        unfold escapeByte
        rename_i hr
        rw [if_neg hr]
        exact List.mem_cons_self _ _
    rw [hb, ih h.2]
    rfl

theorem comma_not_mem_b64encode (d : Bytes) : (44 : Byte) ∉ b64encode d := by
  intro h
  rcases (b64encode_padded d).2 44 h with h | h
  · revert h
    decide
  · revert h
    decide

theorem b64decode_escaped_ne (d : Bytes) (hd : d ≠ []) :
    b64decode (d.map escapeByte).flatten ≠ some d := by
  intro h
  have hp := (b64decode_no_comma _ _ h).2
  have he := escaped_eq_self d hp
  have hl := b64decode_length _ _ h
  rw [he] at hl
  have : d.length = 0 := by omega
  exact hd (List.length_eq_zero.mp this)

/-- A text has one decomposition around its last occurrence of a byte. -/
theorem append_cons_unique {c : Byte} {a a2 t t2 : Bytes} (h : a ++ c :: t = a2 ++ c :: t2)
    (ht : c ∉ t) (ht2 : c ∉ t2) : a = a2 ∧ t = t2 := by
  induction a generalizing a2 with
  | nil =>
    cases a2 with
    | nil =>
      simp only [List.nil_append, List.cons.injEq, true_and] at h
      exact ⟨rfl, h⟩
    | cons x a3 =>
      simp only [List.nil_append, List.cons_append, List.cons.injEq] at h
      exfalso
      apply ht
      rw [h.2]
      simp
  | cons x a3 ih =>
    cases a2 with
    | nil =>
      simp only [List.nil_append, List.cons_append, List.cons.injEq] at h
      exfalso
      apply ht2
      rw [← h.2]
      simp
    | cons x2 a4 =>
      simp only [List.cons_append, List.cons.injEq] at h
      obtain ⟨h1, h2⟩ := ih h.2
      exact ⟨by rw [h.1, h1], h2⟩

/-! ## What a successful `parseData` has read -/

theorem parseData_ok_inv {mt : MediaType} {b : Bool} {x : Bytes} {u : URL}
    (h : parseData mt b x = .ok u) :
    ∃ t, x = 44 :: t ∧ t ≠ [] ∧ (44 : Byte) ∉ t ∧
      (b = false → unescape t true = .ok u.Data) ∧ (b = true → b64decode t = some u.Data) := by
  unfold parseData at h
  split at h
  · exact Except.noConfusion h
  · rename_i hg
    rw [not_or, not_not] at hg
    obtain ⟨hlen, hhead⟩ := hg
    cases x with
    | nil => exact Option.noConfusion hhead
    | cons c t =>
      have hc : c = 44 := by
        simp only [List.head?_cons, Option.some.injEq] at hhead
        exact hhead
      have htne : t ≠ [] := by
        intro e
        rw [e] at hlen
        exact hlen (by simp)
      simp only [List.drop_succ_cons, List.drop_zero] at h
      refine ⟨t, by rw [hc], htne, ?_⟩
      cases b with
      | false =>
        simp only [Bool.not_false, if_true] at h
        split at h
        · exact Except.noConfusion h
        · rename_i unescaped hu
          have hd : u.Data = unescaped := by
            cases h
            rfl
          refine ⟨unescape_strict_no_comma t _ hu, fun _ => ?_, fun e => Bool.noConfusion e⟩
          rw [hd]
          exact hu
      | true =>
        simp only [Bool.not_true, Bool.false_eq_true, if_false] at h
        split at h
        · exact Except.noConfusion h
        · rename_i dst hu
          have hd : u.Data = dst := by
            cases h
            rfl
          refine ⟨(b64decode_no_comma t _ hu).1, fun e => Bool.noConfusion e, fun _ => ?_⟩
          rw [hd]
          exact hu

theorem parseBase64Marker_ok_inv {mt : MediaType} {x : Bytes} {u : URL}
    (h : parseBase64Marker mt x = .ok u) :
    ∃ t, x = base64Marker ++ 44 :: t ∧ t ≠ [] ∧ (44 : Byte) ∉ t ∧
      b64decode t = some u.Data := by
  unfold parseBase64Marker at h
  split at h
  · exact Except.noConfusion h
  · rename_i hp
    have hpre : base64Marker <+: x := by
      apply (hasPrefix_iff _ _).mp
      cases hq : hasPrefix x base64Marker with
      | true => rfl
      | false => rw [hq] at hp; exact absurd rfl hp
    obtain ⟨r, rfl⟩ := hpre
    rw [List.drop_left] at h
    obtain ⟨t, ht, htne, hc, _, hb⟩ := parseData_ok_inv h
    exact ⟨t, by rw [ht], htne, hc, hb rfl⟩

/-! ## The index functions, completely -/

theorem indexFrom_spec (sep : Bytes) (hsep : sep ≠ []) :
    ∀ (data : Bytes) (n : Nat),
      (indexFrom sep n data = -1 ∧ ¬ sep <:+: data) ∨
        ∃ i, indexFrom sep n data = ((n + i : Nat) : Int) ∧ FirstAt sep data i := by
  intro data n
  by_cases h : sep <:+: data
  · right
    have hex : ∃ i, sep <+: data.drop i := by
      obtain ⟨a, b, hab⟩ := h
      refine ⟨a.length, b, ?_⟩
      rw [← hab, List.append_assoc, List.drop_left]
    classical
    refine ⟨Nat.find hex, ?_, ?_⟩
    · exact indexFrom_firstAt sep hsep data _ n ⟨Nat.find_spec hex, fun j hj => Nat.find_min hex hj⟩
    · exact ⟨Nat.find_spec hex, fun j hj => Nat.find_min hex hj⟩
  · have hidx := indexFrom_not_infix sep hsep data n h
    exact Or.inl ⟨hidx, h⟩

theorem indexByteFrom_spec (c : Byte) :
    ∀ (data : Bytes) (n : Nat),
      (indexByteFrom c n data = -1 ∧ c ∉ data) ∨
        ∃ i, indexByteFrom c n data = ((n + i : Nat) : Int) ∧ c ∉ data.take i ∧
          ∃ t, data.drop i = c :: t := by
  intro data
  induction data with
  | nil => intro n; exact Or.inl ⟨rfl, List.not_mem_nil _⟩
  | cons a rest ih =>
    intro n
    by_cases ha : a = c
    · right
      refine ⟨0, by simp [indexByteFrom, ha], by simp, rest, by simp [ha]⟩
    · rcases ih (n + 1) with ⟨h1, h2⟩ | ⟨i, h1, h2, t, h3⟩
      · left
        refine ⟨by rw [indexByteFrom, if_neg ha, h1], ?_⟩
        intro hm
        rcases List.mem_cons.mp hm with e | e
        · exact ha e.symm
        · exact h2 e
      · right
        refine ⟨i + 1, ?_, ?_, t, ?_⟩
        · have hn : n + 1 + i = n + (i + 1) := by omega
          rw [indexByteFrom, if_neg ha, h1, hn]
        · intro hm
          rw [List.take_succ_cons] at hm
          rcases List.mem_cons.mp hm with e | e
          · exact ha e.symm
          · exact h2 e
        · simpa using h3

/-! ## `Parse` on the output of `Encode`, completely -/

theorem payloadSection_eq (b : Bool) (d : Bytes) :
    payloadSection b d =
      (if b = true then base64Marker else []) ++
        44 :: (if b = true then b64encode d else (d.map escapeByte).flatten) := rfl

theorem comma_not_mem_encoded (b : Bool) (d : Bytes) :
    (44 : Byte) ∉ (if b = true then b64encode d else (d.map escapeByte).flatten) := by
  cases b with
  | false => exact comma_not_mem_escaped d
  | true => exact comma_not_mem_b64encode d

theorem encoded_ne_nil_imp (b : Bool) (d : Bytes)
    (h : (if b = true then b64encode d else (d.map escapeByte).flatten) ≠ []) : d ≠ [] := by
  intro e
  subst e
  cases b <;> exact h rfl

/-- What `Parse` returns on `data:`, a header `s` without the marker, and the
base64 payload section that `Encode` writes: commas in `s` do no harm, since
the marker is looked for first. -/
theorem Parse_assembled_base64 (ext : Mime) (sched : Schedule) (s d : Bytes)
    (hd : d ≠ []) (hne : s ≠ []) (h3 : s.head? ≠ some 44) (h4 : ¬ base64Marker <:+: s)
    (h5 : s.head? ≠ some 59) :
    Parse ext sched (scheme ++ (s ++ payloadSection true d)) =
      match ext.ParseMediaType s with
      | none => .error (.mediaType s)
      | some (typ, params) =>
        match rangeParams sched (mapKeys params) params with
        | .error e => .error e
        | .ok params2 => .ok { MediaType := { Typ := typ, Params := params2 }, Data := d } := by
  obtain ⟨c, s2, rfl⟩ := List.exists_cons_of_ne_nil hne
  have hc44 : c ≠ 44 := fun e => h3 (by simp [e])
  have hc59 : c ≠ 59 := fun e => h5 (by simp [e])
  have hskip : ∀ n, indexFrom base64Marker n ((c :: s2) ++ payloadSection true d) =
      indexFrom base64Marker (n + (c :: s2).length) (payloadSection true d) :=
    indexFrom_append_skip base64Marker _ (c :: s2)
      (fun u hu hsuf => marker_not_prefix_of_suffix (c :: s2) u _ hu hsuf h4
        (payloadSection_head true d))
  have hne2 : (c :: s2) ++ payloadSection true d ≠ [] := by simp
  have hh44 : ((c :: s2) ++ payloadSection true d).head? ≠ some 44 := by simp [hc44]
  have hh59 : ((c :: s2) ++ payloadSection true d).head? ≠ some 59 := by simp [hc59]
  have hidx : bytesIndex ((c :: s2) ++ payloadSection true d) base64Marker =
      (((c :: s2).length : Nat) : Int) := by
    unfold bytesIndex
    rw [hskip 0]
    have : payloadSection true d = base64Marker ++ 44 :: b64encode d := rfl
    rw [this, indexFrom_prefix _ _ (by decide)]
    simp
  have hpos : bytesIndex ((c :: s2) ++ payloadSection true d) base64Marker > 0 := by
    rw [hidx]
    simp
  rw [Parse_header ext sched _ (c :: s2).length true hne2 hh44 hh59
    (by rw [if_pos hpos, hidx]) (decide_eq_true hpos), List.take_left, List.drop_left]
  cases hp : ext.ParseMediaType (c :: s2) with
  | none => rfl
  | some tp =>
    obtain ⟨typ, params⟩ := tp
    simp only
    cases hr : rangeParams sched (mapKeys params) params with
    | error e => rfl
    | ok params2 =>
      simp only [if_true]
      exact parse_payloadSection_base64 _ d hd

/-- What a successful `Parse` of `data:`, a header `s` and a payload section
written by `Encode` implies when it returns the payload `d`: the payload is not
empty, and either there is no header, or the header is the text the grammar
parser saw. -/
theorem Parse_assembled_inv (ext : Mime) (sched : Schedule) (s d : Bytes) (b : Bool) (u : URL)
    (h : Parse ext sched (scheme ++ (s ++ payloadSection b d)) = .ok u) (hdata : u.Data = d) :
    d ≠ [] ∧
      ((s = [] ∧ u.MediaType = defaultMediaType) ∨
        (s.head? ≠ some 44 ∧ s.head? ≠ some 59 ∧ ¬ base64Marker <:+: s ∧
          (b = false → (44 : Byte) ∉ s) ∧
          ∃ typ params params2, ext.ParseMediaType s = some (typ, params) ∧
            rangeParams sched (mapKeys params) params = .ok params2 ∧
            u.MediaType = { Typ := typ, Params := params2 })) := by
  have hmne : base64Marker ≠ [] := by decide
  have hw : s ++ payloadSection b d =
      (s ++ (if b = true then base64Marker else [])) ++
        44 :: (if b = true then b64encode d else (d.map escapeByte).flatten) := by
    rw [payloadSection_eq, List.append_assoc]
  have henc := comma_not_mem_encoded b d
  generalize hwdef : s ++ payloadSection b d = w at h hw
  generalize hencdef : (if b = true then b64encode d else (d.map escapeByte).flatten) = enc
    at hw henc
  have hdne : enc ≠ [] → d ≠ [] := by
    intro hn
    rw [← hencdef] at hn
    exact encoded_ne_nil_imp b d hn
  have hwne : w ≠ [] := by
    rw [hw]
    simp
  by_cases h44 : w.head? = some 44
  · -- `data:,...`: literal payload, no header
    rw [Parse_scheme, if_neg (by
      cases w with
      | nil => exact absurd rfl hwne
      | cons a t => simp), if_pos h44] at h
    obtain ⟨t, ht, htne, hc, hlit, _⟩ := parseData_ok_inv h
    have hu : ([] : Bytes) ++ 44 :: t = (s ++ (if b = true then base64Marker else [])) ++ 44 :: enc := by
      rw [List.nil_append, ← ht, hw]
    obtain ⟨hpre, hte⟩ := append_cons_unique hu hc henc
    have hs : s = [] := (List.append_eq_nil.mp hpre.symm).1
    refine ⟨hdne (hte ▸ htne), Or.inl ⟨hs, parseData_mediaType h⟩⟩
  by_cases h59 : w.head? = some 59
  · -- `data:;...`: the marker must follow, no header
    rw [Parse_scheme, if_neg (by
      cases w with
      | nil => exact absurd rfl hwne
      | cons a t => simp), if_neg h44, if_pos h59] at h
    obtain ⟨t, ht, htne, hc, hb64⟩ := parseBase64Marker_ok_inv h
    have hu : base64Marker ++ 44 :: t =
        (s ++ (if b = true then base64Marker else [])) ++ 44 :: enc := by
      rw [← ht, hw]
    obtain ⟨hpre, hte⟩ := append_cons_unique hu hc henc
    have hd : d ≠ [] := hdne (hte ▸ htne)
    cases b with
    | false =>
      exfalso
      simp only [Bool.false_eq_true, if_false] at hencdef
      rw [hte, ← hencdef, hdata] at hb64
      exact b64decode_escaped_ne d hd hb64
    | true =>
      simp only [if_true] at hpre
      have hs : s = [] := by
        have := congrArg List.length hpre
        simp only [List.length_append] at this
        exact List.length_eq_zero.mp (by omega)
      exact ⟨hd, Or.inl ⟨hs, parseBase64Marker_mediaType h⟩⟩
  -- a header is present
  have hsne : s ≠ [] := by
    intro e
    cases b with
    | false =>
      apply h44
      rw [hw, e]
      rfl
    | true =>
      apply h59
      rw [hw, e]
      rfl
  obtain ⟨c0, s2, hs2⟩ := List.exists_cons_of_ne_nil hsne
  have hhead : w.head? = s.head? := by
    rw [hw, hs2]
    rfl
  have hsub : base64Marker <:+: s → base64Marker <:+: w := by
    intro hi
    rw [hw, List.append_assoc]
    exact List.IsInfix.trans hi (List.infix_append' [] s _)
  have hsplit : ∀ n, w = w.take n ++ w.drop n := fun n => (List.take_append_drop n w).symm
  rcases indexFrom_spec base64Marker hmne w 0 with ⟨hidx, hno⟩ | ⟨i, hidx, hfirst⟩
  · -- no marker: the first comma ends the header
    have hpos : ¬ bytesIndex w base64Marker > 0 := by
      unfold bytesIndex
      rw [hidx]
      decide
    rcases indexByteFrom_spec 44 w 0 with ⟨_, hnc⟩ | ⟨n, hn, hbefore, t0, hdrop⟩
    · exfalso
      apply hnc
      rw [hw]
      simp
    · have hcut : (if bytesIndex w base64Marker > 0 then bytesIndex w base64Marker
          else indexByte w 44) = (n : Int) := by
        rw [if_neg hpos]
        unfold indexByte
        rw [hn, Nat.zero_add]
      rw [Parse_header ext sched w n false hwne h44 h59 hcut (decide_eq_false hpos)] at h
      split at h
      · exact Except.noConfusion h
      · rename_i typ params hparse
        split at h
        · exact Except.noConfusion h
        · rename_i params2 hrange
          simp only [Bool.false_eq_true, if_false] at h
          obtain ⟨t, ht, htne, hc, hlit, _⟩ := parseData_ok_inv h
          have hu : w.take n ++ 44 :: t =
              (s ++ (if b = true then base64Marker else [])) ++ 44 :: enc := by
            rw [← ht, ← hsplit n, ← hw]
          obtain ⟨hpre, hte⟩ := append_cons_unique hu hc henc
          cases b with
          | true =>
            exfalso
            apply hno
            rw [hw]
            simp only [if_true]
            exact ⟨s, 44 :: enc, by simp⟩
          | false =>
            simp only [Bool.false_eq_true, if_false, List.append_nil] at hpre
            rw [hpre] at hparse hbefore
            refine ⟨hdne (hte ▸ htne), Or.inr ⟨hhead ▸ h44, hhead ▸ h59,
              fun hi => hno (hsub hi), fun _ => hbefore, typ, params, params2, hparse, hrange,
              parseData_mediaType h⟩⟩
  · -- the first marker ends the header
    have hipos : 0 < i := by
      rcases Nat.eq_zero_or_pos i with h0 | h0
      · exfalso
        subst h0
        obtain ⟨t, ht⟩ := hfirst.1
        rw [List.drop_zero, base64Marker_eq] at ht
        apply h59
        rw [← ht]
        rfl
      · exact h0
    have hidx2 : bytesIndex w base64Marker = (i : Int) := by
      unfold bytesIndex
      rw [hidx, Nat.zero_add]
    have hpos : bytesIndex w base64Marker > 0 := by
      rw [hidx2]
      exact_mod_cast hipos
    rw [Parse_header ext sched w i true hwne h44 h59 (by rw [if_pos hpos, hidx2])
      (decide_eq_true hpos)] at h
    split at h
    · exact Except.noConfusion h
    · rename_i typ params hparse
      split at h
      · exact Except.noConfusion h
      · rename_i params2 hrange
        simp only [if_true] at h
        obtain ⟨t, ht, htne, hc, hb64⟩ := parseBase64Marker_ok_inv h
        have hu : (w.take i ++ base64Marker) ++ 44 :: t =
            (s ++ (if b = true then base64Marker else [])) ++ 44 :: enc := by
          rw [List.append_assoc, ← ht, ← hsplit i, ← hw]
        obtain ⟨hpre, hte⟩ := append_cons_unique hu hc henc
        have hd : d ≠ [] := hdne (hte ▸ htne)
        cases b with
        | false =>
          exfalso
          simp only [Bool.false_eq_true, if_false] at hencdef
          rw [hte, ← hencdef, hdata] at hb64
          exact b64decode_escaped_ne d hd hb64
        | true =>
          simp only [if_true] at hpre
          have hs : w.take i = s := List.append_cancel_right hpre
          rw [hs] at hparse
          refine ⟨hd, Or.inr ⟨hhead ▸ h44, hhead ▸ h59, ?_, fun e => Bool.noConfusion e,
            typ, params, params2, hparse, hrange, parseBase64Marker_mediaType h⟩⟩
          rintro ⟨a, r, har⟩
          have hlen : a.length < i := by
            have h1 : s.length ≤ i := by
              rw [← hs]
              exact List.length_take_le i w
            have h2 := congrArg List.length har
            simp only [List.length_append] at h2
            have h3 : base64Marker.length = 7 := rfl
            omega
          apply hfirst.2 a.length hlen
          rw [hw, ← har]
          simp only [if_true, List.append_assoc, List.drop_left]
          exact List.prefix_append _ _

/-! ## Claims on the round trip through `Encode` and `Parse` -/

/-- C1 (amended): for every byte sequence `d` and every list of options that
`Encode` accepts, writing the media type string `s`: `Encode` succeeds with
some output `u`, and `Parse(u)` succeeds with `Data` equal to `d` exactly when
`d` is not empty and `s` either is empty or begins with neither `,` nor `;`,
contains no `;base64`, contains no `,` unless the payload is written in
base64, and is accepted by the media-type grammar parser with parameters on
which the unescape pass of `Parse` succeeds. -/
theorem C1_payload_roundtrip (ext : Mime) (sched : Schedule) (d : Bytes)
    (options : List EncodeOption) (s : Bytes)
    (hs : resolveMediaType ext d (applyOptions options).mt (applyOptions options).params =
      .ok s) :
    (∃ u url, Encode ext d options = .ok u ∧ Parse ext sched u = .ok url ∧ url.Data = d) ↔
      d ≠ [] ∧
        (s = [] ∨
          (s.head? ≠ some 44 ∧ s.head? ≠ some 59 ∧ ¬ base64Marker <:+: s ∧
            (usesBase64 (applyOptions options) s = false → (44 : Byte) ∉ s) ∧
            ∃ typ params params2, ext.ParseMediaType s = some (typ, params) ∧
              rangeParams sched (mapKeys params) params = .ok params2)) := by
  have henc := Encode_of_resolve ext d options s hs
  constructor
  · rintro ⟨u, url, hu, hp, hdata⟩
    rw [henc] at hu
    cases hu
    obtain ⟨hd, h | ⟨h1, h2, h3, h4, typ, params, params2, h5, h6, _⟩⟩ :=
      Parse_assembled_inv ext sched s d _ url hp hdata
    · exact ⟨hd, Or.inl h.1⟩
    · exact ⟨hd, Or.inr ⟨h1, h2, h3, h4, typ, params, params2, h5, h6⟩⟩
  · rintro ⟨hd, h | ⟨h1, h2, h3, h4, typ, params, params2, h5, h6⟩⟩
    · subst h
      exact ⟨_, _, henc, Parse_assembled_nil ext sched d _ hd, rfl⟩
    · by_cases hne : s = []
      · subst hne
        exact ⟨_, _, henc, Parse_assembled_nil ext sched d _ hd, rfl⟩
      · refine ⟨_, { MediaType := { Typ := typ, Params := params2 }, Data := d }, henc, ?_, rfl⟩
        cases hb : usesBase64 (applyOptions options) s with
        | true =>
          rw [Parse_assembled_base64 ext sched s d hd hne h1 h3 h2, h5]
          simp only [h6]
        | false =>
          rw [Parse_assembled ext sched s d false hd hne (h4 hb) h3 h2, h5]
          simp only [h6]

/-- C1, witness: the payload `hello, world!` with the explicit media type
`text/plain;charset=utf-8`, written literally, and the payload `x` with the
media type `application/json;a="b,c"`, written in base64 (the comma in the
media type does no harm there). -/
theorem C1_payload_roundtrip_witness :
    (∃ u url, Encode stdlib (ascii "hello, world!")
        [.WithMediaType (ascii "text/plain;charset=utf-8")] = .ok u ∧
      Parse stdlib [] u = .ok url ∧ url.Data = ascii "hello, world!") ∧
    (∃ u url, Encode stdlib (ascii "x")
        [.WithMediaType (ascii "application/json;a=\"b,c\"")] = .ok u ∧
      Parse stdlib [] u = .ok url ∧ url.Data = ascii "x") :=
  ⟨(C1_payload_roundtrip stdlib [] (ascii "hello, world!")
      [.WithMediaType (ascii "text/plain;charset=utf-8")] (ascii "text/plain;charset=utf-8")
      (by decide)).mpr
      ⟨by decide, Or.inr ⟨by decide, by decide, by decide, fun _ => by decide,
        ascii "text/plain", [(ascii "charset", ascii "utf-8")],
        [(ascii "charset", ascii "utf-8")], by decide, by decide⟩⟩,
    (C1_payload_roundtrip stdlib [] (ascii "x")
      [.WithMediaType (ascii "application/json;a=\"b,c\"")]
      (ascii "application/json;a=\"b,c\"") (by decide)).mpr
      ⟨by decide, Or.inr ⟨by decide, by decide, by decide,
        fun h => absurd h (by decide),
        ascii "application/json", [(ascii "a", ascii "b,c")],
        [(ascii "a", ascii "b,c")], by decide, by decide⟩⟩⟩

/-- C1, counterexample: payloads and media types that `Encode` accepts and
whose output `Parse` rejects.  The empty payload (the data section after the
comma must hold at least one byte); a media type with a `,` inside a quoted
parameter value, written literally (the header is cut at the first comma); a
media type with a parameter named `base64` (its `;base64` is taken for the
marker); a media type with a `%` in a parameter value that is no escape
sequence. -/
theorem C1_counterexample :
    (Encode stdlib [] [.WithMediaType (ascii "text/plain")] = .ok (ascii "data:text/plain,") ∧
      Parse stdlib [] (ascii "data:text/plain,") = .error .invalidDataSection) ∧
    (Encode stdlib (ascii "x") [.WithMediaType (ascii "text/plain;a=\"b,c\"")] =
        .ok (ascii "data:text/plain;a=\"b,c\",x") ∧
      Parse stdlib [] (ascii "data:text/plain;a=\"b,c\",x") =
        .error (.mediaType (ascii "text/plain;a=\"b"))) ∧
    (Encode stdlib (ascii "x") [.WithMediaType (ascii "text/plain;base64=1")] =
        .ok (ascii "data:text/plain;base64=1,x") ∧
      Parse stdlib [] (ascii "data:text/plain;base64=1,x") = .error .invalidDataSection) ∧
    (Encode stdlib (ascii "x") [.WithMediaType (ascii "text/plain;a=%")] =
        .ok (ascii "data:text/plain;a=%,x") ∧
      Parse stdlib [] (ascii "data:text/plain;a=%,x") =
        .error (.paramValue (ascii "a") (.unexpectedEnd 0))) := by
  decide

set_option maxRecDepth 100000 in
theorem toLower_byte_percent : ∀ c : Byte,
    (if 65 ≤ c.val ∧ c.val ≤ 90 then (Fin.ofNat (c.val + 32) : Byte) else c) = 37 → c = 37 := by
  decide

theorem percent_not_mem_toLower (k : Bytes) (h : (37 : Byte) ∉ k) : (37 : Byte) ∉ toLower k := by
  intro hm
  unfold toLower at hm
  obtain ⟨c, hc, he⟩ := List.mem_map.mp hm
  exact h (toLower_byte_percent c he ▸ hc)

theorem percent_not_mem_lowerNames (p : Params)
    (h : ∀ kv ∈ p, (37 : Byte) ∉ kv.1 ∧ (37 : Byte) ∉ kv.2) :
    ∀ kv ∈ lowerNames p, (37 : Byte) ∉ kv.1 ∧ (37 : Byte) ∉ kv.2 := by
  intro kv hkv
  unfold lowerNames at hkv
  obtain ⟨kv0, h0, rfl⟩ := List.mem_map.mp hkv
  exact ⟨percent_not_mem_toLower _ (h kv0 h0).1, (h kv0 h0).2⟩


/-! ## The reference parser reads back what the reference formatter writes

For a type that is a token or two tokens joined by `/` and parameters whose
names and values are tokens, the reference model of `mime.ParseMediaType`
returns, from the text of `mime.FormatMediaType` without the blanks after the
semicolons, the lower-cased type and the parameters under lower-cased names. -/

set_option maxRecDepth 100000 in
theorem isTokenChar_facts : ∀ c : Byte, isTokenChar c = true →
    c ≠ 59 ∧ c ≠ 32 ∧ c ≠ 61 ∧ c ≠ 34 ∧ isSpace c = false ∧
      ((decide (c.val < 32) || decide (c.val > 126)) && decide (c.val ≠ 9)) = false ∧
      isTokenChar (if 65 ≤ c.val ∧ c.val ≤ 90 then (Fin.ofNat (c.val + 32) : Byte) else c) = true := by
  decide

theorem isToken_iff (s : Bytes) :
    isToken s = true ↔ s ≠ [] ∧ ∀ c ∈ s, isTokenChar c = true := by
  unfold isToken
  simp only [Bool.and_eq_true, decide_eq_true_eq, List.all_eq_true]

theorem isToken_toLower {s : Bytes} (h : isToken s = true) : isToken (toLower s) = true := by
  rw [isToken_iff] at h ⊢
  refine ⟨?_, ?_⟩
  · intro e
    apply h.1
    unfold toLower at e
    exact List.map_eq_nil_iff.mp e
  · intro c hc
    unfold toLower at hc
    obtain ⟨c0, hc0, rfl⟩ := List.mem_map.mp hc
    exact (isTokenChar_facts c0 (h.2 c0 hc0)).2.2.2.2.2.2

theorem needsEncoding_token {s : Bytes} (h : isToken s = true) : needsEncoding s = false := by
  rw [isToken_iff] at h
  unfold needsEncoding
  rw [List.any_eq_false]
  intro c hc
  rw [(isTokenChar_facts c (h.2 c hc)).2.2.2.2.2.1]
  exact Bool.false_ne_true

theorem formatParams_tokens (p : Params) :
    ∀ (ks : List Bytes) (b : Bytes),
      (∀ k ∈ ks, isToken k = true ∧ isToken ((mapGet p k).getD []) = true) →
      formatParams p ks b = some (b ++ tokenParams [32] p ks) := by
  intro ks
  induction ks with
  | nil =>
    intro b _
    simp [formatParams, tokenParams]
  | cons k ks ih =>
    intro b h
    obtain ⟨hk, hv⟩ := h k (List.mem_cons_self _ _)
    unfold formatParams
    simp only [hk, Bool.not_true, Bool.false_eq_true, if_false, needsEncoding_token hv, hv,
      if_true]
    rw [ih _ (fun k2 hk2 => h k2 (List.mem_cons_of_mem _ hk2))]
    simp [tokenParams]

theorem insertSorted_perm (k : Bytes) (xs : List Bytes) : (insertSorted k xs).Perm (k :: xs) := by
  induction xs with
  | nil => exact List.Perm.refl _
  | cons x xs ih =>
    unfold insertSorted
    split
    · exact List.Perm.refl _
    · exact (List.Perm.cons x ih).trans (List.Perm.swap k x xs)

theorem sortStrings_perm (ks : List Bytes) : (sortStrings ks).Perm ks := by
  induction ks with
  | nil => exact List.Perm.refl _
  | cons k ks ih =>
    have h : sortStrings (k :: ks) = insertSorted k (sortStrings ks) := rfl
    rw [h]
    exact (insertSorted_perm k _).trans (List.Perm.cons k ih)

theorem toLower_append (a b : Bytes) : toLower (a ++ b) = toLower a ++ toLower b := by
  unfold toLower
  exact List.map_append _ _ _

theorem toLower_slash : toLower [47] = [47] := by decide

theorem isPrimarySubtype_split {t : Bytes} (h : isPrimarySubtype t = true) :
    ∃ a b, t = a ++ 47 :: b ∧ isToken a = true ∧ isToken b = true ∧
      t.takeWhile (fun c => decide (c ≠ 47)) = a ∧
      (t.dropWhile (fun c => decide (c ≠ 47))).drop 1 = b := by
  unfold isPrimarySubtype at h
  simp only [Bool.and_eq_true, decide_eq_true_eq] at h
  obtain ⟨⟨h1, h2⟩, h3⟩ := h
  have hs := (List.takeWhile_append_dropWhile (fun c => decide (c ≠ 47)) t).symm
  cases hd : t.dropWhile (fun c => decide (c ≠ 47)) with
  | nil =>
    rw [hd] at h2
    exact Option.noConfusion h2
  | cons x r =>
    rw [hd] at h2 h3 hs
    simp only [List.head?_cons, Option.some.injEq] at h2
    subst h2
    simp only [List.drop_succ_cons, List.drop_zero] at h3
    exact ⟨_, r, hs, h1, h3, rfl, rfl⟩

theorem goFormatMediaType_tokens (t : Bytes) (p : Params)
    (ht : isToken t = true ∨ isPrimarySubtype t = true)
    (hp : ∀ kv ∈ p, isToken kv.1 = true ∧ isToken kv.2 = true)
    (hnd : (mapKeys p).Nodup) :
    goFormatMediaType t p = toLower t ++ tokenParams [32] p (sortStrings (mapKeys p)) := by
  have hks : ∀ k ∈ sortStrings (mapKeys p),
      isToken k = true ∧ isToken ((mapGet p k).getD []) = true := by
    intro k hk
    have hk2 : k ∈ mapKeys p := (sortStrings_perm _).mem_iff.mp hk
    unfold mapKeys at hk2
    obtain ⟨kv, hkv, rfl⟩ := List.mem_map.mp hk2
    have hg : mapGet p kv.1 = some kv.2 := (mapGet_eq_some_iff p hnd kv.1 kv.2).mpr hkv
    rw [hg]
    exact hp kv hkv
  unfold goFormatMediaType
  simp only []
  rcases ht with ht | ht
  · have h47 : (47 : Byte) ∉ t := by
      intro hm
      exact isTokenChar_ne_slash 47 (((isToken_iff t).mp ht).2 47 hm) rfl
    simp only [h47, not_false_eq_true, if_true, ht, Bool.not_true, Bool.false_eq_true, if_false]
    rw [formatParams_tokens p _ _ hks]
    rfl
  · obtain ⟨a, b, hab, ha, hb, hta, htb⟩ := isPrimarySubtype_split ht
    have h47 : (47 : Byte) ∈ t := by
      rw [hab]
      simp
    simp only [h47, not_true_eq_false, if_false, hta, htb, ha, hb, Bool.not_true,
      Bool.false_eq_true, or_self]
    rw [formatParams_tokens p _ _ hks]
    have : toLower a ++ [47] ++ toLower b = toLower t := by
      rw [hab, toLower_append, List.append_assoc]
      rfl
    rw [this]
    rfl

theorem replaceSemicolonSpace_append (x rest : Bytes) (h : (59 : Byte) ∉ x) :
    replaceSemicolonSpace (x ++ rest) = x ++ replaceSemicolonSpace rest := by
  induction x with
  | nil => rfl
  | cons c x2 ih =>
    have hc : c ≠ 59 := fun e => h (by simp [e])
    have ih2 := ih (fun hm => h (List.mem_cons_of_mem _ hm))
    cases hz : x2 ++ rest with
    | nil =>
      have hx2 : x2 = [] := (List.append_eq_nil.mp hz).1
      have hr : rest = [] := (List.append_eq_nil.mp hz).2
      subst hx2
      subst hr
      rfl
    | cons e r =>
      rw [List.cons_append, hz, replaceSemicolonSpace, if_neg (fun hh => hc hh.1), ← hz, ih2]
      rfl

theorem semicolon_not_mem_token {s : Bytes} (h : isToken s = true) : (59 : Byte) ∉ s := by
  intro hm
  exact (isTokenChar_facts 59 (((isToken_iff s).mp h).2 59 hm)).1 rfl

theorem replaceSemicolonSpace_tokenParams (p : Params) :
    ∀ ks : List Bytes,
      (∀ k ∈ ks, isToken k = true ∧ isToken ((mapGet p k).getD []) = true) →
      replaceSemicolonSpace (tokenParams [32] p ks) = tokenParams [] p ks := by
  intro ks
  induction ks with
  | nil => intro _; rfl
  | cons k ks ih =>
    intro h
    obtain ⟨hk, hv⟩ := h k (List.mem_cons_self _ _)
    have hno : (59 : Byte) ∉ toLower k ++ 61 :: (mapGet p k).getD [] := by
      intro hm
      rcases List.mem_append.mp hm with hm | hm
      · exact semicolon_not_mem_token (isToken_toLower hk) hm
      · rcases List.mem_cons.mp hm with hm | hm
        · exact absurd hm (by decide)
        · exact semicolon_not_mem_token hv hm
    have h1 : tokenParams [32] p (k :: ks) =
        59 :: 32 :: ((toLower k ++ 61 :: (mapGet p k).getD []) ++ tokenParams [32] p ks) := by
      simp [tokenParams]
    have h2 : tokenParams [] p (k :: ks) =
        59 :: ((toLower k ++ 61 :: (mapGet p k).getD []) ++ tokenParams [] p ks) := by
      simp [tokenParams]
    rw [h1, h2, replaceSemicolonSpace, if_pos ⟨rfl, rfl⟩, replaceSemicolonSpace_append _ _ hno,
      ih (fun k2 hk2 => h k2 (List.mem_cons_of_mem _ hk2))]

theorem dropWhile_eq_self {α : Type} (p : α → Bool) (l : List α)
    (h : ∀ x ∈ l.head?, p x = false) : l.dropWhile p = l := by
  cases l with
  | nil => rfl
  | cons a t =>
    have ha : p a = false := h a rfl
    simp [List.dropWhile, ha]

theorem trimSpace_eq_self (v : Bytes) (h : ∀ c ∈ v, isSpace c = false) : trimSpace v = v := by
  unfold trimSpace trimLeft
  rw [dropWhile_eq_self isSpace v (fun x hx => h x (List.mem_of_mem_head? hx)),
    dropWhile_eq_self isSpace v.reverse (fun x hx =>
      h x (List.mem_reverse.mp (List.mem_of_mem_head? hx))),
    List.reverse_reverse]

theorem consumeToken_append (a rest : Bytes) (ha : ∀ c ∈ a, isTokenChar c = true)
    (hr : ∀ x ∈ rest.head?, isTokenChar x = false) : consumeToken (a ++ rest) = (a, rest) := by
  unfold consumeToken
  cases rest with
  | nil =>
    rw [List.append_nil]
    have h1 : a.takeWhile isTokenChar = a := List.takeWhile_eq_self_iff.mpr ha
    have h2 : a.dropWhile isTokenChar = [] := List.dropWhile_eq_nil_iff.mpr ha
    rw [h1, h2]
  | cons x r =>
    have hx : isTokenChar x = false := hr x rfl
    obtain ⟨h1, h2⟩ := takeWhile_dropWhile_append_stop isTokenChar a x r ha hx
    rw [h1, h2]

set_option maxRecDepth 100000 in
theorem toLower_byte_idem : ∀ c : Byte,
    (fun c : Byte => if 65 ≤ c.val ∧ c.val ≤ 90 then (Fin.ofNat (c.val + 32) : Byte) else c)
      (if 65 ≤ c.val ∧ c.val ≤ 90 then (Fin.ofNat (c.val + 32) : Byte) else c) =
      (if 65 ≤ c.val ∧ c.val ≤ 90 then (Fin.ofNat (c.val + 32) : Byte) else c) := by
  decide

theorem toLower_idem (s : Bytes) : toLower (toLower s) = toLower s := by
  unfold toLower
  rw [List.map_map]
  apply List.map_congr_left
  intro c _
  exact toLower_byte_idem c

set_option maxRecDepth 100000 in
theorem toLower_byte_star : ∀ c : Byte,
    (if 65 ≤ c.val ∧ c.val ≤ 90 then (Fin.ofNat (c.val + 32) : Byte) else c) = 42 → c = 42 := by
  decide

theorem star_not_mem_toLower (k : Bytes) (h : (42 : Byte) ∉ k) : (42 : Byte) ∉ toLower k := by
  intro hm
  unfold toLower at hm
  obtain ⟨c, hc, he⟩ := List.mem_map.mp hm
  exact h (toLower_byte_star c he ▸ hc)

/-- One parameter `;name=value` with a lower-case token as name and a token
as value, followed by nothing or by a further `;`. -/
theorem consumeMediaParam_token (key value rest : Bytes) (hk : isToken key = true)
    (hkl : toLower key = key) (hv : isToken value = true)
    (hr : ∀ x ∈ rest.head?, x = 59) :
    consumeMediaParam (59 :: (key ++ 61 :: (value ++ rest))) = some (key, value, rest) := by
  obtain ⟨hkne, hkall⟩ := (isToken_iff key).mp hk
  obtain ⟨hvne, hvall⟩ := (isToken_iff value).mp hv
  obtain ⟨k0, k1, rfl⟩ := List.exists_cons_of_ne_nil hkne
  obtain ⟨v0, v1, rfl⟩ := List.exists_cons_of_ne_nil hvne
  have hk0 := isTokenChar_facts k0 (hkall k0 (List.mem_cons_self _ _))
  have hv0 := isTokenChar_facts v0 (hvall v0 (List.mem_cons_self _ _))
  have hrest : ∀ x ∈ rest.head?, isTokenChar x = false := by
    intro x hx
    rw [hr x hx]
    decide
  have h1 : trimLeft (59 :: ((k0 :: k1) ++ 61 :: ((v0 :: v1) ++ rest))) =
      59 :: ((k0 :: k1) ++ 61 :: ((v0 :: v1) ++ rest)) :=
    dropWhile_eq_self isSpace _ (fun x hx => by
      simp only [List.head?_cons, Option.mem_def, Option.some.injEq] at hx
      subst hx
      decide)
  have h2 : trimLeft ((k0 :: k1) ++ 61 :: ((v0 :: v1) ++ rest)) =
      (k0 :: k1) ++ 61 :: ((v0 :: v1) ++ rest) :=
    dropWhile_eq_self isSpace _ (fun x hx => by
      simp only [List.cons_append, List.head?_cons, Option.mem_def, Option.some.injEq] at hx
      subst hx
      exact hk0.2.2.2.2.1)
  have h3 : consumeToken ((k0 :: k1) ++ 61 :: ((v0 :: v1) ++ rest)) =
      (k0 :: k1, 61 :: ((v0 :: v1) ++ rest)) :=
    consumeToken_append _ _ hkall (fun x hx => by
      simp only [List.head?_cons, Option.mem_def, Option.some.injEq] at hx
      subst hx
      decide)
  have h4 : trimLeft (61 :: ((v0 :: v1) ++ rest)) = 61 :: ((v0 :: v1) ++ rest) :=
    dropWhile_eq_self isSpace _ (fun x hx => by
      simp only [List.head?_cons, Option.mem_def, Option.some.injEq] at hx
      subst hx
      decide)
  have h5 : trimLeft ((v0 :: v1) ++ rest) = (v0 :: v1) ++ rest :=
    dropWhile_eq_self isSpace _ (fun x hx => by
      simp only [List.cons_append, List.head?_cons, Option.mem_def, Option.some.injEq] at hx
      subst hx
      exact hv0.2.2.2.2.1)
  have h6 : consumeValue ((v0 :: v1) ++ rest) = (v0 :: v1, rest) := by
    have := consumeToken_append (v0 :: v1) rest hvall hrest
    rw [List.cons_append] at this ⊢
    unfold consumeValue
    simp only [hv0.2.2.2.1, ne_eq, not_false_eq_true, if_true]
    exact this
  unfold consumeMediaParam
  rw [h1]
  simp only [ne_eq, not_true_eq_false, if_false, h2, h3, hkl, h4, h5, h6]
  simp

theorem mapSet_of_mapGet_none (m : Params) (k v : Bytes) (h : mapGet m k = none) :
    mapSet m k v = m ++ [(k, v)] := by
  induction m with
  | nil => rfl
  | cons e rest ih =>
    obtain ⟨k2, v2⟩ := e
    unfold mapGet at h
    split at h
    · exact Option.noConfusion h
    · rename_i hk
      unfold mapSet
      rw [if_neg hk, ih h]
      rfl

theorem tokenParams_head (p : Params) (ks : List Bytes) :
    ∀ x ∈ (tokenParams [] p ks).head?, x = 59 := by
  intro x hx
  cases ks with
  | nil => exact Option.noConfusion hx
  | cons k ks2 =>
    simp only [tokenParams, List.map_cons, List.flatten_cons, List.nil_append,
      List.cons_append, List.head?_cons, Option.mem_def, Option.some.injEq] at hx
    exact hx.symm

theorem tokenParams_length (p : Params) (ks : List Bytes) :
    ks.length ≤ (tokenParams [] p ks).length := by
  induction ks with
  | nil => exact Nat.zero_le _
  | cons k ks2 ih =>
    simp only [tokenParams, List.map_cons, List.flatten_cons, List.nil_append,
      List.cons_append, List.length_cons, List.length_append] at ih ⊢
    omega

/-- The parameter loop of the reference parser on parameters in the form
`;name=value` with token names and values, the lower-cased names distinct and
none of them yet in the map. -/
theorem parseMediaParams_tokenParams (p : Params) :
    ∀ (ks : List Bytes) (params : Params) (fuel : Nat), ks.length < fuel →
      (∀ k ∈ ks, isToken k = true ∧ (42 : Byte) ∉ k ∧ isToken ((mapGet p k).getD []) = true) →
      (ks.map toLower).Nodup →
      (∀ k ∈ ks, mapGet params (toLower k) = none) →
      parseMediaParams fuel (tokenParams [] p ks) params =
        some (params ++ ks.map (fun k => (toLower k, (mapGet p k).getD []))) := by
  intro ks
  induction ks with
  | nil =>
    intro params fuel hf _ _ _
    obtain ⟨f, rfl⟩ : ∃ f, fuel = f + 1 := ⟨fuel - 1, by omega⟩
    simp [parseMediaParams, tokenParams, trimLeft]
  | cons k ks ih =>
    intro params fuel hf h hnd hnew
    obtain ⟨f, rfl⟩ : ∃ f, fuel = f + 1 := ⟨fuel - 1, by omega⟩
    obtain ⟨hk, hstar, hv⟩ := h k (List.mem_cons_self _ _)
    have hS : tokenParams [] p (k :: ks) =
        59 :: (toLower k ++ 61 :: ((mapGet p k).getD [] ++ tokenParams [] p ks)) := by
      simp [tokenParams]
    have htrim : trimLeft (tokenParams [] p (k :: ks)) = tokenParams [] p (k :: ks) := by
      rw [hS]
      exact dropWhile_eq_self isSpace _ (fun x hx => by
        simp only [List.head?_cons, Option.mem_def, Option.some.injEq] at hx
        subst hx
        decide)
    have hcons := consumeMediaParam_token (toLower k) ((mapGet p k).getD [])
      (tokenParams [] p ks) (isToken_toLower hk) (toLower_idem k) hv (tokenParams_head p ks)
    have hnd2 : (ks.map toLower).Nodup := (List.nodup_cons.mp hnd).2
    have hnotin : toLower k ∉ ks.map toLower := (List.nodup_cons.mp hnd).1
    have hnew2 : ∀ k2 ∈ ks,
        mapGet (mapSet params (toLower k) ((mapGet p k).getD [])) (toLower k2) = none := by
      intro k2 hk2
      have hne : toLower k2 ≠ toLower k := fun e => hnotin (e ▸ List.mem_map_of_mem toLower hk2)
      rw [mapGet_mapSet, if_neg hne]
      exact hnew k2 (List.mem_cons_of_mem _ hk2)
    have hrec := ih (mapSet params (toLower k) ((mapGet p k).getD [])) f
      (by simp only [List.length_cons] at hf; omega)
      (fun k2 hk2 => h k2 (List.mem_cons_of_mem _ hk2)) hnd2 hnew2
    have hget : mapGet params (toLower k) = none := hnew k (List.mem_cons_self _ _)
    unfold parseMediaParams
    simp only [htrim]
    rw [if_neg (by rw [hS]; exact List.cons_ne_nil _ _)]
    rw [hS, hcons]
    simp only [star_not_mem_toLower k hstar, if_false, hget, Option.isSome_none,
      Bool.false_eq_true]
    rw [hrec, mapSet_of_mapGet_none params _ _ hget]
    simp

theorem checkMediaTypeDisposition_of_form (t : Bytes)
    (ht : isToken t = true ∨ isPrimarySubtype t = true) :
    checkMediaTypeDisposition t = true := by
  unfold checkMediaTypeDisposition
  rcases ht with ht | ht
  · obtain ⟨hne, hall⟩ := (isToken_iff t).mp ht
    have h := consumeToken_append t [] hall (fun x hx => Option.noConfusion hx)
    rw [List.append_nil] at h
    rw [h]
    simp only [hne, if_false]
  · obtain ⟨a, b, hab, ha, hb, _, _⟩ := isPrimarySubtype_split ht
    obtain ⟨hane, haall⟩ := (isToken_iff a).mp ha
    obtain ⟨hbne, hball⟩ := (isToken_iff b).mp hb
    have h1 := consumeToken_append a (47 :: b) haall (fun x hx => by
      simp only [List.head?_cons, Option.mem_def, Option.some.injEq] at hx
      subst hx
      decide)
    have h2 := consumeToken_append b [] hball (fun x hx => Option.noConfusion hx)
    rw [List.append_nil] at h2
    rw [hab, h1]
    simp only [hane, if_false, ne_eq, not_true_eq_false, h2, hbne, decide_True]

theorem form_toLower (t : Bytes) (ht : isToken t = true ∨ isPrimarySubtype t = true) :
    (isToken (toLower t) = true ∨ isPrimarySubtype (toLower t) = true) ∧
      ∀ c ∈ toLower t, isTokenChar c = true ∨ c = 47 := by
  rcases ht with ht | ht
  · have hl := isToken_toLower ht
    exact ⟨Or.inl hl, fun c hc => Or.inl (((isToken_iff _).mp hl).2 c hc)⟩
  · obtain ⟨a, b, hab, ha, hb, _, _⟩ := isPrimarySubtype_split ht
    have hla := isToken_toLower ha
    have hlb := isToken_toLower hb
    have hl : toLower t = toLower a ++ 47 :: toLower b := by
      rw [hab, toLower_append]
      rfl
    refine ⟨Or.inr ?_, ?_⟩
    · have hstop := takeWhile_dropWhile_append_stop (fun c : Byte => decide (c ≠ 47))
        (toLower a) 47 (toLower b)
        (fun y hy => decide_eq_true (isTokenChar_ne_slash y (((isToken_iff _).mp hla).2 y hy)))
        (by decide)
      unfold isPrimarySubtype
      rw [hl, hstop.1, hstop.2]
      simp only [List.head?_cons, decide_True, Bool.and_true, List.drop_succ_cons,
        List.drop_zero, Bool.and_eq_true]
      exact ⟨hla, hlb⟩
    · intro c hc
      rw [hl] at hc
      rcases List.mem_append.mp hc with hc | hc
      · exact Or.inl (((isToken_iff _).mp hla).2 c hc)
      · rcases List.mem_cons.mp hc with hc | hc
        · exact Or.inr hc
        · exact Or.inl (((isToken_iff _).mp hlb).2 c hc)

theorem lowerNames_eq_map_keys (p : Params) (hnd : (mapKeys p).Nodup) :
    lowerNames p = (mapKeys p).map (fun k => (toLower k, (mapGet p k).getD [])) := by
  unfold lowerNames mapKeys
  rw [List.map_map]
  apply List.map_congr_left
  intro kv hkv
  have hg : mapGet p kv.1 = some kv.2 := (mapGet_eq_some_iff p hnd kv.1 kv.2).mpr hkv
  simp only [Function.comp_apply, hg, Option.getD_some]

/-- The reference parser reads back what the reference formatter writes, also
without the blanks after the semicolons: for a type that is a token or two
tokens joined by `/` and parameters whose names and values are tokens, the
names without `*` and distinct after lower-casing, it returns the lower-cased
type and the parameters under lower-cased names. -/
theorem goParseMediaType_formatted (t : Bytes) (p : Params)
    (ht : isToken t = true ∨ isPrimarySubtype t = true)
    (hp : ∀ kv ∈ p, isToken kv.1 = true ∧ (42 : Byte) ∉ kv.1 ∧ isToken kv.2 = true)
    (hnd : ((mapKeys p).map toLower).Nodup) :
    ∃ P, goParseMediaType (replaceSemicolonSpace (goFormatMediaType t p)) =
        some (toLower t, P) ∧ P.Perm (lowerNames p) := by
  have hnd0 : (mapKeys p).Nodup := List.Nodup.of_map _ hnd
  have hperm := sortStrings_perm (mapKeys p)
  have hks : ∀ k ∈ sortStrings (mapKeys p),
      isToken k = true ∧ (42 : Byte) ∉ k ∧ isToken ((mapGet p k).getD []) = true := by
    intro k hk
    have hk2 : k ∈ mapKeys p := hperm.mem_iff.mp hk
    unfold mapKeys at hk2
    obtain ⟨kv, hkv, rfl⟩ := List.mem_map.mp hk2
    have hg : mapGet p kv.1 = some kv.2 := (mapGet_eq_some_iff p hnd0 kv.1 kv.2).mpr hkv
    rw [hg]
    exact hp kv hkv
  obtain ⟨hform, hchars⟩ := form_toLower t ht
  have hno59 : (59 : Byte) ∉ toLower t := by
    intro hm
    rcases hchars 59 hm with h | h
    · exact (isTokenChar_facts 59 h).1 rfl
    · exact absurd h (by decide)
  have hnospace : ∀ c ∈ toLower t, isSpace c = false := by
    intro c hc
    rcases hchars c hc with h | h
    · exact (isTokenChar_facts c h).2.2.2.2.1
    · rw [h]
      decide
  have hS : replaceSemicolonSpace (goFormatMediaType t p) =
      toLower t ++ tokenParams [] p (sortStrings (mapKeys p)) := by
    rw [goFormatMediaType_tokens t p ht (fun kv hkv => ⟨(hp kv hkv).1, (hp kv hkv).2.2⟩) hnd0,
      replaceSemicolonSpace_append _ _ hno59,
      replaceSemicolonSpace_tokenParams p _ (fun k hk => ⟨(hks k hk).1, (hks k hk).2.2⟩)]
  have hbase : (toLower t ++ tokenParams [] p (sortStrings (mapKeys p))).takeWhile
      (fun c => decide (c ≠ 59)) = toLower t := by
    have hall : ∀ c ∈ toLower t, (fun c : Byte => decide (c ≠ 59)) c = true :=
      fun c hc => decide_eq_true (fun e => hno59 (e ▸ hc))
    cases hT : tokenParams [] p (sortStrings (mapKeys p)) with
    | nil =>
      rw [List.append_nil]
      exact List.takeWhile_eq_self_iff.mpr hall
    | cons x r =>
      have hx : x = 59 := tokenParams_head p _ x (by rw [hT]; rfl)
      exact (takeWhile_dropWhile_append_stop _ (toLower t) x r hall (by rw [hx]; decide)).1
  have hloop := parseMediaParams_tokenParams p (sortStrings (mapKeys p)) []
    ((toLower t ++ tokenParams [] p (sortStrings (mapKeys p))).length + 1)
    (by
      have := tokenParams_length p (sortStrings (mapKeys p))
      simp only [List.length_append]
      omega)
    hks ((hperm.map toLower).nodup_iff.mpr hnd) (fun _ _ => rfl)
  refine ⟨(sortStrings (mapKeys p)).map (fun k => (toLower k, (mapGet p k).getD [])), ?_, ?_⟩
  · rw [hS]
    unfold goParseMediaType
    simp only [hbase, toLower_idem, trimSpace_eq_self _ hnospace,
      checkMediaTypeDisposition_of_form _ hform, Bool.not_true, Bool.false_eq_true, if_false,
      List.drop_left, hloop, List.nil_append]
  · rw [lowerNames_eq_map_keys p hnd0]
    exact hperm.map _

set_option maxRecDepth 100000 in
theorem isTokenChar_ne_comma : ∀ c : Byte, isTokenChar c = true → c ≠ 44 := by decide

theorem comma_not_mem_tokenParams (p : Params) :
    ∀ ks : List Bytes,
      (∀ k ∈ ks, isToken k = true ∧ isToken ((mapGet p k).getD []) = true) →
      (44 : Byte) ∉ tokenParams [] p ks := by
  intro ks
  induction ks with
  | nil => intro _ hm; exact absurd hm (List.not_mem_nil _)
  | cons k ks ih =>
    intro h hm
    obtain ⟨hk, hv⟩ := h k (List.mem_cons_self _ _)
    simp only [tokenParams, List.map_cons, List.flatten_cons, List.nil_append, List.cons_append,
      List.mem_cons, List.mem_append] at hm
    rcases hm with hm | hm | hm
    · exact absurd hm (by decide)
    · rcases hm with hm | hm | hm
      · exact isTokenChar_ne_comma 44 (((isToken_iff _).mp (isToken_toLower hk)).2 44 hm) rfl
      · exact absurd hm (by decide)
      · exact isTokenChar_ne_comma 44 (((isToken_iff _).mp hv).2 44 hm) rfl
    · exact ih (fun k2 hk2 => h k2 (List.mem_cons_of_mem _ hk2)) hm

/-- The media type round trip through the reference model of `mime`: for a
non-empty payload, a type that is a token or two tokens joined by `/`, and a
non-empty parameter map whose names and values are tokens without `%`, the
names without `*` and distinct after lower-casing, such that the text `Encode`
writes contains no `;base64`: `Parse` returns the lower-cased type, the
parameters under lower-cased names, and the payload. -/
theorem stdlib_media_type_roundtrip (sched : Schedule) (d t : Bytes) (p : Params)
    (hd : d ≠ []) (hpne : p ≠ [])
    (ht : isToken t = true ∨ isPrimarySubtype t = true)
    (hp : ∀ kv ∈ p, isToken kv.1 = true ∧ (42 : Byte) ∉ kv.1 ∧ isToken kv.2 = true)
    (hpct : ∀ kv ∈ p, (37 : Byte) ∉ kv.1 ∧ (37 : Byte) ∉ kv.2)
    (hnd : ((mapKeys p).map toLower).Nodup)
    (hmarker : ¬ base64Marker <:+: replaceSemicolonSpace (goFormatMediaType t p)) :
    ∃ u P, Encode stdlib d [.WithMediaType t, .WithMediaTypeParams p] = .ok u ∧
      Parse stdlib sched u = .ok { MediaType := { Typ := toLower t, Params := P }, Data := d } ∧
      P.Perm (lowerNames p) := by
  have hnd0 : (mapKeys p).Nodup := List.Nodup.of_map _ hnd
  have hperm := sortStrings_perm (mapKeys p)
  have hks : ∀ k ∈ sortStrings (mapKeys p),
      isToken k = true ∧ isToken ((mapGet p k).getD []) = true := by
    intro k hk
    have hk2 : k ∈ mapKeys p := hperm.mem_iff.mp hk
    unfold mapKeys at hk2
    obtain ⟨kv, hkv, rfl⟩ := List.mem_map.mp hk2
    have hg : mapGet p kv.1 = some kv.2 := (mapGet_eq_some_iff p hnd0 kv.1 kv.2).mpr hkv
    rw [hg]
    exact ⟨(hp kv hkv).1, (hp kv hkv).2.2⟩
  obtain ⟨hform, hchars⟩ := form_toLower t ht
  have hlne : toLower t ≠ [] := by
    rcases hform with h | h
    · exact ((isToken_iff _).mp h).1
    · obtain ⟨a, b, hab, _⟩ := isPrimarySubtype_split h
      rw [hab]
      simp
  have htne : t ≠ [] := by
    intro e
    apply hlne
    rw [e]
    rfl
  have hno59 : (59 : Byte) ∉ t := by
    intro hm
    have hm2 : (59 : Byte) ∈ toLower t := by
      unfold toLower
      exact List.mem_map.mpr ⟨59, hm, by decide⟩
    rcases hchars 59 hm2 with h | h
    · exact (isTokenChar_facts 59 h).1 rfl
    · exact absurd h (by decide)
  have hno59l : (59 : Byte) ∉ toLower t := by
    intro hm
    rcases hchars 59 hm with h | h
    · exact (isTokenChar_facts 59 h).1 rfl
    · exact absurd h (by decide)
  have hS : replaceSemicolonSpace (goFormatMediaType t p) =
      toLower t ++ tokenParams [] p (sortStrings (mapKeys p)) := by
    rw [goFormatMediaType_tokens t p ht (fun kv hkv => ⟨(hp kv hkv).1, (hp kv hkv).2.2⟩) hnd0,
      replaceSemicolonSpace_append _ _ hno59l, replaceSemicolonSpace_tokenParams p _ hks]
  obtain ⟨P, hparse, hP⟩ := goParseMediaType_formatted t p ht hp hnd
  have hres : resolveMediaType stdlib d
      (applyOptions [.WithMediaType t, .WithMediaTypeParams p]).mt
      (applyOptions [.WithMediaType t, .WithMediaTypeParams p]).params =
      .ok (replaceSemicolonSpace (goFormatMediaType t p)) :=
    resolveMediaType_bare stdlib d t p htne hno59 hpne
  have hP2 : ∀ kv ∈ P, (37 : Byte) ∉ kv.1 ∧ (37 : Byte) ∉ kv.2 :=
    fun kv hkv => percent_not_mem_lowerNames p hpct kv (hP.mem_iff.mp hkv)
  have hsne : replaceSemicolonSpace (goFormatMediaType t p) ≠ [] := by
    rw [hS]
    intro e
    exact hlne (List.append_eq_nil.mp e).1
  obtain ⟨c0, r0, hc0⟩ := List.exists_cons_of_ne_nil hlne
  have hc0m : c0 ∈ toLower t := by
    rw [hc0]
    exact List.mem_cons_self _ _
  have hhead : (replaceSemicolonSpace (goFormatMediaType t p)).head? = some c0 := by
    rw [hS, hc0]
    rfl
  have hc0ne : c0 ≠ 44 ∧ c0 ≠ 59 := by
    rcases hchars c0 hc0m with h | h
    · exact ⟨isTokenChar_ne_comma c0 h, (isTokenChar_facts c0 h).1⟩
    · rw [h]
      decide
  have h44 : (44 : Byte) ∉ replaceSemicolonSpace (goFormatMediaType t p) := by
    rw [hS]
    intro hm
    rcases List.mem_append.mp hm with hm | hm
    · rcases hchars 44 hm with h | h
      · exact isTokenChar_ne_comma 44 h rfl
      · exact absurd h (by decide)
    · exact comma_not_mem_tokenParams p _ hks hm
  have hparse2 : stdlib.ParseMediaType (replaceSemicolonSpace (goFormatMediaType t p)) =
      some (toLower t, P) := hparse
  refine ⟨_, P, Encode_of_resolve stdlib d _ _ hres, ?_, hP⟩
  rw [Parse_assembled stdlib sched _ d _ hd hsne h44 hmarker
    (by rw [hhead]; exact fun e => hc0ne.2 (Option.some.inj e)), hparse2]
  simp only [rangeParams_no_percent P hP2]
/-! ## Claim on the round trip of the media type -/

/-- C2 (amended): for every non-empty byte sequence `d`, every type string `t`
and every parameter map `p` without `%` in its names and values, such that the
media type string `s` that `Encode` writes for them is not empty (the
formatter accepts `t` and `p`), begins with neither `,` nor `;`, contains no
`;base64`, contains no `,` unless the payload is written in base64, and is
read by the media-type grammar parser as the type `t` in lower case with the
parameters of `p` under lower-cased names:
`Parse(Encode(d, WithMediaType(t), WithMediaTypeParams(p)))` succeeds, whatever
the order of the parameter pass, and returns `MediaType.Type` equal to `t` in
lower case, `MediaType.Params` equal to `p` with lower-cased names, and `Data`
equal to `d`. -/
theorem C2_media_type_roundtrip (ext : Mime) (sched : Schedule) (d t : Bytes)
    (p : Params) (s : Bytes) (P : Params) (hd : d ≠ [])
    (hpct : ∀ kv ∈ p, (37 : Byte) ∉ kv.1 ∧ (37 : Byte) ∉ kv.2)
    (hres : resolveMediaType ext d t p = .ok s) (hne : s ≠ [])
    (hhead : s.head? ≠ some 44) (hsemi : s.head? ≠ some 59)
    (hmarker : ¬ base64Marker <:+: s)
    (hcomma : usesBase64 (applyOptions [.WithMediaType t, .WithMediaTypeParams p]) s = false →
      (44 : Byte) ∉ s)
    (hparse : ext.ParseMediaType s = some (toLower t, P))
    (hP : P.Perm (lowerNames p)) :
    ∃ u P2, Encode ext d [.WithMediaType t, .WithMediaTypeParams p] = .ok u ∧
      Parse ext sched u =
        .ok { MediaType := { Typ := toLower t, Params := P2 }, Data := d } ∧
      P2.Perm (lowerNames p) := by
  have hres2 : resolveMediaType ext d
      (applyOptions [.WithMediaType t, .WithMediaTypeParams p]).mt
      (applyOptions [.WithMediaType t, .WithMediaTypeParams p]).params = .ok s := hres
  have hP2 : ∀ kv ∈ P, (37 : Byte) ∉ kv.1 ∧ (37 : Byte) ∉ kv.2 :=
    fun kv hkv => percent_not_mem_lowerNames p hpct kv (hP.mem_iff.mp hkv)
  refine ⟨_, P, Encode_of_resolve ext d _ _ hres2, ?_, hP⟩
  cases hb : usesBase64 (applyOptions [.WithMediaType t, .WithMediaTypeParams p]) s with
  | true =>
    rw [Parse_assembled_base64 ext sched s d hd hne hhead hmarker hsemi, hparse]
    simp only [rangeParams_no_percent P hP2]
  | false =>
    rw [Parse_assembled ext sched s d false hd hne (hcomma hb) hmarker hsemi, hparse]
    simp only [rangeParams_no_percent P hP2]

/-- C2, witness: the test vector of `TestEncode`, type `application/json` with
the parameter `charset=utf-8`, and the type `Application/JSON` with the
parameter `A = b,c`, whose comma does no harm since the payload is written in
base64, and which comes back with the type and the name in lower case. -/
theorem C2_media_type_roundtrip_witness :
    (∃ u P2, Encode stdlib (ascii "\x7b\"hello\":\"world\"\x7d")
        [.WithMediaType (ascii "application/json"),
          .WithMediaTypeParams [(ascii "charset", ascii "utf-8")]] = .ok u ∧
      Parse stdlib [] u =
        .ok { MediaType := { Typ := ascii "application/json", Params := P2 },
              Data := ascii "\x7b\"hello\":\"world\"\x7d" } ∧
      P2.Perm (lowerNames [(ascii "charset", ascii "utf-8")])) ∧
    (∃ u P2, Encode stdlib (ascii "x")
        [.WithMediaType (ascii "Application/JSON"),
          .WithMediaTypeParams [(ascii "A", ascii "b,c")]] = .ok u ∧
      Parse stdlib [] u =
        .ok { MediaType := { Typ := toLower (ascii "Application/JSON"), Params := P2 },
              Data := ascii "x" } ∧
      P2.Perm (lowerNames [(ascii "A", ascii "b,c")])) :=
  ⟨C2_media_type_roundtrip stdlib [] (ascii "\x7b\"hello\":\"world\"\x7d")
      (ascii "application/json") [(ascii "charset", ascii "utf-8")]
      (ascii "application/json;charset=utf-8")
      [(ascii "charset", ascii "utf-8")] (by decide) (by decide) (by decide) (by decide)
      (by decide) (by decide) (by decide) (fun h => absurd h (by decide)) (by decide)
      (List.Perm.refl _),
    C2_media_type_roundtrip stdlib [] (ascii "x")
      (ascii "Application/JSON") [(ascii "A", ascii "b,c")]
      (ascii "application/json;a=\"b,c\"")
      [(ascii "a", ascii "b,c")] (by decide) (by decide) (by decide) (by decide)
      (by decide) (by decide) (by decide) (fun h => absurd h (by decide)) (by decide)
      (List.Perm.refl _)⟩

/-- C2, counterexample: three parameter maps and a type that the formatter
accepts and that do not come back.  The value `%` makes `Parse` fail (the
parameter pass reads it as a broken escape sequence); the value `x; y` comes
back as `x;y` (the collapse of `"; "` reaches into the quoted value); the
value `x,y` under a type written literally makes `Parse` fail (the header is
cut at the first comma); the type `Text/Plain` comes back as `text/plain`. -/
theorem C2_counterexample :
    (Encode stdlib (ascii "x")
        [.WithMediaType (ascii "text/plain"), .WithMediaTypeParams [(ascii "a", ascii "%")]] =
        .ok (ascii "data:text/plain;a=%,x") ∧
      Parse stdlib [] (ascii "data:text/plain;a=%,x") =
        .error (.paramValue (ascii "a") (.unexpectedEnd 0))) ∧
    (Encode stdlib (ascii "x")
        [.WithMediaType (ascii "text/plain"),
          .WithMediaTypeParams [(ascii "a", ascii "x; y")]] =
        .ok (ascii "data:text/plain;a=\"x;y\",x") ∧
      Parse stdlib [] (ascii "data:text/plain;a=\"x;y\",x") =
        .ok { MediaType := { Typ := ascii "text/plain", Params := [(ascii "a", ascii "x;y")] },
              Data := ascii "x" }) ∧
    (Encode stdlib (ascii "x")
        [.WithMediaType (ascii "text/plain"),
          .WithMediaTypeParams [(ascii "a", ascii "x,y")]] =
        .ok (ascii "data:text/plain;a=\"x,y\",x") ∧
      Parse stdlib [] (ascii "data:text/plain;a=\"x,y\",x") =
        .error (.mediaType (ascii "text/plain;a=\"x"))) ∧
    (Encode stdlib (ascii "x")
        [.WithMediaType (ascii "Text/Plain"),
          .WithMediaTypeParams [(ascii "a", ascii "b")]] =
        .ok (ascii "data:text/plain;a=b,x") ∧
      Parse stdlib [] (ascii "data:text/plain;a=b,x") =
        .ok { MediaType := { Typ := ascii "text/plain", Params := [(ascii "a", ascii "b")] },
              Data := ascii "x" } ∧
      ascii "text/plain" ≠ ascii "Text/Plain") := by
  decide

end Dataurl
